import Mathlib

/-!
Verification of the liquid-docs core (`src/liquid_docs.rs`): the tag scanner
`extract_doc_blocks` and the content parser `parse_doc_content`, shallowly
embedded over `List Char` with explicit UTF-8 byte offsets, mirroring Rust's
`str` / `CharIndices` machinery.  Rust `&str` range slicing panics when an
index is out of bounds or not on a character boundary; we model this with an
explicit `panic` outcome so that reachability of panics is provable.
-/

set_option maxHeartbeats 1000000

namespace LiquidDocs

/-- Strings are modelled as lists of unicode scalar values, as Rust `&str`
viewed through its `chars()` iterator. -/
abbrev Str := List Char

/-- Unicode `White_Space` predicate, as Rust `char::is_whitespace`. -/
def rustIsWhitespace (c : Char) : Bool :=
  let n := c.toNat
  (0x09 ≤ n && n ≤ 0x0D) || n = 0x20 || n = 0x85 || n = 0xA0 || n = 0x1680 ||
  (0x2000 ≤ n && n ≤ 0x200A) || n = 0x2028 || n = 0x2029 || n = 0x202F ||
  n = 0x205F || n = 0x3000

/-- UTF-8 encoding of one character, as Rust `str::as_bytes` produces. -/
def charUtf8Bytes (c : Char) : List Nat :=
  let n := c.toNat
  if n < 0x80 then [n]
  else if n < 0x800 then [0xC0 + n / 64, 0x80 + n % 64]
  else if n < 0x10000 then [0xE0 + n / 4096, 0x80 + (n / 64) % 64, 0x80 + n % 64]
  else [0xF0 + n / 262144, 0x80 + (n / 4096) % 64, 0x80 + (n / 64) % 64, 0x80 + n % 64]

/-- UTF-8 byte width of one character (Rust `char::len_utf8`). -/
def uwidth (c : Char) : Nat := (charUtf8Bytes c).length

/-- UTF-8 bytes of a string (Rust `str::as_bytes`). -/
def utf8Bytes (s : Str) : List Nat := (s.map charUtf8Bytes).flatten

/-- UTF-8 byte length of a string (Rust `str::len`). -/
def byteLen (s : Str) : Nat := (utf8Bytes s).length

/-- Characters of a string paired with their byte offsets, starting the
offsets at `i`; `charIndices s = charIndicesFrom 0 s` is Rust
`str::char_indices`. -/
def charIndicesFrom : Nat → Str → List (Nat × Char)
  | _, [] => []
  | i, c :: cs => (i, c) :: charIndicesFrom (i + uwidth c) cs

/-- Rust `str::char_indices`: each character with its byte offset. -/
def charIndices (s : Str) : List (Nat × Char) := charIndicesFrom 0 s

/-- Characters of `content` whose byte span lies inside `[a, b)`.  For
character-boundary indices `a ≤ b` this is the character sequence of the Rust
slice `&content[a..b]`. -/
def sliceT (content : Str) (a b : Nat) : Str :=
  (((charIndices content).dropWhile (fun p => decide (p.1 < a))).takeWhile
    (fun p => decide (p.1 < b))).map Prod.snd

/-- Character sequence of `&content[pos..]` for a character-boundary `pos`
(all positions handed around by the scanner come from `char_indices`, hence
are boundaries). -/
def restFromByte (content : Str) (pos : Nat) : Str :=
  sliceT content pos (byteLen content)

/-- Decide whether byte index `i` is a character boundary of `content`
(Rust `str::is_char_boundary`). -/
def isBoundary (content : Str) (i : Nat) : Bool :=
  i = byteLen content || ((charIndices content).map Prod.fst).contains i

/-- Rust `&content[a..b]`: `some` slice when `a ≤ b ≤ len` and both indices
are character boundaries, `none` when the indexing operation panics. -/
def sliceO (content : Str) (a b : Nat) : Option Str :=
  if a ≤ b ∧ b ≤ byteLen content ∧ isBoundary content a ∧ isBoundary content b
  then some (sliceT content a b) else none

/-- Rust `str::trim`: drop unicode whitespace from both ends. -/
def trimStr (s : Str) : Str :=
  ((s.dropWhile rustIsWhitespace).reverse.dropWhile rustIsWhitespace).reverse

/-- ASCII lower-casing of a character (identity outside `A`-`Z`), used by
`eq_ignore_ascii_case`. -/
def asciiLower (c : Char) : Char :=
  if 65 ≤ c.toNat ∧ c.toNat ≤ 90 then Char.ofNat (c.toNat + 32) else c

/-- Rust `str::eq_ignore_ascii_case` restated on character lists: equal
shape and ASCII-case-insensitively equal characters.  (Byte-wise ASCII case
folding identifies exactly these pairs, since UTF-8 is injective and
non-ASCII bytes are untouched by the folding.) -/
def eqIgnoreAsciiCase (xs ys : Str) : Bool :=
  xs.length = ys.length &&
  (List.zip xs ys).all (fun p => asciiLower p.1 = asciiLower p.2)

/-- Rust `u8::is_ascii_alphanumeric` on a byte value. -/
def byteIsAlnum (b : Nat) : Bool :=
  (48 ≤ b && b ≤ 57) || (65 ≤ b && b ≤ 90) || (97 ≤ b && b ≤ 122)

/-- Count of non-overlapping occurrences of `pat`, with explicit fuel;
`countMatches` instantiates the fuel.  Models Rust `content.matches(pat).count()`. -/
def countMatchesFuel (pat : Str) : Nat → Str → Nat
  | 0, _ => 0
  | _ + 1, [] => 0
  | fuel + 1, c :: cs =>
    if pat.isPrefixOf (c :: cs) then 1 + countMatchesFuel pat fuel ((c :: cs).drop pat.length)
    else countMatchesFuel pat fuel cs

/-- Rust `content.matches(pat).count()`: non-overlapping occurrence count. -/
def countMatches (content pat : Str) : Nat := countMatchesFuel pat content.length content

/-- Split a list at every newline character (keeping no separators). -/
def splitOnNl : Str → List Str
  | [] => [[]]
  | c :: cs =>
    if c = '\n' then [] :: splitOnNl cs
    else match splitOnNl cs with
      | [] => [[c]]
      | l :: ls => (c :: l) :: ls

/-- Drop one trailing carriage return, as Rust `str::lines` does per line. -/
def dropTrailingCr (s : Str) : Str :=
  match s.reverse with
  | '\r' :: r => r.reverse
  | _ => s

/-- Rust `str::lines`: split on `\n`, drop a final empty piece, strip one
trailing `\r` per line. -/
def rustLines (s : Str) : List Str :=
  let parts := splitOnNl s
  let parts := if parts.getLast? = some [] then parts.dropLast else parts
  parts.map dropTrailingCr

/-- Outcome of running a piece of embedded Rust: a value, a panic (for the
reachable `&str`-slicing panics), or fuel exhaustion of the embedding's
bounded loops (never reached with the fuel the wrappers supply). -/
inductive PRes (α : Type) where
  | val (a : α)
  | panic
  | fuel
deriving DecidableEq, Repr

/-- Parameter types, as the crate's `ParamType` enum used by
`liquid_docs.rs` (`String | Number | Boolean | Object | ArrayOf(Box<ParamType>)
| Shopify(String)`). -/
inductive ParamType where
  | string
  | number
  | boolean
  | object
  | arrayOf (t : ParamType)
  | shopify (name : Str)
deriving DecidableEq, Repr

/-- One `@param` record, as the crate's `Param` struct used by
`liquid_docs.rs` (name, optional description, optional type, optionality). -/
structure Param where
  name : Str
  description : Option Str
  type_ : Option ParamType
  optional : Bool
deriving DecidableEq, Repr

/-- Default `Param` value (Rust `Param::default()`). -/
def Param.default : Param := ⟨[], none, none, false⟩

/-- Parsed doc block, as the crate's `DocBlock` struct used by
`liquid_docs.rs` (description, ordered params, ordered examples). -/
structure DocBlock where
  description : Str
  param : List Param
  «example» : List Str
deriving DecidableEq, Repr

/-- Default `DocBlock` value (Rust `DocBlock::default()`). -/
def DocBlock.default : DocBlock := ⟨[], [], []⟩

/-- Error taxonomy of `parse_doc_content` (`ParsingError` in
`liquid_docs.rs`). -/
inductive ParsingError where
  | MissingParameterName (line column : Nat) (message : Str)
  | MissingOptionalClosingBracket (message : Str)
  | UnexpectedParameterEnd (message : Str)
  | UnknownParameterType (typeName : Str)
  | NoDocContentFound
deriving DecidableEq, Repr

/-- Result of `parse_doc_content` before the panic layer (Rust
`Result<DocBlock, ParsingError>`). -/
inductive POut where
  | ok (db : DocBlock)
  | err (e : ParsingError)
deriving DecidableEq, Repr

/-- Modelled from the spec: the fixed allow-list of platform (Shopify)
object-type names (`SHOPIFY_ALLOWED_OBJECTS` lives in a module of this
repository that is not under `src/`; the spec describes it as a fixed,
versioned set of recognized built-in domain object names, and the test suite
of `liquid_docs.rs` pins `collection` as a member). -/
def SHOPIFY_ALLOWED_OBJECTS : List Str :=
  ["additional_checkout_buttons".data, "address".data, "all_country_option_tags".data,
   "article".data, "articles".data, "block".data, "blog".data, "blogs".data,
   "cart".data, "collection".data, "collections".data, "customer".data,
   "image".data, "images".data, "link".data, "linklist".data, "linklists".data,
   "order".data, "page".data, "pages".data, "product".data, "products".data,
   "section".data, "shop".data, "theme".data, "variant".data, "video".data]

/-- Literal `"doc"`. -/
def docStr : Str := "doc".data

/-- Literal `"enddoc"`. -/
def enddocStr : Str := "enddoc".data

/-- Literal `"raw"`. -/
def rawStr : Str := "raw".data

/-- Literal `"endraw"`. -/
def endrawStr : Str := "endraw".data

/-- Literal `"comment"`. -/
def commentStr : Str := "comment".data

/-- Literal `"endcomment"`. -/
def endcommentStr : Str := "endcomment".data

/-- Literal `"#"`. -/
def hashStr : Str := "#".data

/-- Literal `"{%"` (a liquid tag opener). -/
def tagOpenStr : Str := "\x7b%".data

/-- Literal `"description"`. -/
def descriptionStr : Str := "description".data

/-- Literal `"param"`. -/
def paramStr : Str := "param".data

/-- Literal `"example"`. -/
def exampleStr : Str := "example".data

/-- The three annotation markers scanned for by `consume_until_either`
(each with its trailing space). -/
def markers : List Str := ["@param ".data, "@example ".data, "@description ".data]

/-- Scanner state: the remaining `(byte offset, char)` pairs of the peekable
`CharIndices` iterator.  `content` is passed separately to each primitive. -/
abbrev St := List (Nat × Char)

/-- Rust `LiquidDocs::consume_whitespace`: advance while the next character
is whitespace. -/
def consume_whitespace : St → St
  | [] => []
  | (i, c) :: st => if rustIsWhitespace c then consume_whitespace st else (i, c) :: st

/-- Rust `LiquidDocs::consume_whitespace_until_newline`: advance while the
next character is whitespace other than `\n`. -/
def consume_whitespace_until_newline : St → St
  | [] => []
  | (i, c) :: st =>
    if rustIsWhitespace c && !(c = '\n') then consume_whitespace_until_newline st
    else (i, c) :: st

/-- Rust `LiquidDocs::skip_dash`: consume one `-` if it is next. -/
def skip_dash : St → St
  | (_, '-') :: st => st
  | st => st

/-- Rust `LiquidDocs::consume_chars`: consume up to `count` characters. -/
def consume_chars (count : Nat) (st : St) : St := st.drop count

/-- Rust `LiquidDocs::peek_matches`: does the content at the peeked position
start with `needle` (ASCII-case-insensitively) followed by a non-alphanumeric
byte boundary?  The slice `content[start..start+needle.len()]` is taken
before the comparison; when its end lands inside a multi-byte character the
Rust code panics, modelled by `.panic`. -/
def peek_matches (content needle : Str) (st : St) : PRes Bool :=
  match st with
  | [] => .val false
  | (start_pos, _) :: _ =>
    if start_pos + byteLen needle ≤ byteLen content then
      match sliceO content start_pos (start_pos + byteLen needle) with
      | none => .panic
      | some sl =>
        if eqIgnoreAsciiCase sl needle then
          if start_pos + byteLen needle < byteLen content then
            .val (!byteIsAlnum ((utf8Bytes content).getD (start_pos + byteLen needle) 0))
          else .val true
        else .val false
    else .val false

/-- Rust `LiquidDocs::skip_to_tag_close`: whitespace, optional dash, then
`%` and `}`; returns the byte position after the closing `%}` (end of content
when the iterator is exhausted). -/
def skip_to_tag_close (content : Str) (st0 : St) : Option Nat × St :=
  let st := skip_dash (consume_whitespace st0)
  match st with
  | (_, '%') :: st2 =>
    match st2 with
    | (_, '\x7d') :: st3 =>
      match st3 with
      | [] => (some (byteLen content), [])
      | (p, _) :: _ => (some p, st3)
    | _ => (none, st2)
  | _ => (none, st)

/-- Inner loop of `consume_until`, scanning for a `target` that starts with
`t0`.  A candidate position is checked by slicing
`content[pos..pos+target.len()]`, which panics when the end of the slice is
not a character boundary. -/
def consume_until_go (content target : Str) (t0 : Char) : St → PRes (Option Nat × St)
  | [] => .val (none, [])
  | (pos, ch) :: st =>
    if ch = t0 then
      if pos + byteLen target ≤ byteLen content then
        match sliceO content pos (pos + byteLen target) with
        | none => .panic
        | some sl =>
          if sl = target then .val (some pos, (pos, ch) :: st)
          else consume_until_go content target t0 st
      else consume_until_go content target t0 st
    else consume_until_go content target t0 st

/-- Rust `LiquidDocs::consume_until`: advance to the next occurrence of
`target`, returning its byte position (the found position itself is left
unconsumed). -/
def consume_until (content target : Str) (st : St) : PRes (Option Nat × St) :=
  match target with
  | [] => .val (none, st)
  | t0 :: _ => consume_until_go content target t0 st

/-- Rust `LiquidDocs::consume_until_either`: advance to the first position
where the remaining content starts with one of `needles`. -/
def consume_until_either (content : Str) (needles : List Str) : St → Option Nat × St
  | [] => (none, [])
  | (pos, ch) :: st =>
    if needles.any (fun n => n.isPrefixOf (restFromByte content pos)) then
      (some pos, (pos, ch) :: st)
    else consume_until_either content needles st

/-- Rust `LiquidDocs::get_line_and_column` helper: walk the bytes keeping
the running line count and the byte position just after the last newline. -/
def glcGo : List Nat → Nat → Nat → Nat → Nat × Nat
  | [], _, line, lnl => (line, lnl)
  | b :: bs, i, line, lnl =>
    if b = 10 then glcGo bs (i + 1) (line + 1) (i + 1) else glcGo bs (i + 1) line lnl

/-- Rust `LiquidDocs::get_line_and_column`: 1-indexed line and column of a
byte offset. -/
def get_line_and_column (content : Str) (byte_offset : Nat) : Nat × Nat :=
  let bytes := (utf8Bytes content).take (min byte_offset (byteLen content))
  let lc := glcGo bytes 0 1 0
  (lc.1, byte_offset - lc.2 + 1)

/-- Rust `LiquidDocs::skip_to_tag`: scan for the next `{%` whose tag name
(after optional dash and whitespace) matches `tag`; return either the
position of that `{%` or, for `return_end`, the position after the tag's
closing `%}`. -/
def skip_to_tag (content tag : Str) (return_end : Bool) : Nat → St → PRes (Option Nat × St)
  | 0, _ => .fuel
  | fuel + 1, st =>
    match consume_until content tagOpenStr st with
    | .panic => .panic
    | .fuel => .fuel
    | .val (none, st') => .val (none, st')
    | .val (some tag_start, st') =>
      let current_pos := match st' with
        | (p, _) :: _ => p
        | [] => byteLen content
      let st2 := consume_chars (tag_start - current_pos + 2) st'
      let st3 := consume_whitespace (skip_dash st2)
      match peek_matches content tag st3 with
      | .panic => .panic
      | .fuel => .fuel
      | .val true =>
        if return_end then
          let st4 := consume_chars (byteLen tag) st3
          let r := skip_to_tag_close content st4
          .val r
        else .val (some tag_start, st3)
      | .val false => skip_to_tag content tag return_end fuel st3

/-- Result of one iteration of the `extract_doc_blocks` scan loop: continue
with a possibly extracted block, return `None` early (the `?` operator on a
failed tag-close or `enddoc` lookup), panic, or run out of fuel. -/
inductive ExStep where
  | cont (st : St) (pushed : Option Str)
  | retNone
  | panicked
  | fuelled
deriving DecidableEq, Repr

/-- Body of one iteration of the `extract_doc_blocks` while-loop, after
`next()` produced the character `ch`: recognize a `{%` opener, dispatch on
`#` / `raw` / `comment` / `doc`, and extract one block slice on `doc`. -/
def extract_step (content : Str) (ch : Char) (st : St) : ExStep :=
  match ch, st with
  | '\x7b', (_, '%') :: st1 =>
    let st2 := consume_whitespace (skip_dash st1)
    match peek_matches content hashStr st2 with
    | .panic => .panicked
    | .fuel => .fuelled
    | .val true =>
      let r := skip_to_tag_close content st2
      .cont r.2 none
    | .val false =>
      match peek_matches content rawStr st2 with
      | .panic => .panicked
      | .fuel => .fuelled
      | .val true =>
        match skip_to_tag content endrawStr true (st2.length + 1) st2 with
        | .panic => .panicked
        | .fuel => .fuelled
        | .val r => .cont r.2 none
      | .val false =>
        match peek_matches content commentStr st2 with
        | .panic => .panicked
        | .fuel => .fuelled
        | .val true =>
          match skip_to_tag content endcommentStr true (st2.length + 1) st2 with
          | .panic => .panicked
          | .fuel => .fuelled
          | .val r => .cont r.2 none
        | .val false =>
          match peek_matches content docStr st2 with
          | .panic => .panicked
          | .fuel => .fuelled
          | .val true =>
            let st3 := consume_chars 3 st2
            match skip_to_tag_close content st3 with
            | (none, _) => .retNone
            | (some doc_content_start, st4) =>
              match skip_to_tag content enddocStr false (st4.length + 1) st4 with
              | .panic => .panicked
              | .fuel => .fuelled
              | .val (none, _) => .retNone
              | .val (some doc_content_end, st5) =>
                .cont st5 (some (sliceT content doc_content_start doc_content_end))
          | .val false => .cont st2 none
  | _, st => .cont st none

/-- While-loop of `extract_doc_blocks`, with the early exit once
`found_blocks == possible_doc_blocks`. -/
def extract_loopB (content : Str) (possible : Nat) :
    Nat → St → List Str → Nat → PRes (Option (List Str))
  | 0, _, _, _ => .fuel
  | _ + 1, [], blocks, _ => .val (some blocks)
  | fuel + 1, (_, ch) :: st, blocks, found =>
    match extract_step content ch st with
    | .retNone => .val none
    | .panicked => .panic
    | .fuelled => .fuel
    | .cont st' pushed =>
      let blocks' := blocks ++ pushed.toList
      let found' := found + (if pushed.isSome then 1 else 0)
      if found' = possible then .val (some blocks')
      else extract_loopB content possible fuel st' blocks' found'

/-- Modelled from the spec: the reference full left-to-right scan of
`extract_doc_blocks` "without the early exit (and without the enddoc-count
fast reject)" — the same iteration body run to the end of input. -/
def extract_loopNB (content : Str) : Nat → St → List Str → PRes (Option (List Str))
  | 0, _, _ => .fuel
  | _ + 1, [], blocks => .val (some blocks)
  | fuel + 1, (_, ch) :: st, blocks =>
    match extract_step content ch st with
    | .retNone => .val none
    | .panicked => .panic
    | .fuelled => .fuel
    | .cont st' pushed => extract_loopNB content fuel st' (blocks ++ pushed.toList)

/-- Rust `LiquidDocs::extract_doc_blocks`: fast-reject on the count of
literal `"enddoc"` occurrences, scan, and return `None` when no block was
extracted. -/
def extract_doc_blocks (content : Str) : PRes (Option (List Str)) :=
  let possible := countMatches content enddocStr
  if possible = 0 then .val none
  else
    match extract_loopB content possible (content.length + 1) (charIndices content) [] 0 with
    | .val (some blocks) => .val (if blocks = [] then none else some blocks)
    | .val none => .val none
    | .panic => .panic
    | .fuel => .fuel

/-- Modelled from the spec: `extract_doc_blocks` as the full scan without
the fast reject and without the early exit, returning `None` exactly when
the scan extracts no block or an extraction step fails. -/
def extract_doc_blocks_spec (content : Str) : PRes (Option (List Str)) :=
  match extract_loopNB content (content.length + 1) (charIndices content) [] with
  | .val (some blocks) => .val (if blocks = [] then none else some blocks)
  | .val none => .val none
  | .panic => .panic
  | .fuel => .fuel

/-- Outcome of the `@param` branch of `parse_doc_content`: a parameter to
push (or `none` when it equals the all-default value), or an early-returned
parsing error. -/
inductive PBr where
  | ok (p : Option Param) (st : St)
  | err (e : ParsingError)
deriving DecidableEq, Repr

/-- Outcome of the combined `@`-dispatch of one `parse_doc_content`
iteration. -/
inductive ABr where
  | ok (db : DocBlock) (st : St)
  | err (e : ParsingError)
deriving DecidableEq, Repr

/-- The `@description` branch of `parse_doc_content`: consume the keyword,
skip whitespace, capture up to the next annotation marker, strip an optional
leading `-`, and store the trimmed text as the description. -/
def desc_branch (content : Str) (st0 : St) (db : DocBlock) : DocBlock × St :=
  let st := consume_whitespace (consume_chars 11 st0)
  let start_pos := match st with
    | (p, _) :: _ => p
    | [] => byteLen content
  let r := consume_until_either content markers st
  let end_pos := r.1.getD (byteLen content)
  if start_pos < end_pos then
    match trimStr (sliceT content start_pos end_pos) with
    | '-' :: stripped => ({ db with description := trimStr stripped }, r.2)
    | t => ({ db with description := t }, r.2)
  else (db, r.2)

/-- Resolution of a `@param` type name (the if-chain of `liquid_docs.rs`
lines 194-211): the four built-ins, then the Shopify allow-list, else
`UnknownParameterType`. -/
def resolve_type_name (type_name : Str) : Sum ParsingError ParamType :=
  if type_name = "string".data then .inr .string
  else if type_name = "number".data then .inr .number
  else if type_name = "boolean".data then .inr .boolean
  else if type_name = "object".data then .inr .object
  else
    let is_valid_param_type :=
      type_name = "string".data ∨ type_name = "number".data ∨
      type_name = "boolean".data ∨ type_name = "object".data ∨
      SHOPIFY_ALLOWED_OBJECTS.contains type_name
    if ¬is_valid_param_type then .inl (.UnknownParameterType type_name)
    else .inr (.shopify type_name)

/-- The optional `{type}` step of the `@param` branch: when the peeked
character is `{`, consume it, scan to `}`, strip `[]` and resolve. -/
def param_type_step (content : Str) (line_start start_pos : Nat) (ch : Char) (st : St) :
    PRes (Sum ParsingError (Option ParamType × St)) :=
  if ch = '\x7b' then
    match st with
    | [] => .val (.inl (.UnexpectedParameterEnd (restFromByte content line_start)))
    | _ :: st1 =>
      match consume_until content ("\x7d".data) st1 with
      | .panic => .panic
      | .fuel => .fuel
      | .val (none, _) => .val (.inl (.UnexpectedParameterEnd (restFromByte content line_start)))
      | .val (some end_pos, st2) =>
        let type_name := trimStr (sliceT content (start_pos + 1) end_pos)
        let is_array := ("[]".data).isSuffixOf type_name
        let type_name := if is_array then type_name.dropLast.dropLast else type_name
        match resolve_type_name type_name with
        | .inl e => .val (.inl e)
        | .inr explicit_type =>
          let t := if is_array then ParamType.arrayOf explicit_type else explicit_type
          .val (.inr (some t, consume_chars 1 st2))
  else .val (.inr (none, st))

/-- The name scan of the `@param` branch: to `]` for an optional parameter
(`MissingOptionalClosingBracket` when absent), else to the first space or
newline. -/
def param_name_step (content : Str) (line_start : Nat) (optional : Bool) (st : St) :
    PRes (Sum ParsingError (Nat × St)) :=
  if optional then
    match consume_until content ("]".data) st with
    | .panic => .panic
    | .fuel => .fuel
    | .val (none, _) =>
      .val (.inl (.MissingOptionalClosingBracket (restFromByte content line_start)))
    | .val (some end_pos, st') => .val (.inr (end_pos, st'))
  else
    let r := consume_until_either content [" ".data, "\n".data] st
    .val (.inr (r.1.getD (byteLen content), r.2))

/-- The optional trailing-description step of the `@param` branch: when the
next character exists and is not a newline, capture up to the newline,
stripping one leading `-`. -/
def param_desc_step (content : Str) (st : St) : PRes (Option Str × St) :=
  match st with
  | (_, chD) :: _ =>
    if chD = '\n' then .val (none, st)
    else
      let stD := consume_whitespace_until_newline st
      let d_start := match stD with
        | (p, c) :: _ => if c = '-' then p + 1 else p
        | [] => byteLen content
      match consume_until content ("\n".data) stD with
      | .panic => .panic
      | .fuel => .fuel
      | .val r =>
        let d_end := r.1.getD (byteLen content)
        if d_start < d_end then .val (some (trimStr (sliceT content d_start d_end)), r.2)
        else .val (none, r.2)
  | [] => .val (none, st)

/-- The `@param` branch of `parse_doc_content`: optional `{type}`, optional
`[` optionality marker, name scan, optional trailing description, assembling
a `Param` exactly as the Rust code does (early-returning its errors). -/
def param_branch (content : Str) (line_start : Nat) (st0 : St) : PRes PBr :=
  let st := consume_whitespace_until_newline (consume_chars 5 st0)
  match st with
  | [] => .val (.err (.UnexpectedParameterEnd (restFromByte content line_start)))
  | (start_pos, ch) :: _ =>
    match param_type_step content line_start start_pos ch st with
    | .panic => .panic
    | .fuel => .fuel
    | .val (.inl e) => .val (.err e)
    | .val (.inr (ptype, stT)) =>
      let stT := consume_whitespace_until_newline stT
      match stT with
      | [] =>
        let lc := get_line_and_column content line_start
        .val (.err (.MissingParameterName lc.1 lc.2 (restFromByte content line_start)))
      | (pos, ch2) :: _ =>
        let optional := ch2 = '['
        let name_start := if optional then pos + 1 else pos
        let stO := if optional then consume_chars 1 stT else stT
        let stO := consume_whitespace_until_newline stO
        match param_name_step content line_start optional stO with
        | .panic => .panic
        | .fuel => .fuel
        | .val (.inl e) => .val (.err e)
        | .val (.inr (end_pos, stN)) =>
          let name := trimStr (sliceT content name_start end_pos)
          let stN := if optional then consume_chars 1 stN else stN
          if name = [] then
            let lc := get_line_and_column content line_start
            .val (.err (.MissingParameterName lc.1 lc.2 (restFromByte content line_start)))
          else if name.contains '\n' then
            .val (.err (.MissingOptionalClosingBracket (restFromByte content line_start)))
          else
            match param_desc_step content stN with
            | .panic => .panic
            | .fuel => .fuel
            | .val descStep =>
              let param : Param := ⟨name, descStep.1, ptype, optional⟩
              .val (.ok (if param = Param.default then none else some param) descStep.2)

/-- The `@example` branch of `parse_doc_content`: capture up to the next
annotation marker, dedent by the leading-whitespace level, and append the
example when non-empty. -/
def example_branch (content : Str) (st0 : St) (db : DocBlock) : DocBlock × St :=
  let st := consume_whitespace_until_newline (consume_chars 7 st0)
  let start_pos := match st with
    | (p, _) :: _ => p
    | [] => byteLen content
  let r := consume_until_either content markers st
  let end_pos := r.1.getD (byteLen content)
  let raw := sliceT content start_pos end_pos
  let indentation_level := (raw.takeWhile rustIsWhitespace).length
  let ex :=
    if 0 < indentation_level then
      List.intercalate ("\n".data)
        ((rustLines (trimStr raw)).map (fun line =>
          line.drop (((line.take (indentation_level - 1)).takeWhile rustIsWhitespace).length)))
    else trimStr raw
  (if ex = [] then db else { db with «example» := db.«example» ++ [ex] }, r.2)

/-- The `ch == '@'` body of one `parse_doc_content` iteration: the three
sequential `@description` / `@param` / `@example` checks, each preceded by
its `peek_matches` call. -/
def at_branch (content : Str) (line_start : Nat) (st : St) (db : DocBlock) : PRes ABr :=
  match peek_matches content descriptionStr st with
  | .panic => .panic
  | .fuel => .fuel
  | .val b1 =>
    let r1 := if b1 ∧ db.description = [] then desc_branch content st db else (db, st)
    match peek_matches content paramStr r1.2 with
    | .panic => .panic
    | .fuel => .fuel
    | .val b2 =>
      let step2 : PRes ABr :=
        if b2 then
          match param_branch content line_start r1.2 with
          | .panic => .panic
          | .fuel => .fuel
          | .val (.err e) => .val (.err e)
          | .val (.ok p st') =>
            .val (.ok { r1.1 with param := r1.1.param ++ p.toList } st')
        else .val (.ok r1.1 r1.2)
      match step2 with
      | .panic => .panic
      | .fuel => .fuel
      | .val (.err e) => .val (.err e)
      | .val (.ok db2 st2) =>
        match peek_matches content exampleStr st2 with
        | .panic => .panic
        | .fuel => .fuel
        | .val b3 =>
          if b3 then
            let r3 := example_branch content st2 db2
            .val (.ok r3.1 r3.2)
          else .val (.ok db2 st2)

/-- While-loop of `parse_doc_content`: per character, the leading-text
description capture and the `@` dispatch. -/
def parse_loop (content : Str) : Nat → St → DocBlock → PRes POut
  | 0, _, _ => .fuel
  | _ + 1, [], db => .val (.ok db)
  | fuel + 1, (line_start, ch) :: st, db =>
    let r1 :=
      if db.description = [] ∧ ch ≠ '@' then
        let r := consume_until_either content markers st
        let end_pos := r.1.getD (byteLen content)
        ({ db with description := trimStr (sliceT content line_start end_pos) }, r.2)
      else (db, st)
    if ch = '@' then
      match at_branch content line_start r1.2 r1.1 with
      | .panic => .panic
      | .fuel => .fuel
      | .val (.err e) => .val (.err e)
      | .val (.ok db2 st2) => parse_loop content fuel st2 db2
    else parse_loop content fuel r1.2 r1.1

/-- Rust `LiquidDocs::parse_doc_content`: skip leading whitespace, run the
scan loop, and reject an all-default result as `NoDocContentFound`. -/
def parse_doc_content (content : Str) : PRes POut :=
  let st := consume_whitespace (charIndices content)
  match parse_loop content (content.length + 1) st DocBlock.default with
  | .val (.ok db) =>
    .val (if db = DocBlock.default then .err .NoDocContentFound else .ok db)
  | r => r

/-- Byte index of the last occurrence of byte 10 (`\n`) in a byte list. -/
def lastNlIdx : List Nat → Option Nat
  | [] => none
  | b :: bs =>
    match lastNlIdx bs with
    | some k => some (k + 1)
    | none => if b = 10 then some 0 else none

/-- Byte position of the `\n` byte preceding offset `off` in `content`,
when one exists. -/
def precedingNlPos (content : Str) (off : Nat) : Option Nat :=
  lastNlIdx ((utf8Bytes content).take off)

/-- Byte position of the start of the line containing offset `off`: just
after the preceding newline, or 0 when there is none. -/
def lastNewlineStart (content : Str) (off : Nat) : Nat :=
  match precedingNlPos content off with
  | none => 0
  | some k => k + 1

/-- Column formula as the claim literally words it: one plus the offset
minus the position of the preceding `\n` byte (zero when there is none). -/
def claimedColumn (content : Str) (off : Nat) : Nat :=
  1 + (off - (precedingNlPos content off).getD 0)

/-- The implicit leading description a body would receive from the first
iteration of the parse loop: the trimmed text from the first non-whitespace
character (when it is not `@`) up to the first annotation marker. -/
def leadingDescription (body : Str) : Str :=
  match consume_whitespace (charIndices body) with
  | [] => []
  | (p, c) :: st =>
    if c = '@' then []
    else trimStr (sliceT body p
      (((consume_until_either body markers st).1).getD (byteLen body)))

end LiquidDocs

namespace LiquidDocs

/-! Helper lemmas: line/column arithmetic and the provenance of
`MissingParameterName` errors. -/

theorem glcGo_spec (bs : List Nat) : ∀ i line lnl, glcGo bs i line lnl =
    (line + bs.count 10,
     match lastNlIdx bs with
     | none => lnl
     | some k => i + k + 1) := by
  induction bs with
  | nil => intro i line lnl; simp [glcGo, lastNlIdx]
  | cons b bs ih =>
    intro i line lnl
    by_cases hb : b = 10
    · subst hb
      simp only [glcGo, if_pos rfl, ih, lastNlIdx, List.count_cons]
      cases h : lastNlIdx bs <;> (simp [h]; omega)
    · simp only [glcGo, if_neg hb, ih, lastNlIdx, List.count_cons]
      cases h : lastNlIdx bs
      · simp [h, hb]
      · simp [h, hb]
        omega

theorem get_line_and_column_eq (content : Str) (off : Nat) :
    get_line_and_column content off =
      (1 + ((utf8Bytes content).take off).count 10,
       off - lastNewlineStart content off + 1) := by
  have htake : (utf8Bytes content).take (min off (byteLen content)) =
      (utf8Bytes content).take off := by
    rcases le_total off (byteLen content) with h | h
    · rw [min_eq_left h]
    · rw [min_eq_right h]
      rw [byteLen] at h ⊢
      rw [List.take_length, List.take_of_length_le h]
  simp only [get_line_and_column, htake, glcGo_spec, lastNewlineStart, precedingNlPos]
  cases h : lastNlIdx ((utf8Bytes content).take off) <;> simp [h, Nat.add_comm]

theorem resolve_type_name_inl (tn : Str) (e : ParsingError)
    (h : resolve_type_name tn = .inl e) : ∃ t, e = .UnknownParameterType t := by
  simp only [resolve_type_name] at h
  repeat' split at h
  all_goals simp at h
  exact ⟨_, h.symm⟩

theorem pts_err (content : Str) (ls sp : Nat) (ch : Char) (st : St)
    (e : ParsingError) (h : param_type_step content ls sp ch st = .val (.inl e)) :
    (∃ m, e = .UnexpectedParameterEnd m) ∨ (∃ t, e = .UnknownParameterType t) := by
  simp only [param_type_step.eq_def] at h
  repeat' split at h
  all_goals simp at h
  all_goals first
    | exact Or.inl ⟨_, h.symm⟩
    | exact Or.inl ⟨_, h⟩
    | (rename_i e' heq
       rcases resolve_type_name_inl _ _ heq with ⟨t, ht⟩
       exact Or.inr ⟨t, by rw [← h, ht]⟩)
theorem pns_err (content : Str) (ls : Nat) (opt : Bool) (st : St)
    (e : ParsingError) (h : param_name_step content ls opt st = .val (.inl e)) :
    e = .MissingOptionalClosingBracket (restFromByte content ls) := by
  simp only [param_name_step.eq_def] at h
  repeat' split at h
  all_goals simp at h
  exact h.symm

theorem pb_mpn (content : Str) (ls : Nat) (st : St) (l c : Nat) (m : Str)
    (h : param_branch content ls st = .val (.err (.MissingParameterName l c m))) :
    (l, c) = get_line_and_column content ls ∧ m = restFromByte content ls := by
  simp only [param_branch.eq_def] at h
  repeat' split at h
  all_goals simp at h
  all_goals first
    | (obtain ⟨h1, h2, h3⟩ := h
       exact ⟨by rw [Prod.ext_iff]; exact ⟨h1.symm, h2.symm⟩, h3.symm⟩)
    | (rename_i e' heq
       have h5 := pns_err _ _ _ _ _ heq
       simp_all)
    | (rename_i e' heq
       rcases pts_err _ _ _ _ _ _ heq with ⟨m', hm⟩ | ⟨t', ht⟩ <;> simp_all)
theorem ab_err (content : Str) (ls : Nat) (st : St) (db : DocBlock)
    (e : ParsingError) (h : at_branch content ls st db = .val (.err e)) :
    ∃ st₁, param_branch content ls st₁ = .val (.err e) := by
  simp only [at_branch.eq_def] at h
  split at h
  · exact absurd h (by simp)
  · exact absurd h (by simp)
  · split at h
    · exact absurd h (by simp)
    · exact absurd h (by simp)
    · split at h
      · exact absurd h (by simp)
      · exact absurd h (by simp)
      · rename_i e1 hstep
        injection h with h
        injection h with h
        subst h
        split at hstep
        · split at hstep
          · exact absurd hstep (by simp)
          · exact absurd hstep (by simp)
          · rename_i e2 hpb
            injection hstep with hstep
            injection hstep with hstep
            subst hstep
            exact ⟨_, hpb⟩
          · exact absurd hstep (by simp)
        · exact absurd hstep (by simp)
      · split at h
        · exact absurd h (by simp)
        · exact absurd h (by simp)
        · split at h
          · exact absurd h (by simp)
          · exact absurd h (by simp)

theorem pl_err (content : Str) : ∀ (fuel : Nat) (st : St) (db : DocBlock)
    (e : ParsingError), parse_loop content fuel st db = .val (.err e) →
    ∃ p st₁ db₁, at_branch content p st₁ db₁ = .val (.err e) := by
  intro fuel
  induction fuel with
  | zero => intro st db e h; exact absurd h (by simp [parse_loop])
  | succ fuel ih =>
    intro st db e h
    match st with
    | [] => exact absurd h (by simp [parse_loop])
    | (ls, ch) :: st' =>
      rw [parse_loop] at h
      split at h
      · split at h
        · exact absurd h (by simp)
        · exact absurd h (by simp)
        · rename_i hab
          injection h with h; injection h with h
          exact ⟨ls, _, _, by rw [hab, h]⟩
        · exact ih _ _ _ h
      · exact ih _ _ _ h

theorem parse_mpn_provenance (content : Str) (l c : Nat) (m : Str)
    (h : parse_doc_content content = .val (.err (.MissingParameterName l c m))) :
    ∃ p, (l, c) = get_line_and_column content p ∧ m = restFromByte content p := by
  simp only [parse_doc_content] at h
  split at h
  · split at h <;> exact absurd h (by simp)
  · rename_i hne
    rcases pl_err content _ _ _ _ h with ⟨p, st₁, db₁, hab⟩
    rcases ab_err _ _ _ _ _ hab with ⟨st₂, hpb⟩
    exact ⟨p, pb_mpn _ _ _ _ _ _ hpb⟩

/-! Claim theorems. -/

/-- C3 (code bug): `parse_doc_content` is not total — on the non-ASCII body
`"@aaaaaaaaaaé"` the slice `content[1..12]` taken inside
`peek_matches("description")` ends at byte 12, which is not a character
boundary (`é` spans bytes 11..13), so the Rust code panics instead of
returning a `ParsingError`. -/
theorem parse_doc_content_panics_on_nonascii :
    parse_doc_content ("@aaaaaaaaaaé".data) = .panic ∧
    byteLen ("@aaaaaaaaaaé".data) = 13 ∧
    isBoundary ("@aaaaaaaaaaé".data) 12 = false ∧
    peek_matches ("@aaaaaaaaaaé".data) descriptionStr
        ((charIndices ("@aaaaaaaaaaé".data)).drop 1) = .panic := by
  refine ⟨by decide, by decide, by decide, by decide⟩

/-- C5 counterexample: on the body `"Description with words\n @param \n"`
the `@param` annotation starts at byte offset 24, the preceding newline byte
sits at offset 22, so the claim's formula `1 + (p − q)` yields column 3 —
but the code (and its own unit test) reports column 2. -/
theorem line_column_claim_cex :
    parse_doc_content ("Description with words\n @param \n".data) =
      .val (.err (.MissingParameterName 2 2 ("@param \n".data))) ∧
    restFromByte ("Description with words\n @param \n".data) 24 = "@param \n".data ∧
    precedingNlPos ("Description with words\n @param \n".data) 24 = some 22 ∧
    claimedColumn ("Description with words\n @param \n".data) 24 = 3 ∧
    (2 : Nat) ≠ 3 := by
  refine ⟨by decide, by decide, by decide, by decide, by decide⟩

/-- C5 (amended): `get_line_and_column` reports
`line = 1 + (count of newline bytes strictly before the offset)` and
`column = offset − (position just after the preceding newline byte, or 0) + 1`
(equivalently `offset − q` for a preceding newline at byte `q`, and
`offset + 1` when there is none); and every `MissingParameterName` error of
`parse_doc_content` carries exactly `get_line_and_column` of the byte offset
its message tail starts at. -/
theorem line_column_formula :
    (∀ content off, get_line_and_column content off =
      (1 + ((utf8Bytes content).take off).count 10,
       off - lastNewlineStart content off + 1)) ∧
    (∀ content l c m,
      parse_doc_content content = .val (.err (.MissingParameterName l c m)) →
      ∃ p, (l, c) = get_line_and_column content p ∧ m = restFromByte content p) :=
  ⟨get_line_and_column_eq, parse_mpn_provenance⟩

/-- Witness for C5: the error-provenance clause instantiated at a concrete
body whose parse fails with `MissingParameterName 2 2`. -/
theorem line_column_formula_witness :
    ∃ p, ((2 : Nat), (2 : Nat)) =
        get_line_and_column ("Description with words\n @param \n".data) p ∧
      ("@param \n".data) = restFromByte ("Description with words\n @param \n".data) p :=
  line_column_formula.2 ("Description with words\n @param \n".data) 2 2
    ("@param \n".data) (by decide)

/-- C10: annotation-keyword matching is asymmetric — the marker scan that
ends a description capture is case-sensitive (`"@param "` literally), while
dispatch at an `@` character is case-insensitive; hence
`parse_doc_content "text\n@PARAM x"` keeps `@PARAM x` inside the description
with no parameters, while `parse_doc_content "@PARAM x"` parses one
parameter named `x` and no description. -/
theorem annotation_case_asymmetry :
    parse_doc_content ("text\n@PARAM x".data) =
      .val (.ok ⟨"text\n@PARAM x".data, [], []⟩) ∧
    ("@PARAM x".data <:+: "text\n@PARAM x".data) ∧
    parse_doc_content ("@PARAM x".data) =
      .val (.ok ⟨[], [⟨"x".data, none, none, false⟩], []⟩) := by
  refine ⟨by decide, by decide, by decide⟩

/-! Structural preservation lemmas for the parse loop. -/

theorem desc_branch_param (content : Str) (st : St) (db : DocBlock) :
    (desc_branch content st db).1.param = db.param := by
  simp only [desc_branch]
  repeat' split
  all_goals rfl

theorem desc_branch_example (content : Str) (st : St) (db : DocBlock) :
    (desc_branch content st db).1.«example» = db.«example» := by
  simp only [desc_branch]
  repeat' split
  all_goals rfl

theorem example_branch_param (content : Str) (st : St) (db : DocBlock) :
    (example_branch content st db).1.param = db.param := by
  simp only [example_branch]
  repeat' split
  all_goals rfl

theorem example_branch_desc (content : Str) (st : St) (db : DocBlock) :
    (example_branch content st db).1.description = db.description := by
  simp only [example_branch]
  repeat' split
  all_goals rfl

theorem resolve_type_name_inr (tn : Str) (t : ParamType)
    (h : resolve_type_name tn = .inr t) :
    t = .string ∨ t = .number ∨ t = .boolean ∨ t = .object ∨ ∃ n, t = .shopify n := by
  simp only [resolve_type_name] at h
  repeat' split at h
  all_goals simp at h
  all_goals simp [← h]


theorem pts_inr_shape (content : Str) (ls sp : Nat) (ch : Char) (st : St)
    (tOpt : Option ParamType) (st' : St)
    (h : param_type_step content ls sp ch st = .val (.inr (tOpt, st'))) :
    ∀ u, tOpt = some (.arrayOf u) →
      u = .string ∨ u = .number ∨ u = .boolean ∨ u = .object ∨ ∃ n, u = .shopify n := by
  intro u hu
  simp only [param_type_step.eq_def] at h
  split at h
  · split at h
    · exact absurd h (by simp)
    · split at h
      · exact absurd h (by simp)
      · exact absurd h (by simp)
      · exact absurd h (by simp)
      · split at h
        · exact absurd h (by simp)
        · rename_i et hres
          injection h with h
          injection h with h
          injection h with h1 h2
          rw [hu] at h1
          split at h1
          · injection h1 with h1
            injection h1 with h1
            rw [h1] at hres
            exact resolve_type_name_inr _ _ hres
          · rcases resolve_type_name_inr _ _ hres with h' | h' | h' | h' | ⟨n, h'⟩ <;>
              rw [h'] at h1 <;> simp at h1
  · injection h with h
    injection h with h
    simp only [Prod.mk.injEq] at h
    obtain ⟨h1, -⟩ := h
    rw [hu] at h1
    exact absurd h1 (by simp)


theorem pb_param_shape (content : Str) (ls : Nat) (st : St) (p : Param) (st' : St)
    (h : param_branch content ls st = .val (.ok (some p) st')) :
    ∀ u, p.type_ = some (.arrayOf u) →
      u = .string ∨ u = .number ∨ u = .boolean ∨ u = .object ∨ ∃ n, u = .shopify n := by
  intro u hu
  simp only [param_branch.eq_def] at h
  repeat' split at h
  all_goals simp at h
  all_goals obtain ⟨h1, h2⟩ := h
  all_goals rw [← h1] at hu
  all_goals simp at hu
  all_goals exact pts_inr_shape _ _ _ _ _ _ _ (by assumption) u hu
theorem ab_param_mem (content : Str) (ls : Nat) (st : St) (db : DocBlock)
    (db' : DocBlock) (st' : St) (p : Param)
    (h : at_branch content ls st db = .val (.ok db' st')) (hp : p ∈ db'.param) :
    p ∈ db.param ∨
      ∃ stx q stx', param_branch content ls stx = .val (.ok (some q) stx') ∧ p = q := by
  simp only [at_branch.eq_def] at h
  repeat' split at h
  all_goals simp at h
  all_goals obtain ⟨hdb, hst⟩ := h
  all_goals subst hdb
  all_goals rename (_ = PRes.val (ABr.ok _ _)) => hstep
  all_goals try rw [example_branch_param] at hp
  · -- example branch taken
    split at hstep
    · split at hstep
      · exact absurd hstep (by simp)
      · exact absurd hstep (by simp)
      · exact absurd hstep (by simp)
      · rename (param_branch _ _ _ = _) => hpb
        rename Option Param => q
        simp only [PRes.val.injEq, ABr.ok.injEq] at hstep
        obtain ⟨hdb2, hst2⟩ := hstep
        rw [← hdb2] at hp
        simp only [DocBlock.mk.injEq] at hp
        rcases List.mem_append.1 hp with hL | hR
        · split at hL
          · rw [desc_branch_param] at hL
            exact Or.inl hL
          · exact Or.inl hL
        · have hq : q = some p := by
            cases q with
            | none => simp at hR
            | some qq => simp at hR; rw [hR]
          exact Or.inr ⟨_, p, _, by rw [← hq]; exact hpb, rfl⟩
    · simp only [PRes.val.injEq, ABr.ok.injEq] at hstep
      obtain ⟨hdb2, hst2⟩ := hstep
      rw [← hdb2] at hp
      split at hp
      · rw [desc_branch_param] at hp
        exact Or.inl hp
      · exact Or.inl hp
  · -- example branch not taken
    split at hstep
    · split at hstep
      · exact absurd hstep (by simp)
      · exact absurd hstep (by simp)
      · exact absurd hstep (by simp)
      · rename (param_branch _ _ _ = _) => hpb
        rename Option Param => q
        simp only [PRes.val.injEq, ABr.ok.injEq] at hstep
        obtain ⟨hdb2, hst2⟩ := hstep
        rw [← hdb2] at hp
        simp only [DocBlock.mk.injEq] at hp
        rcases List.mem_append.1 hp with hL | hR
        · split at hL
          · rw [desc_branch_param] at hL
            exact Or.inl hL
          · exact Or.inl hL
        · have hq : q = some p := by
            cases q with
            | none => simp at hR
            | some qq => simp at hR; rw [hR]
          exact Or.inr ⟨_, p, _, by rw [← hq]; exact hpb, rfl⟩
    · simp only [PRes.val.injEq, ABr.ok.injEq] at hstep
      obtain ⟨hdb2, hst2⟩ := hstep
      rw [← hdb2] at hp
      split at hp
      · rw [desc_branch_param] at hp
        exact Or.inl hp
      · exact Or.inl hp

theorem ab_desc_preserved (content : Str) (ls : Nat) (st : St) (db : DocBlock)
    (db' : DocBlock) (st' : St) (hd : db.description ≠ [])
    (h : at_branch content ls st db = .val (.ok db' st')) :
    db'.description = db.description := by
  simp only [at_branch.eq_def] at h
  split at h
  · exact absurd h (by simp)
  · exact absurd h (by simp)
  · rename_i b1 hpk1
    rw [if_neg (fun hc => hd hc.2)] at h
    split at h
    · exact absurd h (by simp)
    · exact absurd h (by simp)
    · rename_i b2 hpk2
      split at h
      · exact absurd h (by simp)
      · exact absurd h (by simp)
      · exact absurd h (by simp)
      · split at h
        · exact absurd h (by simp)
        · exact absurd h (by simp)
        · rename_i b3 hpk3
          split at h <;>
            (simp only [PRes.val.injEq, ABr.ok.injEq] at h
             obtain ⟨h1', h2'⟩ := h
             rw [← h1']
             try rw [example_branch_desc])
          all_goals rename (_ = PRes.val (ABr.ok _ _)) => hstep
          · -- example appended
            split at hstep
            · split at hstep
              · exact absurd hstep (by simp)
              · exact absurd hstep (by simp)
              · exact absurd hstep (by simp)
              · simp only [PRes.val.injEq, ABr.ok.injEq] at hstep
                obtain ⟨h1, h2⟩ := hstep
                rw [← h1]
            · simp only [PRes.val.injEq, ABr.ok.injEq] at hstep
              obtain ⟨h1, h2⟩ := hstep
              rw [← h1]
          · -- example not appended
            split at hstep
            · split at hstep
              · exact absurd hstep (by simp)
              · exact absurd hstep (by simp)
              · exact absurd hstep (by simp)
              · simp only [PRes.val.injEq, ABr.ok.injEq] at hstep
                obtain ⟨h1, h2⟩ := hstep
                rw [← h1]
            · simp only [PRes.val.injEq, ABr.ok.injEq] at hstep
              obtain ⟨h1, h2⟩ := hstep
              rw [← h1]

theorem pl_desc_preserved (content : Str) : ∀ (fuel : Nat) (st : St) (db r : DocBlock),
    db.description ≠ [] → parse_loop content fuel st db = .val (.ok r) →
    r.description = db.description := by
  intro fuel
  induction fuel with
  | zero => intro st db r hd h; exact absurd h (by simp [parse_loop])
  | succ fuel ih =>
    intro st db r hd h
    match st with
    | [] =>
      simp only [parse_loop, PRes.val.injEq, POut.ok.injEq] at h
      rw [h]
    | (ls, ch) :: st' =>
      rw [parse_loop] at h
      rw [if_neg (show ¬(db.description = [] ∧ ch ≠ '@') from fun hc => hd hc.1)] at h
      split at h
      · split at h
        · exact absurd h (by simp)
        · exact absurd h (by simp)
        · exact absurd h (by simp)
        · rename_i db2 st2 hab
          rw [ih _ _ _ (by rw [ab_desc_preserved _ _ _ _ _ _ hd hab]; exact hd) h]
          exact ab_desc_preserved _ _ _ _ _ _ hd hab
      · exact ih _ _ _ hd h

theorem pl_param_mem (content : Str) : ∀ (fuel : Nat) (st : St) (db r : DocBlock)
    (p : Param), parse_loop content fuel st db = .val (.ok r) → p ∈ r.param →
    p ∈ db.param ∨
      ∃ ls stx q stx', param_branch content ls stx = .val (.ok (some q) stx') ∧ p = q := by
  intro fuel
  induction fuel with
  | zero => intro st db r p h hp; exact absurd h (by simp [parse_loop])
  | succ fuel ih =>
    intro st db r p h hp
    match st with
    | [] =>
      simp only [parse_loop, PRes.val.injEq, POut.ok.injEq] at h
      rw [← h] at hp
      exact Or.inl hp
    | (ls, ch) :: st' =>
      rw [parse_loop] at h
      split at h
      · split at h
        · exact absurd h (by simp)
        · exact absurd h (by simp)
        · exact absurd h (by simp)
        · rename_i db2 st2 hab
          rcases ih _ _ _ _ h hp with hmem | found
          · rcases ab_param_mem _ _ _ _ _ _ _ hab hmem with hmem2 | ⟨stx, q, stx', hq, hpq⟩
            · split at hmem2
              · exact Or.inl hmem2
              · exact Or.inl hmem2
            · exact Or.inr ⟨ls, stx, q, stx', hq, hpq⟩
          · rcases found with ⟨lsx, stx, q, stx', hq, hpq⟩
            exact Or.inr ⟨lsx, stx, q, stx', hq, hpq⟩
      · rcases ih _ _ _ _ h hp with hmem | found
        · split at hmem
          · exact Or.inl hmem
          · exact Or.inl hmem
        · rcases found with ⟨lsx, stx, q, stx', hq, hpq⟩
          exact Or.inr ⟨lsx, stx, q, stx', hq, hpq⟩


theorem parse_ok_loop (content : Str) (r : DocBlock)
    (h : parse_doc_content content = .val (.ok r)) :
    parse_loop content (content.length + 1)
      (consume_whitespace (charIndices content)) DocBlock.default = .val (.ok r) := by
  simp only [parse_doc_content] at h
  split at h
  · rename_i db hloop
    split at h
    · exact absurd h (by simp)
    · injection h with h
      injection h with h
      rw [hloop, h]
  · rename_i x hne
    exact absurd h (hne r)

theorem parse_param_provenance (content : Str) (r : DocBlock) (p : Param)
    (h : parse_doc_content content = .val (.ok r)) (hp : p ∈ r.param) :
    ∃ ls stx q stx', param_branch content ls stx = .val (.ok (some q) stx') ∧ p = q := by
  rcases pl_param_mem content _ _ _ _ _ (parse_ok_loop content r h) hp with hmem | found
  · exact absurd hmem (by simp [DocBlock.default])
  · exact found


/-- C7 counterexample: `@param {collection[]} foo` parses to
`ArrayOf (Shopify "collection")` — an `ArrayOf` wrapping a platform object,
not one of the four built-in kinds. -/
theorem array_of_shopify_cex :
    parse_doc_content ("@param \x7bcollection[]\x7d foo".data) =
      .val (.ok ⟨[], [⟨"foo".data, none,
        some (.arrayOf (.shopify ("collection".data))), false⟩], []⟩) ∧
    ParamType.shopify ("collection".data) ≠ .string ∧
    ParamType.shopify ("collection".data) ≠ .number ∧
    ParamType.shopify ("collection".data) ≠ .boolean ∧
    ParamType.shopify ("collection".data) ≠ .object := by
  refine ⟨by decide, by decide, by decide, by decide, by decide⟩


theorem parse_leading_description (body : Str) (r : DocBlock)
    (hld : leadingDescription body ≠ []) (h : parse_doc_content body = .val (.ok r)) :
    r.description = leadingDescription body := by
  have hloop := parse_ok_loop _ _ h
  rcases hst : consume_whitespace (charIndices body) with _ | ⟨⟨p0, c0⟩, tl⟩
  · simp only [leadingDescription, hst] at hld
    exact absurd rfl hld
  · by_cases hc0 : c0 = '@'
    · simp only [leadingDescription, hst] at hld
      rw [if_pos hc0] at hld
      exact absurd rfl hld
    · rw [hst] at hloop
      simp only [parse_loop] at hloop
      rw [if_pos (⟨rfl, hc0⟩ : DocBlock.default.description = [] ∧ c0 ≠ '@')] at hloop
      rw [if_neg hc0] at hloop
      have hEq : trimStr (sliceT body p0
          (((consume_until_either body markers tl).1).getD (byteLen body))) =
          leadingDescription body := by
        simp only [leadingDescription, hst]
        rw [if_neg hc0]
      rw [← hEq] at hld ⊢
      exact pl_desc_preserved body _ _ _ _ hld hloop

/-- C6 (amended): the stored description, once non-empty, never changes —
later `@description` annotations (and later plain text) are ignored; and
when the leading text before the first annotation marker trims to something
non-empty, exactly that text is the parse's description.  (When no non-empty
description has been recorded yet, later text or annotations may still set
it, so the description is the first non-empty candidate rather than always
the leading text.) -/
theorem description_never_overwritten :
    (∀ (content : Str) (fuel : Nat) (st : St) (db r : DocBlock),
      db.description ≠ [] → parse_loop content fuel st db = .val (.ok r) →
      r.description = db.description) ∧
    (∀ (body : Str) (r : DocBlock), leadingDescription body ≠ [] →
      parse_doc_content body = .val (.ok r) → r.description = leadingDescription body) :=
  ⟨pl_desc_preserved, parse_leading_description⟩

/-- Witness for C6: a body with leading text `hi` and a later
`@description x` annotation parses with description `hi`. -/
theorem description_never_overwritten_witness :
    ("hi".data : Str) = leadingDescription ("hi\n@description x".data) :=
  description_never_overwritten.2 ("hi\n@description x".data)
    ⟨"hi".data, [], []⟩ (by decide) (by decide)

/-- C6 counterexample: the body `@param x\nhello` has empty leading text
before its first annotation marker (it starts with `@param `), yet the
recorded description is the non-leading text `hello` — the description is
not always the leading text before the first annotation marker. -/
theorem description_first_claim_cex :
    parse_doc_content ("@param x\nhello".data) =
      .val (.ok ⟨"hello".data, [⟨"x".data, none, none, false⟩], []⟩) ∧
    ("@param ".data).isPrefixOf ("@param x\nhello".data) = true ∧
    leadingDescription ("@param x\nhello".data) = [] ∧
    ("hello".data : Str) ≠ [] := by
  refine ⟨by decide, by decide, by decide, by decide⟩

theorem loopNB_acc (content : Str) : ∀ (fuel : Nat) (st : St) (blocks bs : List Str),
    extract_loopNB content fuel st blocks = .val (some bs) →
    ∃ tail, bs = blocks ++ tail ∧
      ∀ blocks₂, extract_loopNB content fuel st blocks₂ = .val (some (blocks₂ ++ tail)) := by
  intro fuel
  induction fuel with
  | zero => intro st blocks bs h; exact absurd h (by simp [extract_loopNB])
  | succ fuel ih =>
    intro st blocks bs h
    match st with
    | [] =>
      simp only [extract_loopNB, PRes.val.injEq, Option.some.injEq] at h
      exact ⟨[], by simp [← h], fun b2 => by simp [extract_loopNB]⟩
    | (i, ch) :: st' =>
      rw [extract_loopNB] at h
      split at h
      · exact absurd h (by simp)
      · exact absurd h (by simp)
      · exact absurd h (by simp)
      · rename_i st2 pushed hstep
        rcases ih _ _ _ h with ⟨tail, htail, hall⟩
        refine ⟨pushed.toList ++ tail, by rw [htail, List.append_assoc], ?_⟩
        intro b2
        rw [extract_loopNB, hstep, ← List.append_assoc]
        exact hall (b2 ++ pushed.toList)

theorem loopB_lockstep (content : Str) (possible : Nat) :
    ∀ (fuel : Nat) (st : St) (blocks : List Str) (found : Nat) (bs : List Str),
    found = blocks.length →
    extract_loopNB content fuel st blocks = .val (some bs) →
    bs.length ≤ possible →
    extract_loopB content possible fuel st blocks found = .val (some bs) := by
  intro fuel
  induction fuel with
  | zero => intro st blocks found bs hf h hle; exact absurd h (by simp [extract_loopNB])
  | succ fuel ih =>
    intro st blocks found bs hf h hle
    match st with
    | [] =>
      simp only [extract_loopNB, PRes.val.injEq, Option.some.injEq] at h
      simp [extract_loopB, h]
    | (i, ch) :: st' =>
      rw [extract_loopNB] at h
      rw [extract_loopB]
      split at h
      · exact absurd h (by simp)
      · exact absurd h (by simp)
      · exact absurd h (by simp)
      · rename_i st2 pushed hstep
        simp only []
        by_cases hfp : found + (if pushed.isSome then 1 else 0) = possible
        · rw [if_pos hfp]
          rcases loopNB_acc content _ _ _ _ h with ⟨tail, htail, hall⟩
          have hlen2 : bs.length = (blocks ++ pushed.toList).length + tail.length := by
            rw [htail]; simp [Nat.add_assoc]
          have hfound' : found + (if pushed.isSome then 1 else 0) =
              (blocks ++ pushed.toList).length := by
            rw [hf]; cases pushed <;> simp
          have hposs : (blocks ++ pushed.toList).length = possible := by
            rw [← hfound', hfp]
          have htl : tail.length = 0 := by omega
          have htail0 : tail = [] := List.length_eq_zero.mp htl
          rw [htail, htail0, List.append_nil]
        · rw [if_neg hfp]
          refine ih _ _ _ _ ?_ h hle
          rw [hf]; cases pushed <;> simp


/-- C4 counterexample: on `{% doc %}a{% ENDDOC %}{% doc %}b{% enddoc %}`
the literal substring `enddoc` occurs once, but the case-insensitive tag
match closes the first block at `{% ENDDOC %}`, so the early exit stops the
scan after one block while the full scan finds two. -/
theorem extract_early_exit_cex :
    extract_doc_blocks
        ("\x7b% doc %\x7da\x7b% ENDDOC %\x7d\x7b% doc %\x7db\x7b% enddoc %\x7d".data) =
      .val (some ["a".data]) ∧
    extract_doc_blocks_spec
        ("\x7b% doc %\x7da\x7b% ENDDOC %\x7d\x7b% doc %\x7db\x7b% enddoc %\x7d".data) =
      .val (some ["a".data, "b".data]) ∧
    countMatches
        ("\x7b% doc %\x7da\x7b% ENDDOC %\x7d\x7b% doc %\x7db\x7b% enddoc %\x7d".data)
        enddocStr = 1 ∧
    (["a".data] : List Str) ≠ ["a".data, "b".data] := by
  refine ⟨by decide, by decide, by decide, by decide⟩

/-- C4 (amended): whenever the full left-to-right scan (no fast reject, no
early exit) completes normally and finds at most as many blocks as the
literal `enddoc` substring count, the early exit and the fast reject never
change the result: `extract_doc_blocks` equals the full-scan semantics. -/
theorem extract_early_exit_refines_full_scan (content : Str) (l : List Str)
    (hfull : extract_loopNB content (content.length + 1) (charIndices content) [] =
      .val (some l))
    (hcount : l.length ≤ countMatches content enddocStr) :
    extract_doc_blocks content = extract_doc_blocks_spec content := by
  rw [extract_doc_blocks, extract_doc_blocks_spec]
  by_cases hz : countMatches content enddocStr = 0
  · rw [if_pos hz]
    rw [hz] at hcount
    have : l = [] := List.length_eq_zero.mp (Nat.le_zero.mp hcount)
    rw [hfull, this]
    simp
  · rw [if_neg hz]
    rw [loopB_lockstep content (countMatches content enddocStr) (content.length + 1)
      (charIndices content) [] 0 l (by simp) hfull hcount, hfull]

/-- Witness for C4: the refinement applied at a concrete single-block
input. -/
theorem extract_early_exit_refines_full_scan_witness :
    extract_doc_blocks ("\x7b% doc %\x7dx\x7b% enddoc %\x7d".data) =
      extract_doc_blocks_spec ("\x7b% doc %\x7dx\x7b% enddoc %\x7d".data) :=
  extract_early_exit_refines_full_scan ("\x7b% doc %\x7dx\x7b% enddoc %\x7d".data)
    (["x".data]) (by decide) (by decide)

end LiquidDocs

namespace LiquidDocs

theorem utf8Bytes_append (xs ys : Str) :
    utf8Bytes (xs ++ ys) = utf8Bytes xs ++ utf8Bytes ys := by
  simp [utf8Bytes]

theorem byteLen_append (xs ys : Str) : byteLen (xs ++ ys) = byteLen xs + byteLen ys := by
  simp [byteLen, utf8Bytes_append]

theorem byteLen_cons (c : Char) (s : Str) : byteLen (c :: s) = uwidth c + byteLen s := by
  simp [byteLen, utf8Bytes, uwidth]

theorem uwidth_pos (c : Char) : 0 < uwidth c := by
  rw [uwidth, charUtf8Bytes]
  repeat' split
  all_goals simp

theorem charIndicesFrom_append (i : Nat) (xs ys : Str) :
    charIndicesFrom i (xs ++ ys) =
      charIndicesFrom i xs ++ charIndicesFrom (i + byteLen xs) ys := by
  induction xs generalizing i with
  | nil => simp [charIndicesFrom, byteLen, utf8Bytes]
  | cons c cs ih =>
    rw [List.cons_append, charIndicesFrom, charIndicesFrom, ih, byteLen_cons]
    simp [Nat.add_assoc]

theorem charIndicesFrom_map_snd (i : Nat) (s : Str) :
    (charIndicesFrom i s).map Prod.snd = s := by
  induction s generalizing i with
  | nil => simp [charIndicesFrom]
  | cons c cs ih => simp [charIndicesFrom, ih]

theorem charIndicesFrom_length (i : Nat) (s : Str) :
    (charIndicesFrom i s).length = s.length := by
  induction s generalizing i with
  | nil => simp [charIndicesFrom]
  | cons c cs ih => simp [charIndicesFrom, ih]

theorem charIndicesFrom_pos_lb (i : Nat) (s : Str) :
    ∀ pc ∈ charIndicesFrom i s, i ≤ pc.1 ∧ pc.1 + uwidth pc.2 ≤ i + byteLen s := by
  induction s generalizing i with
  | nil => simp [charIndicesFrom]
  | cons c cs ih =>
    intro pc hpc
    simp only [charIndicesFrom, List.mem_cons] at hpc
    rcases hpc with h | h
    · subst h
      refine ⟨le_refl _, ?_⟩
      show i + uwidth c ≤ i + byteLen (c :: cs)
      rw [byteLen_cons]
      omega
    · have := ih (i + uwidth c) pc h
      rw [byteLen_cons]
      omega

end LiquidDocs

namespace LiquidDocs

theorem dropWhile_append_of_all {α : Type} (p : α → Bool) (l r : List α)
    (h : ∀ x ∈ l, p x = true) : (l ++ r).dropWhile p = r.dropWhile p := by
  induction l with
  | nil => rfl
  | cons a l ih =>
    rw [List.cons_append, List.dropWhile_cons_of_pos (h a (by simp))]
    exact ih (fun x hx => h x (by simp [hx]))

theorem dropWhile_eq_self_of_head {α : Type} (p : α → Bool) (l : List α)
    (h : ∀ x ∈ l, ¬ p x = true) : l.dropWhile p = l := by
  cases l with
  | nil => rfl
  | cons a l => exact List.dropWhile_cons_of_neg (h a (by simp))

theorem takeWhile_append_of_all {α : Type} (p : α → Bool) (l r : List α)
    (h : ∀ x ∈ l, p x = true) : (l ++ r).takeWhile p = l ++ r.takeWhile p := by
  induction l with
  | nil => rfl
  | cons a l ih =>
    rw [List.cons_append, List.takeWhile_cons_of_pos (h a (by simp)), ih
      (fun x hx => h x (by simp [hx])), List.cons_append]

theorem takeWhile_eq_nil_of_head {α : Type} (p : α → Bool) (l : List α)
    (h : ∀ x ∈ l, ¬ p x = true) : l.takeWhile p = [] := by
  cases l with
  | nil => rfl
  | cons a l => exact List.takeWhile_cons_of_neg (h a (by simp))

theorem sliceT_decomp (u v w : Str) :
    sliceT (u ++ v ++ w) (byteLen u) (byteLen u + byteLen v) = v := by
  rw [sliceT, charIndices]
  rw [show u ++ v ++ w = u ++ (v ++ w) by simp]
  rw [charIndicesFrom_append, charIndicesFrom_append]
  rw [dropWhile_append_of_all _ _ _ (by
    intro x hx
    have := charIndicesFrom_pos_lb 0 u x hx
    have := uwidth_pos x.2
    simp only [decide_eq_true_eq]
    omega)]
  rw [dropWhile_eq_self_of_head _ _ (by
    intro x hx
    rcases List.mem_append.1 hx with h | h
    · have := (charIndicesFrom_pos_lb _ _ x h).1
      simp only [decide_eq_true_eq]
      omega
    · have := (charIndicesFrom_pos_lb _ _ x h).1
      simp only [decide_eq_true_eq]
      omega)]
  rw [takeWhile_append_of_all _ _ _ (by
    intro x hx
    have := charIndicesFrom_pos_lb (0 + byteLen u) v x hx
    have := uwidth_pos x.2
    simp only [decide_eq_true_eq]
    omega)]
  rw [takeWhile_eq_nil_of_head _ _ (by
    intro x hx
    have := (charIndicesFrom_pos_lb _ _ x hx).1
    simp only [decide_eq_true_eq]
    omega)]
  simp [charIndicesFrom_map_snd]

theorem restFromByte_decomp (u v : Str) :
    restFromByte (u ++ v) (byteLen u) = v := by
  have := sliceT_decomp u v []
  rw [restFromByte, byteLen_append]
  simpa using this

theorem isBoundary_decomp (u v : Str) : isBoundary (u ++ v) (byteLen u) = true := by
  cases v with
  | nil => simp [isBoundary]
  | cons c cs =>
    rw [isBoundary]
    refine Bool.or_eq_true_iff.2 (Or.inr ?_)
    have hmem : (byteLen u) ∈ ((charIndices (u ++ c :: cs)).map Prod.fst) := by
      rw [charIndices, charIndicesFrom_append, charIndicesFrom]
      simp
    simpa [List.elem_iff] using hmem

theorem sliceO_decomp (u v w : Str) :
    sliceO (u ++ v ++ w) (byteLen u) (byteLen u + byteLen v) = some v := by
  rw [sliceO, if_pos, sliceT_decomp]
  refine ⟨Nat.le_add_right _ _, ?_, ?_, ?_⟩
  · rw [byteLen_append, byteLen_append]
    omega
  · rw [show u ++ v ++ w = u ++ (v ++ w) by simp]
    exact isBoundary_decomp u (v ++ w)
  · rw [show byteLen u + byteLen v = byteLen (u ++ v) from (byteLen_append u v).symm]
    exact isBoundary_decomp (u ++ v) w
end LiquidDocs

namespace LiquidDocs

theorem allAscii_append (xs ys : Str) :
    (∀ c ∈ xs ++ ys, c.toNat < 128) ↔
      (∀ c ∈ xs, c.toNat < 128) ∧ (∀ c ∈ ys, c.toNat < 128) := by
  constructor
  · intro h
    exact ⟨fun c hc => h c (by simp [hc]), fun c hc => h c (by simp [hc])⟩
  · intro ⟨h1, h2⟩ c hc
    rcases List.mem_append.1 hc with h | h
    · exact h1 c h
    · exact h2 c h

theorem uwidth_ascii (c : Char) (h : c.toNat < 128) : uwidth c = 1 := by
  rw [uwidth, charUtf8Bytes]
  rw [if_pos h]
  rfl

theorem byteLen_ascii (s : Str) (h : ∀ c ∈ s, c.toNat < 128) : byteLen s = s.length := by
  induction s with
  | nil => rfl
  | cons c cs ih =>
    rw [byteLen_cons, uwidth_ascii c (h c (by simp)), ih (fun c hc => h c (by simp [hc]))]
    simp [Nat.add_comm]

theorem utf8Bytes_ascii (s : Str) (h : ∀ c ∈ s, c.toNat < 128) :
    utf8Bytes s = s.map (fun c => c.toNat) := by
  induction s with
  | nil => rfl
  | cons c cs ih =>
    have hc := h c (by simp)
    rw [show utf8Bytes (c :: cs) = charUtf8Bytes c ++ utf8Bytes cs by simp [utf8Bytes]]
    rw [charUtf8Bytes, if_pos hc, ih (fun c hc => h c (by simp [hc]))]
    rfl

theorem charIndicesFrom_mem_snd (i : Nat) (s : Str) :
    ∀ pc ∈ charIndicesFrom i s, pc.2 ∈ s := by
  intro pc hpc
  have := charIndicesFrom_map_snd i s
  rw [← this]
  exact List.mem_map_of_mem Prod.snd hpc

theorem consume_chars_norm (n : Nat) (i : Nat) (v : Str) :
    consume_chars n (charIndicesFrom i v) =
      charIndicesFrom (i + byteLen (v.take n)) (v.drop n) := by
  induction n generalizing i v with
  | zero => simp [consume_chars, byteLen, utf8Bytes]
  | succ n ih =>
    cases v with
    | nil => simp [consume_chars, charIndicesFrom, byteLen, utf8Bytes]
    | cons c cs =>
      rw [charIndicesFrom, show consume_chars (n+1) ((i, c) :: charIndicesFrom (i + uwidth c) cs)
        = consume_chars n (charIndicesFrom (i + uwidth c) cs) by simp [consume_chars]]
      rw [ih]
      rw [List.take_succ_cons, List.drop_succ_cons, byteLen_cons]
      rw [Nat.add_assoc]

theorem consume_whitespace_norm (i : Nat) (v : Str) :
    consume_whitespace (charIndicesFrom i v) =
      charIndicesFrom (i + byteLen (v.takeWhile rustIsWhitespace))
        (v.dropWhile rustIsWhitespace) := by
  induction v generalizing i with
  | nil => simp [charIndicesFrom, consume_whitespace, byteLen, utf8Bytes]
  | cons c cs ih =>
    rw [charIndicesFrom, consume_whitespace]
    by_cases hw : rustIsWhitespace c
    · rw [if_pos hw, ih, List.takeWhile_cons_of_pos hw, List.dropWhile_cons_of_pos hw,
        byteLen_cons, Nat.add_assoc]
    · rw [if_neg hw, List.takeWhile_cons_of_neg (by simp [hw]),
        List.dropWhile_cons_of_neg (by simp [hw])]
      simp [charIndicesFrom, byteLen, utf8Bytes]

theorem consume_wun_norm (i : Nat) (v : Str) :
    consume_whitespace_until_newline (charIndicesFrom i v) =
      charIndicesFrom
        (i + byteLen (v.takeWhile (fun c => rustIsWhitespace c && !(c = '\n'))))
        (v.dropWhile (fun c => rustIsWhitespace c && !(c = '\n'))) := by
  induction v generalizing i with
  | nil => simp [charIndicesFrom, consume_whitespace_until_newline, byteLen, utf8Bytes]
  | cons c cs ih =>
    rw [charIndicesFrom, consume_whitespace_until_newline]
    by_cases hw : rustIsWhitespace c && !(c = '\n')
    · rw [if_pos hw, ih, List.takeWhile_cons, if_pos hw, List.dropWhile_cons, if_pos hw,
        byteLen_cons, Nat.add_assoc]
    · rw [if_neg hw, List.takeWhile_cons, if_neg hw, List.dropWhile_cons, if_neg hw]
      simp [charIndicesFrom, byteLen, utf8Bytes]

theorem restFromByte_zero (content : Str) : restFromByte content 0 = content := by
  have := restFromByte_decomp [] content
  simpa [byteLen, utf8Bytes] using this

theorem eqIgnore_head_ne (a b : Char) (x y : Str) (h : asciiLower a ≠ asciiLower b) :
    eqIgnoreAsciiCase (a :: x) (b :: y) = false := by
  simp only [eqIgnoreAsciiCase, List.zip_cons_cons, List.all_cons]
  simp [h]

end LiquidDocs

namespace LiquidDocs

theorem ascii_sliceO_take (content u v : Str) (k : Nat)
    (hA : ∀ c ∈ content, c.toNat < 128) (hc : content = u ++ v) (hk : k ≤ v.length) :
    sliceO content (byteLen u) (byteLen u + k) = some (v.take k) := by
  have hvsplit : v = v.take k ++ v.drop k := (List.take_append_drop k v).symm
  have hAt : ∀ c ∈ v.take k, c.toNat < 128 := by
    intro c hcm
    exact hA c (by rw [hc]; exact List.mem_append_right u (List.mem_of_mem_take hcm))
  have hblen : byteLen (v.take k) = k := by
    rw [byteLen_ascii _ hAt, List.length_take]
    omega
  have h2 := sliceO_decomp u (v.take k) (v.drop k)
  rw [hblen] at h2
  rw [hc]
  conv_lhs => rw [hvsplit]
  rw [← List.append_assoc]
  exact h2

theorem peekm_false (content u v needle : Str)
    (hA : ∀ c ∈ content, c.toNat < 128) (hAn : byteLen needle = needle.length)
    (hc : content = u ++ v) (hv : v ≠ [])
    (hne : eqIgnoreAsciiCase (v.take needle.length) needle = false) :
    peek_matches content needle (charIndicesFrom (byteLen u) v) = .val false := by
  match v, hv with
  | c :: cs, _ =>
    rw [charIndicesFrom, peek_matches]
    by_cases hle : byteLen u + byteLen needle ≤ byteLen content
    · rw [if_pos hle]
      have hkv : needle.length ≤ (c :: cs).length := by
        have h1 : byteLen content = content.length := byteLen_ascii _ hA
        have h2 : byteLen u = u.length := byteLen_ascii _ (by
          intro x hx; exact hA x (by rw [hc]; exact List.mem_append_left _ hx))
        rw [h1, hAn, h2, hc, List.length_append] at hle
        omega
      rw [hAn, ascii_sliceO_take content u (c :: cs) needle.length hA hc hkv]
      simp [hne]
    · rw [if_neg hle]

theorem peekm_true (content u v needle : Str)
    (hA : ∀ c ∈ content, c.toNat < 128) (hAn : byteLen needle = needle.length)
    (hc : content = u ++ v) (hv : v ≠ []) (hlen : needle.length ≤ v.length)
    (heq : eqIgnoreAsciiCase (v.take needle.length) needle = true)
    (hbd : ∀ c, v[needle.length]? = some c → byteIsAlnum c.toNat = false) :
    peek_matches content needle (charIndicesFrom (byteLen u) v) = .val true := by
  have hlenc : byteLen content = content.length := byteLen_ascii _ hA
  have hlenu : byteLen u = u.length := byteLen_ascii _ (by
    intro x hx; exact hA x (by rw [hc]; exact List.mem_append_left _ hx))
  match v, hv with
  | c :: cs, _ =>
    rw [charIndicesFrom, peek_matches]
    rw [if_pos (by
      rw [hlenc, hAn, hlenu, hc, List.length_append]
      omega)]
    rw [hAn, ascii_sliceO_take content u (c :: cs) needle.length hA hc hlen]
    simp only [heq, if_true]
    by_cases hend : byteLen u + needle.length < byteLen content
    · rw [if_pos hend]
      have hnv : needle.length < (c :: cs).length := by
        rw [hlenc, hlenu, hc, List.length_append] at hend
        omega
      obtain ⟨ch, hch⟩ : ∃ ch, (c :: cs)[needle.length]? = some ch := by
        exact ⟨(c :: cs).get ⟨needle.length, hnv⟩, by
          rw [List.getElem?_eq_some]
          exact ⟨hnv, rfl⟩⟩
      have : (utf8Bytes content).getD (byteLen u + needle.length) 0 = ch.toNat := by
        rw [utf8Bytes_ascii _ hA, List.getD_eq_getElem?_getD, hc, List.map_append]
        rw [List.getElem?_append_right (by rw [List.length_map, hlenu]; omega)]
        have : byteLen u + needle.length - (List.map (fun c => c.toNat) u).length =
            needle.length := by
          rw [List.length_map, hlenu]
          omega
        rw [this, List.getElem?_map, hch]
        rfl
      rw [this, hbd ch hch]
      rfl
    · rw [if_neg hend]

end LiquidDocs

namespace LiquidDocs

theorem infix_of_prefix_drop {α : Type} (p l : List α) (j : Nat)
    (h : p <+: l.drop j) : p <:+: l := by
  obtain ⟨t, ht⟩ := h
  exact ⟨l.take j, t, by rw [List.append_assoc, ht, List.take_append_drop]⟩

theorem prefix_drop_of_infix {α : Type} (p l : List α) (h : p <:+: l) :
    ∃ j, j + p.length ≤ l.length ∧ p <+: l.drop j := by
  obtain ⟨s, t, hst⟩ := h
  refine ⟨s.length, ?_, ?_⟩
  · rw [← hst]
    simp [List.length_append]
  · rw [← hst, List.append_assoc, List.drop_left]
    exact ⟨t, rfl⟩

theorem markers_shape (m : Str) (hm : m ∈ markers) : ∃ m', m = '@' :: m' := by
  simp only [markers, List.mem_cons, List.not_mem_nil, or_false] at hm
  rcases hm with h | h | h
  · exact ⟨"param ".data, by rw [h]⟩
  · exact ⟨"example ".data, by rw [h]⟩
  · exact ⟨"description ".data, by rw [h]⟩

theorem marker_not_prefix_of_head (c : Char) (t : Str) (hc : c ≠ '@')
    (m : Str) (hm : m ∈ markers) : ¬ m <+: (c :: t) := by
  obtain ⟨m', rfl⟩ := markers_shape m hm
  intro hp
  obtain ⟨r, hr⟩ := hp
  rw [List.cons_append] at hr
  exact hc (List.head_eq_of_cons_eq hr).symm

theorem marker_not_prefix_nil (m : Str) (hm : m ∈ markers) : ¬ m <+: ([] : Str) := by
  obtain ⟨m', rfl⟩ := markers_shape m hm
  intro hp
  simp at hp

theorem markers_any_eq_false (t : Str) (h : ∀ m ∈ markers, ¬ m <+: t) :
    markers.any (fun n => n.isPrefixOf t) = false := by
  rw [List.any_eq_false]
  intro m hm
  simp only [List.isPrefixOf_iff_prefix]
  exact h m hm

theorem markers_any_head_ne (c : Char) (t : Str) (hc : c ≠ '@') :
    markers.any (fun n => n.isPrefixOf (c :: t)) = false :=
  markers_any_eq_false _ (fun m hm => marker_not_prefix_of_head c t hc m hm)

theorem head_dropWhile_false {α : Type} (p : α → Bool) (l : List α) (c : α)
    (h : (l.dropWhile p).head? = some c) : p c = false := by
  induction l with
  | nil => simp [List.dropWhile] at h
  | cons a l ih =>
    rw [List.dropWhile_cons] at h
    by_cases hp : p a
    · rw [if_pos hp] at h
      exact ih h
    · rw [if_neg hp] at h
      simp only [List.head?_cons, Option.some.injEq] at h
      rw [← h]
      simp [hp]

theorem trimStr_isInfix (s : Str) : trimStr s <:+: s := by
  unfold trimStr
  have h1 : (s.dropWhile rustIsWhitespace) <:+ s := List.dropWhile_suffix _
  have h2 : ((s.dropWhile rustIsWhitespace).reverse.dropWhile rustIsWhitespace) <:+
      (s.dropWhile rustIsWhitespace).reverse := List.dropWhile_suffix _
  have h3 : ((s.dropWhile rustIsWhitespace).reverse.dropWhile rustIsWhitespace).reverse <+:
      (s.dropWhile rustIsWhitespace) := by
    rw [← List.reverse_prefix] at h2
    · simpa using h2
  exact (h3.isInfix).trans h1.isInfix

theorem trimStr_eq_self (s : Str)
    (h1 : ∀ c, s.head? = some c → rustIsWhitespace c = false)
    (h2 : ∀ c, s.getLast? = some c → rustIsWhitespace c = false) : trimStr s = s := by
  unfold trimStr
  have hd : s.dropWhile rustIsWhitespace = s := by
    cases hs : s with
    | nil => simp
    | cons a l =>
      rw [List.dropWhile_cons, if_neg]
      simp only [Bool.not_eq_true]
      exact h1 a (by rw [hs]; rfl)
  rw [hd]
  have hd2 : s.reverse.dropWhile rustIsWhitespace = s.reverse := by
    cases hs : s.reverse with
    | nil => simp
    | cons a l =>
      rw [List.dropWhile_cons, if_neg]
      simp only [Bool.not_eq_true]
      apply h2 a
      rw [← List.head?_reverse, hs]
      rfl
  rw [hd2, List.reverse_reverse]

theorem trimStr_head (s : Str) (c : Char) (h : (trimStr s).head? = some c) :
    rustIsWhitespace c = false := by
  unfold trimStr at h
  rw [List.head?_reverse] at h
  have hsfx : ((s.dropWhile rustIsWhitespace).reverse.dropWhile rustIsWhitespace) <:+
      (s.dropWhile rustIsWhitespace).reverse := List.dropWhile_suffix _
  obtain ⟨pre, hpre⟩ := hsfx
  have hlast : ((s.dropWhile rustIsWhitespace).reverse).getLast? = some c := by
    rw [← hpre, List.getLast?_append, h]
    rfl
  rw [List.getLast?_reverse] at hlast
  exact head_dropWhile_false _ _ _ hlast

theorem trimStr_last (s : Str) (c : Char) (h : (trimStr s).getLast? = some c) :
    rustIsWhitespace c = false := by
  unfold trimStr at h
  rw [List.getLast?_reverse] at h
  exact head_dropWhile_false _ _ _ h

theorem trimStr_idem (s : Str) : trimStr (trimStr s) = trimStr s :=
  trimStr_eq_self _ (trimStr_head s) (trimStr_last s)

theorem countMatchesFuel_pos (pat : Str) (hp : pat ≠ []) :
    ∀ (s : Str) (fuel : Nat), s.length ≤ fuel → pat <:+: s →
      1 ≤ countMatchesFuel pat fuel s := by
  intro s
  induction s with
  | nil =>
    intro fuel _ hinf
    exact absurd (List.infix_nil.mp hinf) hp
  | cons c cs ih =>
    intro fuel hlen hinf
    match fuel, hlen with
    | f + 1, hlen =>
      rw [countMatchesFuel]
      by_cases hpre : pat.isPrefixOf (c :: cs)
      · rw [if_pos hpre]
        omega
      · rw [if_neg hpre]
        rcases List.infix_cons_iff.mp hinf with h | h
        · exact absurd (List.isPrefixOf_iff_prefix.mpr h) hpre
        · exact ih f (by simpa using hlen) h

theorem countMatches_pos (s pat : Str) (hp : pat ≠ []) (h : pat <:+: s) :
    1 ≤ countMatches s pat :=
  countMatchesFuel_pos pat hp s s.length le_rfl h

end LiquidDocs

namespace LiquidDocs

theorem byteLen_nil : byteLen ([] : Str) = 0 := by
  simp [byteLen, utf8Bytes]

theorem byteLen_singleton (c : Char) : byteLen [c] = uwidth c := by
  rw [byteLen_cons, byteLen_nil]
  omega

theorem cue_none (content : Str) (needles : List Str) (u v : Str)
    (hc : content = u ++ v)
    (hm : ∀ j, needles.any (fun n => n.isPrefixOf (v.drop j)) = false) :
    consume_until_either content needles (charIndicesFrom (byteLen u) v) = (none, []) := by
  induction v generalizing u with
  | nil => rfl
  | cons c cs ih =>
    rw [charIndicesFrom, consume_until_either]
    rw [show restFromByte content (byteLen u) = c :: cs from by rw [hc]; exact restFromByte_decomp u (c :: cs)]
    rw [show (needles.any fun n => n.isPrefixOf (c :: cs)) = false from hm 0]
    rw [show byteLen u + uwidth c = byteLen (u ++ [c]) from by rw [byteLen_append, byteLen_singleton]]
    exact ih (u ++ [c]) (by rw [hc, List.append_assoc]; rfl) (fun j => hm (j + 1))

theorem cue_found (content : Str) (needles : List Str) (u w v' : Str)
    (hc : content = u ++ (w ++ v'))
    (hw : ∀ j, j < w.length → needles.any (fun n => n.isPrefixOf ((w ++ v').drop j)) = false)
    (hv : v' ≠ []) (hhit : needles.any (fun n => n.isPrefixOf v') = true) :
    consume_until_either content needles (charIndicesFrom (byteLen u) (w ++ v')) =
      (some (byteLen u + byteLen w), charIndicesFrom (byteLen u + byteLen w) v') := by
  induction w generalizing u with
  | nil =>
    match v', hv with
    | c :: cs, _ =>
      rw [List.nil_append, charIndicesFrom, consume_until_either]
      rw [show restFromByte content (byteLen u) = c :: cs from by rw [hc]; simpa using restFromByte_decomp u (c :: cs)]
      rw [hhit, byteLen_nil]
      simp [charIndicesFrom]
  | cons a w' ih =>
    rw [List.cons_append, charIndicesFrom, consume_until_either]
    rw [show restFromByte content (byteLen u) = a :: (w' ++ v') from by
      rw [hc]; simpa using restFromByte_decomp u (a :: (w' ++ v'))]
    rw [show (needles.any fun n => n.isPrefixOf (a :: (w' ++ v'))) = false from by
      have := hw 0 (by simp)
      simpa using this]
    have := ih (u ++ [a]) (by rw [hc]; simp)
      (fun j hj => by have := hw (j + 1) (by simpa using hj); simpa using this)
    rw [byteLen_append, byteLen_singleton] at this
    rw [byteLen_cons]
    rw [show byteLen u + (uwidth a + byteLen w') = byteLen u + uwidth a + byteLen w' from by omega]
    exact this

theorem cue_inv (content : Str) (needles : List Str) (u v : Str)
    (hc : content = u ++ v) :
    ∃ w v'', v = w ++ v'' ∧
      (∀ j, j < w.length → needles.any (fun n => n.isPrefixOf (v.drop j)) = false) ∧
      ((v'' = [] ∧ consume_until_either content needles (charIndicesFrom (byteLen u) v) = (none, [])) ∨
       (v'' ≠ [] ∧ needles.any (fun n => n.isPrefixOf v'') = true ∧
        consume_until_either content needles (charIndicesFrom (byteLen u) v) =
          (some (byteLen (u ++ w)), charIndicesFrom (byteLen (u ++ w)) v''))) := by
  induction v generalizing u with
  | nil =>
    exact ⟨[], [], rfl, by intro j hj; simp at hj, Or.inl ⟨rfl, rfl⟩⟩
  | cons c cs ih =>
    by_cases hhit : needles.any (fun n => n.isPrefixOf (c :: cs)) = true
    · refine ⟨[], c :: cs, rfl, by intro j hj; simp at hj, Or.inr ⟨by simp, hhit, ?_⟩⟩
      rw [charIndicesFrom, consume_until_either]
      rw [show restFromByte content (byteLen u) = c :: cs from by rw [hc]; exact restFromByte_decomp u (c :: cs)]
      rw [hhit]
      simp [charIndicesFrom]
    · obtain ⟨w, v'', hsplit, hnm, hres⟩ := ih (u ++ [c]) (by rw [hc, List.append_assoc]; rfl)
      refine ⟨c :: w, v'', by rw [hsplit]; rfl, ?_, ?_⟩
      · intro j hj
        match j with
        | 0 => simpa using hhit
        | j + 1 => exact hnm j (by simpa using hj)
      · have hstep : consume_until_either content needles (charIndicesFrom (byteLen u) (c :: cs)) =
            consume_until_either content needles (charIndicesFrom (byteLen (u ++ [c])) cs) := by
          rw [charIndicesFrom, consume_until_either]
          rw [show restFromByte content (byteLen u) = c :: cs from by rw [hc]; exact restFromByte_decomp u (c :: cs)]
          rw [show (needles.any fun n => n.isPrefixOf (c :: cs)) = false from by simpa using hhit]
          rw [byteLen_append, byteLen_singleton]
          rfl
        rcases hres with ⟨h1, h2⟩ | ⟨h1, h2, h3⟩
        · exact Or.inl ⟨h1, by rw [hstep]; exact h2⟩
        · refine Or.inr ⟨h1, h2, ?_⟩
          rw [hstep, h3]
          rw [show (u ++ [c]) ++ w = u ++ (c :: w) from by simp]

end LiquidDocs

namespace LiquidDocs

theorem cu_go_none (content : Str) (t0 : Char) (t' : Str) (u v : Str)
    (hA : ∀ c ∈ content, c.toNat < 128)
    (hc : content = u ++ v)
    (hw : ∀ j, ¬ (t0 :: t') <+: v.drop j) :
    consume_until_go content (t0 :: t') t0 (charIndicesFrom (byteLen u) v) = .val (none, []) := by
  induction v generalizing u with
  | nil => rfl
  | cons c cs ih =>
    have hrec : consume_until_go content (t0 :: t') t0
        (charIndicesFrom (byteLen u + uwidth c) cs) = .val (none, []) := by
      rw [show byteLen u + uwidth c = byteLen (u ++ [c]) from by
        rw [byteLen_append, byteLen_singleton]]
      exact ih (u ++ [c]) (by rw [hc, List.append_assoc]; rfl) (fun j => hw (j + 1))
    rw [charIndicesFrom]
    simp only [consume_until_go]
    by_cases hct : c = t0
    · rw [if_pos hct]
      by_cases hle : byteLen u + byteLen (t0 :: t') ≤ byteLen content
      · rw [if_pos hle]
        have hk : byteLen (t0 :: t') ≤ (c :: cs).length := by
          have h1 : byteLen content = byteLen u + byteLen (c :: cs) := by
            rw [hc, byteLen_append]
          have h2 : byteLen (c :: cs) = (c :: cs).length := byteLen_ascii _ (by
            intro x hx
            exact hA x (by rw [hc]; exact List.mem_append_right u hx))
          omega
        simp only [ascii_sliceO_take content u (c :: cs) (byteLen (t0 :: t')) hA hc hk]
        rw [if_neg (by
          intro he
          exact hw 0 (by rw [List.drop_zero, ← he]; exact List.take_prefix _ _))]
        exact hrec
      · rw [if_neg hle]
        exact hrec
    · rw [if_neg hct]
      exact hrec

theorem cu_go_found (content : Str) (t0 : Char) (t' : Str) (u w v' : Str)
    (hA : ∀ c ∈ content, c.toNat < 128)
    (hc : content = u ++ (w ++ v'))
    (hw : ∀ j, j < w.length → ¬ (t0 :: t') <+: ((w ++ v').drop j))
    (hpre : (t0 :: t') <+: v') :
    consume_until_go content (t0 :: t') t0 (charIndicesFrom (byteLen u) (w ++ v')) =
      .val (some (byteLen u + byteLen w), charIndicesFrom (byteLen u + byteLen w) v') := by
  induction w generalizing u with
  | nil =>
    obtain ⟨r, hr⟩ := hpre
    have hv' : v' = t0 :: (t' ++ r) := by rw [← hr]; rfl
    simp only [List.nil_append] at hc ⊢
    rw [byteLen_nil]
    have hvmem : ∀ x ∈ v', x.toNat < 128 := by
      intro x hx
      exact hA x (by rw [hc]; exact List.mem_append_right u hx)
    have htA : byteLen (t0 :: t') = (t0 :: t').length := byteLen_ascii _ (by
      intro x hx
      apply hvmem
      rw [← hr]
      exact List.mem_append_left r hx)
    have hk : byteLen (t0 :: t') ≤ v'.length := by
      rw [htA]
      exact List.IsPrefix.length_le ⟨r, hr⟩
    have hbound : byteLen u + byteLen (t0 :: t') ≤ byteLen content := by
      have h1 : byteLen content = byteLen u + byteLen v' := by rw [hc, byteLen_append]
      have h2 : byteLen v' = byteLen (t0 :: t') + byteLen r := by rw [← hr, byteLen_append]
      omega
    have htake : v'.take (byteLen (t0 :: t')) = t0 :: t' := by
      rw [htA, ← hr]
      exact List.take_left _ _
    conv_lhs => rw [hv', charIndicesFrom]
    simp only [consume_until_go, if_pos rfl, if_pos hbound,
      ascii_sliceO_take content u v' (byteLen (t0 :: t')) hA hc hk, htake]
    simp [hv', charIndicesFrom]
  | cons a w' ih =>
    have hrec : consume_until_go content (t0 :: t') t0
        (charIndicesFrom (byteLen u + uwidth a) (w' ++ v')) =
        .val (some (byteLen u + uwidth a + byteLen w'),
          charIndicesFrom (byteLen u + uwidth a + byteLen w') v') := by
      rw [show byteLen u + uwidth a = byteLen (u ++ [a]) from by
        rw [byteLen_append, byteLen_singleton]]
      exact ih (u ++ [a]) (by rw [hc]; simp)
        (fun j hj => by have := hw (j + 1) (by simpa using hj); simpa using this)
    have hgoal : byteLen u + byteLen (a :: w') = byteLen u + uwidth a + byteLen w' := by
      rw [byteLen_cons]
      omega
    rw [List.cons_append, charIndicesFrom]
    simp only [consume_until_go]
    by_cases hct : a = t0
    · rw [if_pos hct]
      by_cases hle : byteLen u + byteLen (t0 :: t') ≤ byteLen content
      · rw [if_pos hle]
        have hk : byteLen (t0 :: t') ≤ (a :: (w' ++ v')).length := by
          have h1 : byteLen content = byteLen u + byteLen (a :: (w' ++ v')) := by
            rw [hc, byteLen_append]
            rfl
          have h2 : byteLen (a :: (w' ++ v')) = (a :: (w' ++ v')).length :=
            byteLen_ascii _ (by
              intro x hx
              apply hA x
              rw [hc]
              exact List.mem_append_right u (by simpa using hx))
          omega
        simp only [ascii_sliceO_take content u (a :: (w' ++ v')) (byteLen (t0 :: t')) hA
          (by rw [hc]; rfl) hk]
        rw [if_neg (by
          intro he
          exact hw 0 (by simp) (by
            rw [List.drop_zero, List.cons_append, ← he]
            exact List.take_prefix _ _))]
        rw [hgoal]
        exact hrec
      · rw [if_neg hle, hgoal]
        exact hrec
    · rw [if_neg hct, hgoal]
      exact hrec

theorem cu_none (content target u v : Str)
    (hA : ∀ c ∈ content, c.toNat < 128)
    (hc : content = u ++ v) (ht : target ≠ [])
    (hw : ∀ j, ¬ target <+: v.drop j) :
    consume_until content target (charIndicesFrom (byteLen u) v) = .val (none, []) := by
  match target, ht with
  | t0 :: t', _ =>
    rw [consume_until]
    exact cu_go_none content t0 t' u v hA hc hw

theorem cu_found (content target u w v' : Str)
    (hA : ∀ c ∈ content, c.toNat < 128)
    (hc : content = u ++ (w ++ v')) (ht : target ≠ [])
    (hw : ∀ j, j < w.length → ¬ target <+: ((w ++ v').drop j))
    (hpre : target <+: v') :
    consume_until content target (charIndicesFrom (byteLen u) (w ++ v')) =
      .val (some (byteLen u + byteLen w), charIndicesFrom (byteLen u + byteLen w) v') := by
  match target, ht with
  | t0 :: t', _ =>
    rw [consume_until]
    exact cu_go_found content t0 t' u w v' hA hc hw hpre

theorem cu_single_none (content : Str) (c : Char) (u v : Str)
    (hA : ∀ x ∈ content, x.toNat < 128)
    (hc : content = u ++ v) (hnotin : c ∉ v) :
    consume_until content [c] (charIndicesFrom (byteLen u) v) = .val (none, []) := by
  apply cu_none content [c] u v hA hc (by simp)
  intro j hp
  obtain ⟨r, hr⟩ := hp
  apply hnotin
  apply (List.drop_suffix j v).subset
  rw [← hr]
  exact List.mem_append_left r (by simp)

theorem cu_single_found (content : Str) (c : Char) (u w rest : Str)
    (hA : ∀ x ∈ content, x.toNat < 128)
    (hc : content = u ++ (w ++ (c :: rest))) (hnotin : c ∉ w) :
    consume_until content [c] (charIndicesFrom (byteLen u) (w ++ (c :: rest))) =
      .val (some (byteLen u + byteLen w), charIndicesFrom (byteLen u + byteLen w) (c :: rest)) := by
  apply cu_found content [c] u w (c :: rest) hA hc (by simp)
  · intro j hj hp
    obtain ⟨r, hr⟩ := hp
    apply hnotin
    have hj2 : (w ++ (c :: rest))[j]? = some c := by
      rw [← List.head?_drop, ← hr]
      rfl
    rw [List.getElem?_append_left hj] at hj2
    exact List.getElem?_mem hj2
  · exact ⟨rest, rfl⟩

end LiquidDocs

namespace LiquidDocs

theorem cif_congr (i j : Nat) (v : Str) (h : i = j) :
    charIndicesFrom i v = charIndicesFrom j v := by rw [h]

theorem at_branch_param_err (content u v : Str) (db : DocBlock) (ls : Nat) (e : ParsingError)
    (hA : ∀ c ∈ content, c.toNat < 128)
    (hc : content = u ++ v)
    (hb1 : eqIgnoreAsciiCase (v.take 11) ("description".data) = false)
    (hv5 : v.take 5 = "param".data)
    (hbd : ∀ c, v[5]? = some c → byteIsAlnum c.toNat = false)
    (hlen : 5 ≤ v.length)
    (hpb : param_branch content ls (charIndicesFrom (byteLen u) v) = .val (.err e)) :
    at_branch content ls (charIndicesFrom (byteLen u) v) db = .val (.err e) := by
  have hv : v ≠ [] := by
    intro h
    rw [h] at hlen
    simp at hlen
  have hq : eqIgnoreAsciiCase (v.take paramStr.length) paramStr = true := by
    rw [show paramStr.length = 5 from rfl, hv5]
    decide
  have hpt := peekm_true content u v paramStr hA (by decide) hc hv hlen hq hbd
  rw [at_branch]
  simp only [peekm_false content u v descriptionStr hA (by decide) hc hv hb1,
    Bool.false_eq_true, false_and, if_false]
  rw [hpt]
  simp only [hpb]
  simp

theorem parse_at0_err (content : Str) (v : Str) (e : ParsingError)
    (hc : content = '@' :: v)
    (hab : at_branch content 0 (charIndicesFrom 1 v) DocBlock.default = .val (.err e)) :
    parse_doc_content content = .val (.err e) := by
  subst hc
  rw [parse_doc_content]
  rw [show charIndices ('@' :: v) = (0, '@') :: charIndicesFrom 1 v from rfl]
  rw [show consume_whitespace ((0, '@') :: charIndicesFrom 1 v) =
    (0, '@') :: charIndicesFrom 1 v from by rw [consume_whitespace, if_neg (by decide)]]
  rw [show ('@' :: v).length + 1 = v.length + 1 + 1 from by simp]
  rw [parse_loop]
  rw [if_neg (show ¬(DocBlock.default.description = [] ∧ '@' ≠ '@') from by simp)]
  rw [if_pos (show ('@' : Char) = '@' from rfl)]
  rw [hab]

end LiquidDocs

namespace LiquidDocs

theorem pb_famA (content u s : Str) (ls : Nat)
    (hA : ∀ c ∈ content, c.toNat < 128)
    (hc : content = u ++ ("param [".data ++ s))
    (hnb : ']' ∉ s) :
    param_branch content ls (charIndicesFrom (byteLen u) ("param [".data ++ s)) =
      .val (.err (.MissingOptionalClosingBracket (restFromByte content ls))) := by
  have h1 : consume_chars 5 (charIndicesFrom (byteLen u) ("param [".data ++ s)) =
      charIndicesFrom (byteLen u + 5) (' ' :: ('[' :: s)) := by
    rw [consume_chars_norm]
    rw [show (("param [".data ++ s).take 5) = "param".data from rfl]
    rw [show (("param [".data ++ s).drop 5) = ' ' :: ('[' :: s) from rfl]
    rw [show byteLen "param".data = 5 from rfl]
  have h2 : consume_whitespace_until_newline (charIndicesFrom (byteLen u + 5) (' ' :: ('[' :: s))) =
      charIndicesFrom (byteLen u + 6) ('[' :: s) := by
    rw [consume_wun_norm]
    rw [show ((' ' :: ('[' :: s)).takeWhile (fun c => rustIsWhitespace c && !(c = '\n'))) =
      [' '] from rfl]
    rw [show ((' ' :: ('[' :: s)).dropWhile (fun c => rustIsWhitespace c && !(c = '\n'))) =
      '[' :: s from rfl]
    exact cif_congr _ _ _ (by rw [show byteLen [' '] = 1 from rfl])
  have h3 : charIndicesFrom (byteLen u + 6) ('[' :: s) =
      (byteLen u + 6, '[') :: charIndicesFrom (byteLen u + 7) s := by
    rw [charIndicesFrom]
    rw [show byteLen u + 6 + uwidth '[' = byteLen u + 7 from by
      rw [show uwidth '[' = 1 from rfl]]
  have h4 : consume_whitespace_until_newline ((byteLen u + 6, '[') :: charIndicesFrom (byteLen u + 7) s) =
      (byteLen u + 6, '[') :: charIndicesFrom (byteLen u + 7) s := by
    rw [consume_whitespace_until_newline, if_neg (by decide)]
  have h5 : consume_whitespace_until_newline (charIndicesFrom (byteLen u + 7) s) =
      charIndicesFrom (byteLen u + 7 + byteLen (s.takeWhile (fun c => rustIsWhitespace c && !(c = '\n'))))
        (s.dropWhile (fun c => rustIsWhitespace c && !(c = '\n'))) :=
    consume_wun_norm _ _
  have hcu : consume_until content ("]".data)
      (charIndicesFrom (byteLen u + 7 + byteLen (s.takeWhile (fun c => rustIsWhitespace c && !(c = '\n'))))
        (s.dropWhile (fun c => rustIsWhitespace c && !(c = '\n')))) = .val (none, []) := by
    rw [show ("]".data) = [']'] from rfl]
    rw [cif_congr _ (byteLen (u ++ ("param [".data ++ s.takeWhile (fun c => rustIsWhitespace c && !(c = '\n'))))) _ (by
      rw [byteLen_append, byteLen_append]
      rw [show byteLen "param [".data = 7 from rfl]
      omega)]
    apply cu_single_none content ']' _ _ hA
    · rw [hc]
      rw [List.append_assoc, List.append_assoc]
      rw [show s.takeWhile (fun c => rustIsWhitespace c && !(c = '\n')) ++
        s.dropWhile (fun c => rustIsWhitespace c && !(c = '\n')) = s from List.takeWhile_append_dropWhile _ _]
    · intro hmem
      exact hnb ((List.dropWhile_suffix _).subset hmem)
  rw [param_branch]
  rw [h1, h2, h3]
  simp only [param_type_step, if_neg (show ¬('[' = '\x7b') from by decide), h4]
  simp only [show (consume_chars 1 ((byteLen u + 6, '[') :: charIndicesFrom (byteLen u + 7) s)) =
    charIndicesFrom (byteLen u + 7) s from rfl]
  simp only [param_name_step, decide_True, eq_self_iff_true, if_true, h5, hcu]

end LiquidDocs

namespace LiquidDocs

theorem pb_famB (content u a b : Str) (ls : Nat)
    (hA : ∀ c ∈ content, c.toNat < 128)
    (hc : content = u ++ ("param [".data ++ (a ++ '\n' :: (b ++ [']']))))
    (ha : a ≠ []) (hb : b ≠ [])
    (haP : ∀ c ∈ a, rustIsWhitespace c = false ∧ c ≠ ']')
    (hbP : ∀ c ∈ b, rustIsWhitespace c = false ∧ c ≠ ']') :
    param_branch content ls
        (charIndicesFrom (byteLen u) ("param [".data ++ (a ++ '\n' :: (b ++ [']'])))) =
      .val (.err (.MissingOptionalClosingBracket (restFromByte content ls))) := by
  obtain ⟨a0, a', rfl⟩ : ∃ a0 a', a = a0 :: a' := by
    match a, ha with
    | a0 :: a', _ => exact ⟨a0, a', rfl⟩
  set s := (a0 :: a') ++ '\n' :: (b ++ [']']) with hs
  have hB : byteLen (u ++ "param [".data) = byteLen u + 7 := by
    rw [byteLen_append, show byteLen "param [".data = 7 from rfl]
  have h1 : consume_chars 5 (charIndicesFrom (byteLen u) ("param [".data ++ s)) =
      charIndicesFrom (byteLen u + 5) (' ' :: ('[' :: s)) := by
    rw [consume_chars_norm]
    rw [show (("param [".data ++ s).take 5) = "param".data from rfl]
    rw [show (("param [".data ++ s).drop 5) = ' ' :: ('[' :: s) from rfl]
    rw [show byteLen "param".data = 5 from rfl]
  have h2 : consume_whitespace_until_newline (charIndicesFrom (byteLen u + 5) (' ' :: ('[' :: s))) =
      charIndicesFrom (byteLen u + 6) ('[' :: s) := by
    rw [consume_wun_norm]
    rw [show ((' ' :: ('[' :: s)).takeWhile (fun c => rustIsWhitespace c && !(c = '\n'))) =
      [' '] from rfl]
    rw [show ((' ' :: ('[' :: s)).dropWhile (fun c => rustIsWhitespace c && !(c = '\n'))) =
      '[' :: s from rfl]
    exact cif_congr _ _ _ (by rw [show byteLen [' '] = 1 from rfl])
  have h3 : charIndicesFrom (byteLen u + 6) ('[' :: s) =
      (byteLen u + 6, '[') :: charIndicesFrom (byteLen u + 7) s := by
    rw [charIndicesFrom]
    rw [show byteLen u + 6 + uwidth '[' = byteLen u + 7 from by
      rw [show uwidth '[' = 1 from rfl]]
  have h4 : consume_whitespace_until_newline ((byteLen u + 6, '[') :: charIndicesFrom (byteLen u + 7) s) =
      (byteLen u + 6, '[') :: charIndicesFrom (byteLen u + 7) s := by
    rw [consume_whitespace_until_newline, if_neg (by decide)]
  have h5 : consume_whitespace_until_newline (charIndicesFrom (byteLen u + 7) s) =
      charIndicesFrom (byteLen u + 7) s := by
    conv_lhs => rw [hs, List.cons_append, charIndicesFrom]
    rw [consume_whitespace_until_newline,
      if_neg (show ¬((rustIsWhitespace a0 && !(a0 = '\n')) = true) from by
        rw [(haP a0 (by simp)).1]
        simp)]
    rw [← charIndicesFrom, ← List.cons_append]
  have hw' : ']' ∉ ((a0 :: a') ++ '\n' :: b) := by
    intro hmem
    rcases List.mem_append.mp hmem with h | h
    · exact (haP _ h).2 rfl
    · rcases List.mem_cons.mp h with h | h
      · exact absurd h (by decide)
      · exact (hbP _ h).2 rfl
  have hcu : consume_until content [']'] (charIndicesFrom (byteLen u + 7) s) =
      .val (some (byteLen u + 7 + byteLen ((a0 :: a') ++ '\n' :: b)),
        charIndicesFrom (byteLen u + 7 + byteLen ((a0 :: a') ++ '\n' :: b)) [']']) := by
    rw [show (byteLen u + 7) = byteLen (u ++ "param [".data) from hB.symm]
    conv_lhs => rw [show s = ((a0 :: a') ++ '\n' :: b) ++ (']' :: []) from by rw [hs]; simp]
    exact cu_single_found content ']' (u ++ "param [".data) ((a0 :: a') ++ '\n' :: b) [] hA
      (by rw [hc]; simp [hs]) hw'
  have hslice : sliceT content (byteLen u + 6 + 1) (byteLen u + 7 + byteLen ((a0 :: a') ++ '\n' :: b)) =
      (a0 :: a') ++ '\n' :: b := by
    have hd := sliceT_decomp (u ++ "param [".data) ((a0 :: a') ++ '\n' :: b) [']']
    rw [hB] at hd
    rw [show byteLen u + 6 + 1 = byteLen u + 7 from by omega]
    rw [show content = (u ++ "param [".data) ++ ((a0 :: a') ++ '\n' :: b) ++ [']'] from by
      rw [hc]
      simp [hs]]
    exact hd
  have hname : trimStr ((a0 :: a') ++ '\n' :: b) = (a0 :: a') ++ '\n' :: b := by
    apply trimStr_eq_self
    · intro c hcH
      simp only [List.cons_append, List.head?_cons, Option.some.injEq] at hcH
      rw [← hcH]
      exact (haP a0 (by simp)).1
    · intro c hcL
      rcases hbL : b.getLast? with _ | d
      · exact absurd (List.getLast?_eq_none_iff.mp hbL) hb
      · have hwl : ((a0 :: a') ++ '\n' :: b).getLast? = some d := by
          rw [List.getLast?_append, show ('\n' :: b) = ['\n'] ++ b from rfl,
            List.getLast?_append, hbL]
          rfl
        rw [hwl] at hcL
        simp only [Option.some.injEq] at hcL
        rw [← hcL]
        exact (hbP d (List.mem_of_mem_getLast? hbL)).1
  have hcont : ((a0 :: a') ++ '\n' :: b).contains '\n' = true :=
    List.elem_eq_true_of_mem (by simp)
  rw [param_branch]
  rw [h1, h2, h3]
  simp only [param_type_step, if_neg (show ¬('[' = '\x7b') from by decide), h4]
  simp only [show (consume_chars 1 ((byteLen u + 6, '[') :: charIndicesFrom (byteLen u + 7) s)) =
    charIndicesFrom (byteLen u + 7) s from rfl]
  simp only [param_name_step, decide_True, eq_self_iff_true, if_true, h5, hcu]
  rw [hslice, hname]
  rw [if_neg (show ¬((a0 :: a') ++ '\n' :: b = []) from by simp)]
  rw [if_pos hcont]

theorem pb_famC (content u : Str) (ls : Nat)
    (hc : content = u ++ "param \n".data) :
    param_branch content ls (charIndicesFrom (byteLen u) ("param \n".data)) =
      .val (.err (.MissingParameterName (get_line_and_column content ls).1
        (get_line_and_column content ls).2 (restFromByte content ls))) := by
  have h1 : consume_chars 5 (charIndicesFrom (byteLen u) ("param \n".data)) =
      charIndicesFrom (byteLen u + 5) (' ' :: ('\n' :: [])) := by
    rw [consume_chars_norm]
    rw [show (("param \n".data).take 5) = "param".data from rfl]
    rw [show (("param \n".data).drop 5) = ' ' :: ('\n' :: []) from rfl]
    rw [show byteLen "param".data = 5 from rfl]
  have h2 : consume_whitespace_until_newline (charIndicesFrom (byteLen u + 5) (' ' :: ('\n' :: []))) =
      charIndicesFrom (byteLen u + 6) ('\n' :: []) := by
    rw [consume_wun_norm]
    rw [show ((' ' :: ('\n' :: [])).takeWhile (fun c => rustIsWhitespace c && !(c = '\n'))) =
      [' '] from rfl]
    rw [show ((' ' :: ('\n' :: [])).dropWhile (fun c => rustIsWhitespace c && !(c = '\n'))) =
      '\n' :: [] from rfl]
    exact cif_congr _ _ _ (by rw [show byteLen [' '] = 1 from rfl])
  have h3 : charIndicesFrom (byteLen u + 6) ('\n' :: []) =
      (byteLen u + 6, '\n') :: [] := by
    rw [charIndicesFrom]
    rfl
  have h4 : consume_whitespace_until_newline ((byteLen u + 6, '\n') :: ([] : St)) =
      (byteLen u + 6, '\n') :: [] := by
    rw [consume_whitespace_until_newline, if_neg (by decide)]
  have hcueC : consume_until_either content [" ".data, "\n".data] ((byteLen u + 6, '\n') :: ([] : St)) =
      (some (byteLen u + 6), (byteLen u + 6, '\n') :: []) := by
    rw [consume_until_either]
    rw [show restFromByte content (byteLen u + 6) = '\n' :: [] from by
      rw [show byteLen u + 6 = byteLen (u ++ "param ".data) from by
        rw [byteLen_append, show byteLen "param ".data = 6 from rfl]]
      rw [show content = (u ++ "param ".data) ++ ('\n' :: []) from by rw [hc]; simp]
      exact restFromByte_decomp _ _]
    rw [if_pos (by decide)]
  have hsliceC : sliceT content (byteLen u + 6) (byteLen u + 6) = [] := by
    have hd := sliceT_decomp (u ++ "param ".data) [] ('\n' :: [])
    rw [byteLen_append, show byteLen "param ".data = 6 from rfl, byteLen_nil, Nat.add_zero] at hd
    rw [show content = (u ++ "param ".data) ++ [] ++ ('\n' :: []) from by rw [hc]; simp]
    exact hd
  rw [param_branch]
  rw [h1, h2, h3]
  simp only [param_type_step, if_neg (show ¬('\n' = '\x7b') from by decide), h4]
  simp only [param_name_step, if_neg (show ¬('\n' = '[') from by decide),
    show (decide ('\n' = '[')) = false from rfl, Bool.false_eq_true, if_false, h4, hcueC,
    Option.getD_some]
  rw [hsliceC]
  rw [show trimStr [] = [] from rfl]
  rw [if_pos rfl]

end LiquidDocs

namespace LiquidDocs

theorem char_toNat_inj (a b : Char) (h : a.toNat = b.toNat) : a = b :=
  Char.ext (UInt32.ext h)

theorem trimStr_cons_ne_nil (c : Char) (t : Str) (hcw : rustIsWhitespace c = false) :
    trimStr (c :: t) ≠ [] := by
  unfold trimStr
  intro h
  rw [List.dropWhile_cons_of_neg (by simp [hcw])] at h
  rw [List.reverse_eq_nil_iff, List.dropWhile_eq_nil_iff] at h
  have := h c (by simp)
  rw [hcw] at this
  exact absurd this (by simp)

theorem lastNlIdx_no10 (ys : List Nat) (hy : ¬ 10 ∈ ys) : lastNlIdx ys = none := by
  induction ys with
  | nil => rfl
  | cons b bs ih =>
    rw [lastNlIdx]
    rw [ih (fun h => hy (List.mem_cons_of_mem b h))]
    rw [if_neg (fun h => hy (by rw [h]; exact List.mem_cons_self _ _))]

theorem lastNlIdx_found (xs ys : List Nat) (hy : ¬ 10 ∈ ys) :
    lastNlIdx (xs ++ 10 :: ys) = some xs.length := by
  induction xs with
  | nil =>
    rw [List.nil_append, lastNlIdx, lastNlIdx_no10 ys hy, if_pos rfl]
    rfl
  | cons b bs ih =>
    rw [List.cons_append, lastNlIdx, ih]
    rfl

theorem famA_parse (s : Str) (hsA : ∀ c ∈ s, c.toNat < 128) (hnb : ']' ∉ s) :
    parse_doc_content ("@param [".data ++ s) =
      .val (.err (.MissingOptionalClosingBracket ("@param [".data ++ s))) := by
  have hA : ∀ c ∈ ("@param [".data ++ s), c.toNat < 128 := by
    intro c hc
    rcases List.mem_append.mp hc with h | h
    · exact (show ∀ x ∈ "@param [".data, x.toNat < 128 from by decide) c h
    · exact hsA c h
  apply parse_at0_err _ ("param [".data ++ s) _ rfl
  refine at_branch_param_err _ ("@".data) _ _ _ _ hA rfl ?_ rfl ?_ ?_ ?_
  · exact eqIgnore_head_ne 'p' 'd' _ _ (by decide)
  · intro c hcc
    rw [show (("param [".data ++ s))[5]? = some ' ' from rfl] at hcc
    simp only [Option.some.injEq] at hcc
    rw [← hcc]
    decide
  · simp
  · have := pb_famA ("@param [".data ++ s) ("@".data) s 0 hA rfl hnb
    rw [restFromByte_zero] at this
    exact this

theorem famB_parse (a b : Str) (ha : a ≠ []) (hb : b ≠ [])
    (haP : ∀ c ∈ a, c.toNat < 128 ∧ rustIsWhitespace c = false ∧ c ≠ ']')
    (hbP : ∀ c ∈ b, c.toNat < 128 ∧ rustIsWhitespace c = false ∧ c ≠ ']') :
    parse_doc_content ("@param [".data ++ (a ++ '\n' :: (b ++ [']']))) =
      .val (.err (.MissingOptionalClosingBracket
        ("@param [".data ++ (a ++ '\n' :: (b ++ [']']))))) := by
  have hA : ∀ c ∈ ("@param [".data ++ (a ++ '\n' :: (b ++ [']']))), c.toNat < 128 := by
    intro c hc
    rcases List.mem_append.mp hc with h | h
    · exact (show ∀ x ∈ "@param [".data, x.toNat < 128 from by decide) c h
    · rcases List.mem_append.mp h with h | h
      · exact (haP c h).1
      · rcases List.mem_cons.mp h with h | h
        · rw [h]; decide
        · rcases List.mem_append.mp h with h | h
          · exact (hbP c h).1
          · rcases List.mem_cons.mp h with h | h
            · rw [h]; decide
            · simp at h
  apply parse_at0_err _ ("param [".data ++ (a ++ '\n' :: (b ++ [']']))) _ rfl
  refine at_branch_param_err _ ("@".data) _ _ _ _ hA rfl ?_ rfl ?_ ?_ ?_
  · exact eqIgnore_head_ne 'p' 'd' _ _ (by decide)
  · intro c hcc
    rw [show (("param [".data ++ (a ++ '\n' :: (b ++ [']']))))[5]? = some ' ' from rfl] at hcc
    simp only [Option.some.injEq] at hcc
    rw [← hcc]
    decide
  · simp
  · have := pb_famB ("@param [".data ++ (a ++ '\n' :: (b ++ [']']))) ("@".data) a b 0 hA rfl
      ha hb (fun c hc => ⟨(haP c hc).2.1, (haP c hc).2.2⟩) (fun c hc => ⟨(hbP c hc).2.1, (hbP c hc).2.2⟩)
    rw [restFromByte_zero] at this
    exact this

end LiquidDocs

namespace LiquidDocs

theorem famC_parse (c0 : Char) (d' : Str) (hc0w : rustIsWhitespace c0 = false)
    (hdP : ∀ c ∈ c0 :: d', c.toNat < 128 ∧ c ≠ '@' ∧ c ≠ '\n') :
    parse_doc_content ((c0 :: d') ++ "\n @param \n".data) =
      .val (.err (.MissingParameterName 2 2 ("@param \n".data))) := by
  set content := (c0 :: d') ++ "\n @param \n".data with hcon
  set w := d' ++ "\n ".data with hwdef
  have hrest : content = c0 :: (w ++ "@param \n".data) := by
    rw [hcon, hwdef]
    simp
  have hc0at : c0 ≠ '@' := (hdP c0 (by simp)).2.1
  have hA : ∀ c ∈ content, c.toNat < 128 := by
    intro c hc
    rw [hcon] at hc
    rcases List.mem_append.mp hc with h | h
    · exact (hdP c h).1
    · exact (show ∀ x ∈ "\n @param \n".data, x.toNat < 128 from by decide) c h
  have hBL : byteLen [c0] + byteLen w = byteLen (c0 :: w) := by
    rw [byteLen_singleton, byteLen_cons]
  have hcw2 : content = (c0 :: w) ++ "@param \n".data := by
    rw [hrest]
    rfl
  have hw : ∀ j, j < w.length →
      markers.any (fun n => n.isPrefixOf ((w ++ "@param \n".data).drop j)) = false := by
    intro j hj
    have hjlen : j < (w ++ "@param \n".data).length := by
      rw [List.length_append]
      omega
    rw [List.drop_eq_getElem_cons hjlen]
    apply markers_any_head_ne
    rw [List.getElem_append_left hj]
    intro heq
    have hmem : w[j] ∈ w := List.getElem_mem _
    rw [heq] at hmem
    rw [hwdef] at hmem
    rcases List.mem_append.mp hmem with h | h
    · exact (hdP '@' (List.mem_cons_of_mem c0 h)).2.1 rfl
    · revert h
      decide
  have hcue : consume_until_either content markers (charIndicesFrom (uwidth c0) (w ++ "@param \n".data)) =
      (some (byteLen [c0] + byteLen w), charIndicesFrom (byteLen [c0] + byteLen w) ("@param \n".data)) := by
    rw [show uwidth c0 = byteLen [c0] from (byteLen_singleton c0).symm]
    exact cue_found content markers [c0] w ("@param \n".data) (by rw [hrest]; rfl) hw
      (by decide) (by decide)
  have hslice1 : sliceT content 0 (byteLen [c0] + byteLen w) = c0 :: w := by
    rw [hBL, hcw2]
    have hd := sliceT_decomp [] (c0 :: w) ("@param \n".data)
    rw [byteLen_nil, Nat.zero_add, List.nil_append] at hd
    exact hd
  have hrfb : restFromByte content (byteLen [c0] + byteLen w) = "@param \n".data := by
    rw [hBL, hcw2]
    exact restFromByte_decomp _ _
  have hsplitB : utf8Bytes (c0 :: w) = utf8Bytes (c0 :: d') ++ (10 :: [32]) := by
    rw [show (c0 :: w) = (c0 :: d') ++ "\n ".data from by rw [hwdef]; rfl, utf8Bytes_append]
    rfl
  have hno10 : ¬ (10 : Nat) ∈ utf8Bytes (c0 :: d') := by
    rw [utf8Bytes_ascii _ (fun c hc => (hdP c hc).1)]
    intro hmem
    obtain ⟨ch, hch, hchn⟩ := List.mem_map.mp hmem
    have : ch = '\n' := char_toNat_inj ch '\n' (by rw [hchn]; rfl)
    exact (hdP ch hch).2.2 this
  have htake : (utf8Bytes content).take (byteLen [c0] + byteLen w) = utf8Bytes (c0 :: w) := by
    rw [hBL, hcw2, utf8Bytes_append]
    rw [show byteLen (c0 :: w) = (utf8Bytes (c0 :: w)).length from rfl]
    exact List.take_left _ _
  have hlen2 : byteLen [c0] + byteLen w = (utf8Bytes (c0 :: d')).length + 2 := by
    rw [hBL, show byteLen (c0 :: w) = (utf8Bytes (c0 :: w)).length from rfl, hsplitB,
      List.length_append]
    rfl
  have hglc : get_line_and_column content (byteLen [c0] + byteLen w) = (2, 2) := by
    rw [get_line_and_column_eq]
    rw [htake, hsplitB, List.count_append, List.count_eq_zero.mpr hno10]
    rw [lastNewlineStart, precedingNlPos, htake, hsplitB, lastNlIdx_found _ _ (by decide)]
    rw [hlen2]
    simp only [Prod.mk.injEq]
    constructor
    · decide
    · omega
  have hab : at_branch content (byteLen [c0] + byteLen w)
      (charIndicesFrom (byteLen [c0] + byteLen w + 1) ("param \n".data))
      { DocBlock.default with description := trimStr (c0 :: w) } =
      .val (.err (.MissingParameterName 2 2 ("@param \n".data))) := by
    rw [show byteLen [c0] + byteLen w + 1 = byteLen ((c0 :: w) ++ ['@']) from by
      have h1 : byteLen ((c0 :: w) ++ ['@']) = byteLen (c0 :: w) + byteLen ['@'] :=
        byteLen_append _ _
      have h2 : byteLen (['@'] : Str) = 1 := rfl
      omega]
    have hcc : content = ((c0 :: w) ++ ['@']) ++ "param \n".data := by
      rw [hcw2]
      simp
    have hres := at_branch_param_err content ((c0 :: w) ++ ['@']) ("param \n".data)
      { DocBlock.default with description := trimStr (c0 :: w) } (byteLen [c0] + byteLen w) _ hA hcc
      (by decide) rfl
      (by
        intro c hcc2
        rw [show (("param \n".data))[5]? = some ' ' from rfl] at hcc2
        simp only [Option.some.injEq] at hcc2
        rw [← hcc2]
        decide)
      (by decide)
      (pb_famC content ((c0 :: w) ++ ['@']) (byteLen [c0] + byteLen w) hcc)
    rw [hres, hglc, hrfb]
  rw [parse_doc_content]
  rw [show charIndices content = (0, c0) :: charIndicesFrom (uwidth c0) (w ++ "@param \n".data) from by
    rw [charIndices, hrest, charIndicesFrom, Nat.zero_add]]
  rw [show consume_whitespace ((0, c0) :: charIndicesFrom (uwidth c0) (w ++ "@param \n".data)) =
      (0, c0) :: charIndicesFrom (uwidth c0) (w ++ "@param \n".data) from by
    rw [consume_whitespace, if_neg (by simp [hc0w])]]
  rw [show content.length + 1 = ((w ++ "@param \n".data).length + 1) + 1 from by
    rw [hrest]
    rfl]
  rw [parse_loop]
  rw [if_pos (show DocBlock.default.description = [] ∧ c0 ≠ '@' from ⟨rfl, hc0at⟩)]
  rw [hcue]
  simp only [Option.getD_some]
  rw [hslice1]
  rw [if_neg hc0at]
  rw [show charIndicesFrom (byteLen [c0] + byteLen w) ("@param \n".data) =
      (byteLen [c0] + byteLen w, '@') ::
        charIndicesFrom (byteLen [c0] + byteLen w + 1) ("param \n".data) from by
    rw [show ("@param \n".data) = '@' :: "param \n".data from rfl, charIndicesFrom,
      show uwidth '@' = 1 from rfl]]
  rw [parse_loop]
  rw [if_neg (show ¬(({ DocBlock.default with description := trimStr (c0 :: w) } : DocBlock).description = [] ∧ '@' ≠ '@') from fun h => h.2 rfl)]
  rw [if_pos (show ('@' : Char) = '@' from rfl)]
  rw [hab]

end LiquidDocs

namespace LiquidDocs

/-- **C8** (amended): the `@param` name-scan error taxonomy.  (a) An optional
parameter whose `]` is missing entirely fails with
`MissingOptionalClosingBracket` even when the rest of the annotation spans
newlines; (b) an optional parameter whose closing `]` lies on a later line
fails with `MissingOptionalClosingBracket` *when the newline survives
trimming* (non-whitespace on both sides); (c) a name that is empty after
trimming fails with `MissingParameterName` whose line/column are computed
from the annotation's start offset (here line 2, column 2). -/
theorem param_name_error_taxonomy :
    (∀ s : Str, (∀ c ∈ s, c.toNat < 128) → ']' ∉ s →
      parse_doc_content ("@param [".data ++ s) =
        .val (.err (.MissingOptionalClosingBracket ("@param [".data ++ s)))) ∧
    (∀ a b : Str, a ≠ [] → b ≠ [] →
      (∀ c ∈ a, c.toNat < 128 ∧ rustIsWhitespace c = false ∧ c ≠ ']') →
      (∀ c ∈ b, c.toNat < 128 ∧ rustIsWhitespace c = false ∧ c ≠ ']') →
      parse_doc_content ("@param [".data ++ (a ++ '\n' :: (b ++ [']']))) =
        .val (.err (.MissingOptionalClosingBracket
          ("@param [".data ++ (a ++ '\n' :: (b ++ [']'])))))) ∧
    (∀ (c0 : Char) (d' : Str), rustIsWhitespace c0 = false →
      (∀ c ∈ c0 :: d', c.toNat < 128 ∧ c ≠ '@' ∧ c ≠ '\n') →
      parse_doc_content ((c0 :: d') ++ "\n @param \n".data) =
        .val (.err (.MissingParameterName 2 2 ("@param \n".data)))) :=
  ⟨famA_parse, famB_parse, famC_parse⟩

/-- Witness for **C8**: the three families evaluated at `"@param [x"`,
`"@param [a\nb]"` and `"desc\n @param \n"`. -/
theorem param_name_error_taxonomy_witness :
    parse_doc_content ("@param [".data ++ "x".data) =
      .val (.err (.MissingOptionalClosingBracket ("@param [".data ++ "x".data))) ∧
    parse_doc_content ("@param [".data ++ ("a".data ++ '\n' :: ("b".data ++ [']']))) =
      .val (.err (.MissingOptionalClosingBracket
        ("@param [".data ++ ("a".data ++ '\n' :: ("b".data ++ [']']))))) ∧
    parse_doc_content (('d' :: "esc".data) ++ "\n @param \n".data) =
      .val (.err (.MissingParameterName 2 2 ("@param \n".data))) :=
  ⟨param_name_error_taxonomy.1 ("x".data) (by decide) (by decide),
   param_name_error_taxonomy.2.1 ("a".data) ("b".data) (by decide) (by decide)
     (by decide) (by decide),
   param_name_error_taxonomy.2.2 'd' ("esc".data) (by decide) (by decide)⟩

/-- **C8** counterexample to the claim as stated: in `"@param [a\n]"` the
optional parameter's closing `]` lies on a later line, yet the parse
*succeeds* with parameter `a` (the newline inside the brackets is removed by
trimming before the newline check), instead of failing with
`MissingOptionalClosingBracket`. -/
theorem param_name_error_taxonomy_cex :
    parse_doc_content ("@param [a\n]".data) =
      .val (.ok ⟨[], [⟨"a".data, none, none, true⟩], []⟩) := by
  decide

end LiquidDocs

namespace LiquidDocs

/-- A `doc` opening tag with its whitespace-control dash variants
(`{% doc %}`, `{%- doc %}`, `{% doc -%}`, `{%- doc -%}`), dashes given as
sublists. -/
def docOpenM (m1 m2 : Str) : Str :=
  "\x7b%".data ++ m1 ++ " doc ".data ++ m2 ++ "%\x7d".data

/-- An `enddoc` closing tag with its whitespace-control dash variants. -/
def docCloseM (m3 m4 : Str) : Str :=
  "\x7b%".data ++ m3 ++ " enddoc ".data ++ m4 ++ "%\x7d".data

/-- Dash sublist of a whitespace-control flag. -/
def dashStr (d : Bool) : Str := if d then ['-'] else []

/-- The `doc` opening tag selected by two dash flags. -/
def docOpen (d1 d2 : Bool) : Str := docOpenM (dashStr d1) (dashStr d2)

/-- The `enddoc` closing tag selected by two dash flags. -/
def docClose (d3 d4 : Bool) : Str := docCloseM (dashStr d3) (dashStr d4)

theorem dashStr_cases (d : Bool) : dashStr d = [] ∨ dashStr d = ['-'] := by
  cases d
  · exact Or.inl rfl
  · exact Or.inr rfl

theorem dash_ws_step (i : Nat) (md rest : Str) (hmd : md = [] ∨ md = ['-'])
    (hr : ∀ c, rest.head? = some c → (rustIsWhitespace c = false ∧ c ≠ '-')) :
    consume_whitespace (skip_dash (charIndicesFrom i (md ++ (' ' :: rest)))) =
      charIndicesFrom (i + byteLen md + 1) rest := by
  have hstop : ∀ k, consume_whitespace (charIndicesFrom k rest) = charIndicesFrom k rest := by
    intro k
    cases rest with
    | nil => rfl
    | cons r0 rs =>
      rw [charIndicesFrom, consume_whitespace, if_neg (by simp [(hr r0 rfl).1])]
  rcases hmd with rfl | rfl
  · rw [List.nil_append, charIndicesFrom]
    rw [show skip_dash ((i, ' ') :: charIndicesFrom (i + uwidth ' ') rest) =
      (i, ' ') :: charIndicesFrom (i + uwidth ' ') rest from rfl]
    rw [consume_whitespace, if_pos (by decide)]
    rw [show uwidth ' ' = 1 from rfl, show byteLen ([] : Str) = 0 from rfl]
    rw [show i + 0 + 1 = i + 1 from by omega]
    exact hstop (i + 1)
  · rw [List.cons_append, List.nil_append, charIndicesFrom]
    rw [show skip_dash ((i, '-') :: charIndicesFrom (i + uwidth '-') (' ' :: rest)) =
      charIndicesFrom (i + uwidth '-') (' ' :: rest) from rfl]
    rw [charIndicesFrom, consume_whitespace, if_pos (by decide)]
    rw [show uwidth '-' = 1 from rfl, show uwidth ' ' = 1 from rfl,
      show byteLen (['-'] : Str) = 1 from rfl]
    rw [show i + 1 + 1 = i + 1 + 1 from rfl]
    exact hstop (i + 1 + 1)

theorem tag_close_step (content : Str) (i : Nat) (md R : Str) (hmd : md = [] ∨ md = ['-'])
    (hR : R ≠ []) :
    skip_to_tag_close content (charIndicesFrom i (' ' :: (md ++ ('%' :: ('\x7d' :: R))))) =
      (some (i + byteLen md + 3), charIndicesFrom (i + byteLen md + 3) R) := by
  obtain ⟨r0, R', rfl⟩ : ∃ r0 R', R = r0 :: R' := by
    match R, hR with
    | r0 :: R', _ => exact ⟨r0, R', rfl⟩
  rcases hmd with rfl | rfl
  · rw [List.nil_append, skip_to_tag_close]
    rw [charIndicesFrom, consume_whitespace, if_pos (by decide)]
    rw [charIndicesFrom, consume_whitespace, if_neg (by decide)]
    rw [show skip_dash ((i + uwidth ' ', '%') ::
        charIndicesFrom (i + uwidth ' ' + uwidth '%') ('\x7d' :: (r0 :: R'))) =
      (i + uwidth ' ', '%') ::
        charIndicesFrom (i + uwidth ' ' + uwidth '%') ('\x7d' :: (r0 :: R')) from rfl]
    rw [charIndicesFrom, charIndicesFrom]
    rw [show uwidth ' ' = 1 from rfl, show uwidth '%' = 1 from rfl,
      show uwidth '\x7d' = 1 from rfl, show byteLen ([] : Str) = 0 from rfl]
    rw [show i + 1 + 1 + 1 = i + 0 + 3 from by omega]
    rfl
  · rw [List.cons_append, List.nil_append, skip_to_tag_close]
    rw [charIndicesFrom, consume_whitespace, if_pos (by decide)]
    rw [charIndicesFrom, consume_whitespace, if_neg (by decide)]
    rw [show skip_dash ((i + uwidth ' ', '-') ::
        charIndicesFrom (i + uwidth ' ' + uwidth '-') ('%' :: ('\x7d' :: (r0 :: R')))) =
      charIndicesFrom (i + uwidth ' ' + uwidth '-') ('%' :: ('\x7d' :: (r0 :: R'))) from rfl]
    rw [charIndicesFrom, charIndicesFrom, charIndicesFrom]
    rw [show uwidth ' ' = 1 from rfl, show uwidth '%' = 1 from rfl, show uwidth '-' = 1 from rfl,
      show uwidth '\x7d' = 1 from rfl, show byteLen (['-'] : Str) = 1 from rfl]
    rw [show i + 1 + 1 + 1 + 1 = i + 1 + 3 from by omega]
    rfl

end LiquidDocs

namespace LiquidDocs

theorem tagopen_prefix_elems (l : Str) (j : Nat) (h : tagOpenStr <+: l.drop j) :
    l[j]? = some '\x7b' ∧ l[j + 1]? = some '%' := by
  obtain ⟨t, ht⟩ := h
  constructor
  · rw [show l[j]? = (l.drop j)[0]? from by rw [List.getElem?_drop, Nat.add_zero]]
    rw [← ht, show tagOpenStr = '\x7b' :: ('%' :: []) from rfl]
    simp
  · rw [show l[j + 1]? = (l.drop j)[1]? from by rw [List.getElem?_drop]]
    rw [← ht, show tagOpenStr = '\x7b' :: ('%' :: []) from rfl]
    simp

theorem tagopen_prefix_of_elems (l : Str) (j : Nat)
    (h0 : l[j]? = some '\x7b') (h1 : l[j + 1]? = some '%') :
    tagOpenStr <+: l.drop j := by
  have hj : j < l.length := (List.getElem?_eq_some.mp h0).1
  have hj1 : j + 1 < l.length := (List.getElem?_eq_some.mp h1).1
  rw [List.drop_eq_getElem_cons hj, List.drop_eq_getElem_cons hj1]
  rw [(List.getElem?_eq_getElem hj).symm.trans h0 |> Option.some.inj]
  rw [(List.getElem?_eq_getElem hj1).symm.trans h1 |> Option.some.inj]
  exact ⟨l.drop (j + 1 + 1), rfl⟩

theorem no_tagopen_concat (pre post : Str) (hpre : '\x7b' ∉ pre)
    (hpost : ¬ tagOpenStr <:+: post) :
    ∀ j, ¬ tagOpenStr <+: ((pre ++ post).drop j) := by
  intro j h
  obtain ⟨h0, h1⟩ := tagopen_prefix_elems _ _ h
  by_cases hj : j < pre.length
  · rw [List.getElem?_append_left hj] at h0
    exact hpre (List.getElem?_mem h0)
  · push_neg at hj
    rw [List.getElem?_append_right hj] at h0
    rw [List.getElem?_append_right (by omega)] at h1
    rw [show j + 1 - pre.length = (j - pre.length) + 1 from by omega] at h1
    exact hpost (infix_of_prefix_drop _ _ _ (tagopen_prefix_of_elems _ _ h0 h1))

theorem no_tagopen_before (body v' : Str) (hbody : ¬ tagOpenStr <:+: body)
    (hv : v'[0]? ≠ some '%') :
    ∀ j, j < body.length → ¬ tagOpenStr <+: ((body ++ v').drop j) := by
  intro j hj h
  obtain ⟨h0, h1⟩ := tagopen_prefix_elems _ _ h
  rw [List.getElem?_append_left hj] at h0
  by_cases hj1 : j + 1 < body.length
  · rw [List.getElem?_append_left hj1] at h1
    exact hbody (infix_of_prefix_drop _ _ _ (tagopen_prefix_of_elems _ _ h0 h1))
  · push_neg at hj1
    rw [List.getElem?_append_right hj1] at h1
    rw [show j + 1 - body.length = 0 from by omega] at h1
    exact hv h1

theorem extract_loopB_noop (content : Str) (possible found : Nat) (blocks : List Str)
    (hfp : found ≠ possible) :
    ∀ (w : Str) (fuel i : Nat), w.length < fuel →
      (∀ j, ¬ tagOpenStr <+: w.drop j) →
      extract_loopB content possible fuel (charIndicesFrom i w) blocks found =
        .val (some blocks) := by
  intro w
  induction w with
  | nil =>
    intro fuel i hf _
    match fuel, hf with
    | f + 1, _ => rfl
  | cons c cs ih =>
    intro fuel i hf hnt
    match fuel, hf with
    | f + 1, hf =>
      have hstep : extract_step content c (charIndicesFrom (i + uwidth c) cs) =
          .cont (charIndicesFrom (i + uwidth c) cs) none := by
        by_cases hc : c = '\x7b'
        · subst hc
          cases cs with
          | nil => rfl
          | cons c2 cs2 =>
            have hc2 : c2 ≠ '%' := by
              intro h
              exact hnt 0 (by
                rw [List.drop_zero, h]
                exact ⟨cs2, rfl⟩)
            rw [charIndicesFrom]
            rw [extract_step.eq_def]
            split
            · rename_i heq
              simp only [List.cons.injEq, Prod.mk.injEq] at heq
              exact absurd heq.1.2 hc2
            · rfl
        · rw [extract_step.eq_def]
          split
          · rename_i heq
            exact absurd rfl hc
          · rfl
      rw [charIndicesFrom, extract_loopB, hstep]
      simp only [Option.toList_none, List.append_nil, Option.isSome_none, Bool.false_eq_true,
        if_false, Nat.add_zero]
      rw [if_neg hfp]
      exact ih f (i + uwidth c) (by simpa using hf) (fun j => hnt (j + 1))

end LiquidDocs

namespace LiquidDocs

theorem skip_enddoc (content u body m3 m4 post : Str) (fuel : Nat)
    (hA : ∀ c ∈ content, c.toNat < 128)
    (hm3 : m3 = [] ∨ m3 = ['-'])
    (hc : content = u ++ (body ++ (docCloseM m3 m4 ++ post)))
    (hbody : ¬ tagOpenStr <:+: body) :
    skip_to_tag content enddocStr false (fuel + 1)
      (charIndicesFrom (byteLen u) (body ++ (docCloseM m3 m4 ++ post))) =
      .val (some (byteLen u + byteLen body),
        charIndicesFrom (byteLen u + byteLen body + byteLen m3 + 3)
          ("enddoc ".data ++ (m4 ++ ('%' :: ('\x7d' :: post))))) := by
  have hv0 : (docCloseM m3 m4 ++ post)[0]? ≠ some '%' := by
    rw [show docCloseM m3 m4 ++ post =
      '\x7b' :: ('%' :: (m3 ++ (' ' :: ("enddoc ".data ++ (m4 ++ ('%' :: ('\x7d' :: post))))))) from by
      simp [docCloseM]]
    simp
  have hpre : tagOpenStr <+: (docCloseM m3 m4 ++ post) :=
    ⟨m3 ++ (" enddoc ".data ++ (m4 ++ ("%\x7d".data ++ post))), by simp [docCloseM, tagOpenStr]⟩
  have hcu : consume_until content tagOpenStr
      (charIndicesFrom (byteLen u) (body ++ (docCloseM m3 m4 ++ post))) =
      .val (some (byteLen u + byteLen body),
        charIndicesFrom (byteLen u + byteLen body) (docCloseM m3 m4 ++ post)) :=
    cu_found content tagOpenStr u body (docCloseM m3 m4 ++ post) hA hc (by decide)
      (no_tagopen_before body _ hbody hv0) hpre
  have hdws : consume_whitespace (skip_dash
      (charIndicesFrom (byteLen u + byteLen body + 1 + 1)
        (m3 ++ (' ' :: ("enddoc ".data ++ (m4 ++ ('%' :: ('\x7d' :: post)))))))) =
      charIndicesFrom (byteLen u + byteLen body + 1 + 1 + byteLen m3 + 1)
        ("enddoc ".data ++ (m4 ++ ('%' :: ('\x7d' :: post)))) :=
    dash_ws_step _ m3 _ hm3 (by
      intro c hcc
      rw [show (("enddoc ".data ++ (m4 ++ ('%' :: ('\x7d' :: post))))).head? = some 'e' from rfl] at hcc
      simp only [Option.some.injEq] at hcc
      rw [← hcc]
      exact ⟨by decide, by decide⟩)
  have hU : content = (u ++ (body ++ ("\x7b%".data ++ (m3 ++ [' '])))) ++
      ("enddoc ".data ++ (m4 ++ ('%' :: ('\x7d' :: post)))) := by
    rw [hc]
    simp [docCloseM]
  have hUpos : byteLen u + byteLen body + 1 + 1 + byteLen m3 + 1 =
      byteLen (u ++ (body ++ ("\x7b%".data ++ (m3 ++ [' '])))) := by
    rw [byteLen_append, byteLen_append, byteLen_append, byteLen_append]
    rw [show byteLen "\x7b%".data = 2 from rfl, show byteLen ([' '] : Str) = 1 from rfl]
    omega
  have hpk : peek_matches content enddocStr
      (charIndicesFrom (byteLen u + byteLen body + 1 + 1 + byteLen m3 + 1)
        ("enddoc ".data ++ (m4 ++ ('%' :: ('\x7d' :: post))))) = .val true := by
    rw [hUpos]
    apply peekm_true content _ _ enddocStr hA (by decide) hU (by simp)
    · rw [show enddocStr.length = 6 from rfl]
      simp
    · rw [show (("enddoc ".data ++ (m4 ++ ('%' :: ('\x7d' :: post)))).take enddocStr.length) =
        "enddoc".data from rfl]
      decide
    · intro c hcc
      rw [show enddocStr.length = 6 from rfl] at hcc
      rw [List.getElem?_append_left (by simp)] at hcc
      rw [show ("enddoc ".data)[6]? = some ' ' from by decide] at hcc
      simp only [Option.some.injEq] at hcc
      rw [← hcc]
      decide
  rw [skip_to_tag]
  simp only [hcu]
  rw [show docCloseM m3 m4 ++ post =
    '\x7b' :: ('%' :: (m3 ++ (' ' :: ("enddoc ".data ++ (m4 ++ ('%' :: ('\x7d' :: post))))))) from by
    simp [docCloseM]]
  rw [charIndicesFrom, charIndicesFrom, show uwidth '\x7b' = 1 from rfl,
    show uwidth '%' = 1 from rfl]
  simp only [Nat.sub_self]
  rw [show consume_chars (0 + 2)
      ((byteLen u + byteLen body, '\x7b') :: ((byteLen u + byteLen body + 1, '%') ::
        charIndicesFrom (byteLen u + byteLen body + 1 + 1)
          (m3 ++ (' ' :: ("enddoc ".data ++ (m4 ++ ('%' :: ('\x7d' :: post)))))))) =
    charIndicesFrom (byteLen u + byteLen body + 1 + 1)
      (m3 ++ (' ' :: ("enddoc ".data ++ (m4 ++ ('%' :: ('\x7d' :: post)))))) from rfl]
  rw [hdws, hpk]
  simp only [Bool.false_eq_true, if_false]
  rw [show byteLen u + byteLen body + 1 + 1 + byteLen m3 + 1 =
    byteLen u + byteLen body + byteLen m3 + 3 from by omega]

end LiquidDocs

namespace LiquidDocs

theorem extract_step_doc (content m1 m2 m3 m4 body post : Str)
    (hA : ∀ c ∈ content, c.toNat < 128)
    (hm1 : m1 = [] ∨ m1 = ['-']) (hm2 : m2 = [] ∨ m2 = ['-']) (hm3 : m3 = [] ∨ m3 = ['-'])
    (hc : content = docOpenM m1 m2 ++ (body ++ (docCloseM m3 m4 ++ post)))
    (hbody : ¬ tagOpenStr <:+: body) :
    extract_step content '\x7b'
      (charIndicesFrom 1 ('%' :: (m1 ++ (' ' :: ("doc ".data ++ (m2 ++ ('%' :: ('\x7d' ::
        (body ++ (docCloseM m3 m4 ++ post)))))))))) =
      .cont (charIndicesFrom (byteLen (docOpenM m1 m2) + byteLen body + byteLen m3 + 3)
          ("enddoc ".data ++ (m4 ++ ('%' :: ('\x7d' :: post)))))
        (some body) := by
  set R := body ++ (docCloseM m3 m4 ++ post) with hR
  have hRne : R ≠ [] := by
    rw [hR]
    intro h
    rcases List.append_eq_nil.mp h with ⟨_, h2⟩
    rcases List.append_eq_nil.mp h2 with ⟨h3, _⟩
    have := congrArg List.length h3
    simp [docCloseM] at this
  have hdws : consume_whitespace (skip_dash
      (charIndicesFrom 2 (m1 ++ (' ' :: ("doc ".data ++ (m2 ++ ('%' :: ('\x7d' :: R)))))))) =
      charIndicesFrom (2 + byteLen m1 + 1) ("doc ".data ++ (m2 ++ ('%' :: ('\x7d' :: R)))) :=
    dash_ws_step _ m1 _ hm1 (by
      intro c hcc
      rw [show (("doc ".data ++ (m2 ++ ('%' :: ('\x7d' :: R))))).head? = some 'd' from rfl] at hcc
      simp only [Option.some.injEq] at hcc
      rw [← hcc]
      exact ⟨by decide, by decide⟩)
  have hU1 : content = ("\x7b%".data ++ (m1 ++ [' '])) ++
      ("doc ".data ++ (m2 ++ ('%' :: ('\x7d' :: R)))) := by
    rw [hc, hR]
    simp [docOpenM]
  have hUpos1 : 2 + byteLen m1 + 1 = byteLen ("\x7b%".data ++ (m1 ++ [' '])) := by
    rw [byteLen_append, byteLen_append]
    rw [show byteLen "\x7b%".data = 2 from rfl, show byteLen ([' '] : Str) = 1 from rfl]
    omega
  have hpkh : peek_matches content hashStr
      (charIndicesFrom (2 + byteLen m1 + 1) ("doc ".data ++ (m2 ++ ('%' :: ('\x7d' :: R))))) =
      .val false := by
    rw [hUpos1]
    apply peekm_false content _ _ hashStr hA (by decide) hU1 (by simp)
    rw [show (("doc ".data ++ (m2 ++ ('%' :: ('\x7d' :: R)))).take hashStr.length) =
      ['d'] from rfl]
    decide
  have hpkr : peek_matches content rawStr
      (charIndicesFrom (2 + byteLen m1 + 1) ("doc ".data ++ (m2 ++ ('%' :: ('\x7d' :: R))))) =
      .val false := by
    rw [hUpos1]
    apply peekm_false content _ _ rawStr hA (by decide) hU1 (by simp)
    rw [show (("doc ".data ++ (m2 ++ ('%' :: ('\x7d' :: R)))).take rawStr.length) =
      "doc".data from rfl]
    decide
  have hpkc : peek_matches content commentStr
      (charIndicesFrom (2 + byteLen m1 + 1) ("doc ".data ++ (m2 ++ ('%' :: ('\x7d' :: R))))) =
      .val false := by
    rw [hUpos1]
    apply peekm_false content _ _ commentStr hA (by decide) hU1 (by simp)
    exact eqIgnore_head_ne 'd' 'c' _ _ (by decide)
  have hpkd : peek_matches content docStr
      (charIndicesFrom (2 + byteLen m1 + 1) ("doc ".data ++ (m2 ++ ('%' :: ('\x7d' :: R))))) =
      .val true := by
    rw [hUpos1]
    apply peekm_true content _ _ docStr hA (by decide) hU1 (by simp)
    · rw [show docStr.length = 3 from rfl]
      simp
    · rw [show (("doc ".data ++ (m2 ++ ('%' :: ('\x7d' :: R)))).take docStr.length) =
        "doc".data from rfl]
      decide
    · intro c hcc
      rw [show docStr.length = 3 from rfl] at hcc
      rw [List.getElem?_append_left (by simp)] at hcc
      rw [show ("doc ".data)[3]? = some ' ' from by decide] at hcc
      simp only [Option.some.injEq] at hcc
      rw [← hcc]
      decide
  have hcc3 : consume_chars 3
      (charIndicesFrom (2 + byteLen m1 + 1) ("doc ".data ++ (m2 ++ ('%' :: ('\x7d' :: R))))) =
      charIndicesFrom (2 + byteLen m1 + 1 + 3) (' ' :: (m2 ++ ('%' :: ('\x7d' :: R)))) := by
    rw [consume_chars_norm]
    rw [show (("doc ".data ++ (m2 ++ ('%' :: ('\x7d' :: R)))).take 3) = "doc".data from rfl]
    rw [show (("doc ".data ++ (m2 ++ ('%' :: ('\x7d' :: R)))).drop 3) =
      ' ' :: (m2 ++ ('%' :: ('\x7d' :: R))) from rfl]
    rw [show byteLen "doc".data = 3 from rfl]
  have htcs : skip_to_tag_close content
      (charIndicesFrom (2 + byteLen m1 + 1 + 3) (' ' :: (m2 ++ ('%' :: ('\x7d' :: R))))) =
      (some (2 + byteLen m1 + 1 + 3 + byteLen m2 + 3),
        charIndicesFrom (2 + byteLen m1 + 1 + 3 + byteLen m2 + 3) R) :=
    tag_close_step content _ m2 R hm2 hRne
  have hApos : 2 + byteLen m1 + 1 + 3 + byteLen m2 + 3 = byteLen (docOpenM m1 m2) := by
    rw [docOpenM, byteLen_append, byteLen_append, byteLen_append, byteLen_append]
    rw [show byteLen "\x7b%".data = 2 from rfl, show byteLen " doc ".data = 5 from rfl,
      show byteLen "%\x7d".data = 2 from rfl]
    omega
  have hsted : skip_to_tag content enddocStr false
      ((charIndicesFrom (byteLen (docOpenM m1 m2)) R).length + 1)
      (charIndicesFrom (byteLen (docOpenM m1 m2)) R) =
      .val (some (byteLen (docOpenM m1 m2) + byteLen body),
        charIndicesFrom (byteLen (docOpenM m1 m2) + byteLen body + byteLen m3 + 3)
          ("enddoc ".data ++ (m4 ++ ('%' :: ('\x7d' :: post))))) := by
    rw [hR]
    exact skip_enddoc content (docOpenM m1 m2) body m3 m4 post _ hA hm3
      (by rw [hc]) hbody
  have hslice : sliceT content (byteLen (docOpenM m1 m2))
      (byteLen (docOpenM m1 m2) + byteLen body) = body := by
    rw [show content = docOpenM m1 m2 ++ body ++ (docCloseM m3 m4 ++ post) from by
      rw [hc, List.append_assoc]]
    exact sliceT_decomp _ _ _
  rw [charIndicesFrom, show (1 : Nat) + uwidth '%' = 2 from by rw [show uwidth '%' = 1 from rfl]]
  rw [extract_step.eq_def]
  simp only [hdws, hpkh, hpkr, hpkc, hpkd, hcc3, htcs, hApos, hsted, hslice]

end LiquidDocs

namespace LiquidDocs

theorem extract_balanced_M (m1 m2 m3 m4 body post : Str)
    (hm1 : m1 = [] ∨ m1 = ['-']) (hm2 : m2 = [] ∨ m2 = ['-'])
    (hm3 : m3 = [] ∨ m3 = ['-']) (hm4 : m4 = [] ∨ m4 = ['-'])
    (hAb : ∀ c ∈ body, c.toNat < 128) (hAp : ∀ c ∈ post, c.toNat < 128)
    (hbody : ¬ tagOpenStr <:+: body) (hpost : ¬ tagOpenStr <:+: post) :
    extract_doc_blocks (docOpenM m1 m2 ++ (body ++ (docCloseM m3 m4 ++ post))) =
      .val (some [body]) := by
  set content := docOpenM m1 m2 ++ (body ++ (docCloseM m3 m4 ++ post)) with hcon
  have hopen : ∀ x ∈ docOpenM m1 m2, x.toNat < 128 := by
    rcases hm1 with rfl | rfl <;> rcases hm2 with rfl | rfl <;> decide
  have hclose : ∀ x ∈ docCloseM m3 m4, x.toNat < 128 := by
    rcases hm3 with rfl | rfl <;> rcases hm4 with rfl | rfl <;> decide
  have hA : ∀ c ∈ content, c.toNat < 128 := by
    intro c hc
    rw [hcon] at hc
    rcases List.mem_append.mp hc with h | h
    · exact hopen c h
    · rcases List.mem_append.mp h with h | h
      · exact hAb c h
      · rcases List.mem_append.mp h with h | h
        · exact hclose c h
        · exact hAp c h
  have hpossible : 1 ≤ countMatches content enddocStr := by
    have h1 : enddocStr <:+: " enddoc ".data := by decide
    have h2 : " enddoc ".data <:+: docCloseM m3 m4 :=
      ⟨"\x7b%".data ++ m3, m4 ++ "%\x7d".data, by simp [docCloseM]⟩
    have h3 : docCloseM m3 m4 <:+: content :=
      ⟨docOpenM m1 m2 ++ body, post, by rw [hcon]; simp⟩
    exact countMatches_pos _ _ (by decide) (h1.trans (h2.trans h3))
  have hcic : charIndices content = (0, '\x7b') ::
      charIndicesFrom 1 ('%' :: (m1 ++ (' ' :: ("doc ".data ++ (m2 ++ ('%' :: ('\x7d' ::
        (body ++ (docCloseM m3 m4 ++ post))))))))) := by
    rw [charIndices]
    rw [show content = '\x7b' :: ('%' :: (m1 ++ (' ' :: ("doc ".data ++ (m2 ++ ('%' :: ('\x7d' ::
      (body ++ (docCloseM m3 m4 ++ post))))))))) from by rw [hcon]; simp [docOpenM]]
    rw [charIndicesFrom, Nat.zero_add, show uwidth '\x7b' = 1 from rfl]
  have hstep := extract_step_doc content m1 m2 m3 m4 body post hA hm1 hm2 hm3 hcon hbody
  have hwsplit : "enddoc ".data ++ (m4 ++ ('%' :: ('\x7d' :: post))) =
      ("enddoc ".data ++ (m4 ++ ['%', '\x7d'])) ++ post := by
    simp
  have hnt : ∀ j, ¬ tagOpenStr <+:
      (("enddoc ".data ++ (m4 ++ ('%' :: ('\x7d' :: post)))).drop j) := by
    rw [hwsplit]
    apply no_tagopen_concat
    · rcases hm4 with rfl | rfl <;> decide
    · exact hpost
  have hlen : ("enddoc ".data ++ (m4 ++ ('%' :: ('\x7d' :: post)))).length < content.length := by
    have e1 : ("enddoc ".data ++ (m4 ++ ('%' :: ('\x7d' :: post)))).length =
        7 + (m4.length + (1 + (1 + post.length))) := by
      simp [List.length_append]
      omega
    have e2 : content.length = 9 + m1.length + m2.length +
        (body.length + (12 + m3.length + m4.length + post.length)) := by
      rw [hcon, List.length_append, List.length_append, List.length_append]
      rw [show (docOpenM m1 m2).length = 9 + m1.length + m2.length from by
        rw [docOpenM, List.length_append, List.length_append, List.length_append,
          List.length_append]
        rw [show ("\x7b%".data).length = 2 from rfl, show (" doc ".data).length = 5 from rfl,
          show ("%\x7d".data).length = 2 from rfl]
        omega]
      rw [show (docCloseM m3 m4).length = 12 + m3.length + m4.length from by
        rw [docCloseM, List.length_append, List.length_append, List.length_append,
          List.length_append]
        rw [show ("\x7b%".data).length = 2 from rfl, show (" enddoc ".data).length = 8 from rfl,
          show ("%\x7d".data).length = 2 from rfl]
        omega]
    omega
  rw [extract_doc_blocks]
  rw [if_neg (by omega)]
  rw [hcic]
  rw [extract_loopB]
  simp only [hstep]
  simp only [Option.toList_some, Option.isSome_some, if_true, List.nil_append, Nat.zero_add]
  by_cases hposs : (1 : Nat) = countMatches content enddocStr
  · rw [if_pos hposs]
    simp
  · rw [if_neg hposs]
    rw [extract_loopB_noop content (countMatches content enddocStr) 1 [body] hposs
      ("enddoc ".data ++ (m4 ++ ('%' :: ('\x7d' :: post)))) content.length
      (byteLen (docOpenM m1 m2) + byteLen body + byteLen m3 + 3) hlen hnt]
    simp

end LiquidDocs

namespace LiquidDocs

/-- **C1** (amended): for an ASCII text consisting of a balanced
`{% doc %}...{% enddoc %}` pair — in any of the whitespace-control dash
variants of the two tags — whose body contains no `{%` tag opener, followed
by trailing text with no `{%` tag opener, `extract_doc_blocks` returns
`Some` of exactly one slice equal to the exact bytes between the doc tag's
closing `%}` and the matching enddoc tag's opening `{%`, and the result is
identical for every dash variant. -/
theorem extract_balanced_pair_dashes (d1 d2 d3 d4 : Bool) (body post : Str)
    (hAb : ∀ c ∈ body, c.toNat < 128) (hAp : ∀ c ∈ post, c.toNat < 128)
    (hbody : ¬ tagOpenStr <:+: body) (hpost : ¬ tagOpenStr <:+: post) :
    extract_doc_blocks (docOpen d1 d2 ++ (body ++ (docClose d3 d4 ++ post))) =
      .val (some [body]) :=
  extract_balanced_M _ _ _ _ body post (dashStr_cases d1) (dashStr_cases d2)
    (dashStr_cases d3) (dashStr_cases d4) hAb hAp hbody hpost

/-- Witness for **C1**: `{%- doc %}hello{% enddoc -%} tail` extracts
`["hello"]`. -/
theorem extract_balanced_pair_dashes_witness :
    extract_doc_blocks (docOpen true false ++
        ("hello".data ++ (docClose false true ++ " tail".data))) =
      .val (some ["hello".data]) :=
  extract_balanced_pair_dashes true false false true ("hello".data) (" tail".data)
    (by decide) (by decide) (by decide) (by decide)

/-- **C1** counterexample to the claim as stated: the text
`{% raw %}{% doc %}x{% enddoc %}{% endraw %}y` contains a balanced
`{% doc %}x{% enddoc %}` pair as a substring, yet `extract_doc_blocks`
returns `None` rather than `Some` of one slice (the pair sits inside a
`{% raw %}` region). -/
theorem extract_balanced_pair_cex :
    extract_doc_blocks ("\x7b% raw %\x7d\x7b% doc %\x7dx\x7b% enddoc %\x7d\x7b% endraw %\x7dy".data) =
        .val none ∧
      ("\x7b% doc %\x7dx\x7b% enddoc %\x7d".data <:+:
        "\x7b% raw %\x7d\x7b% doc %\x7dx\x7b% enddoc %\x7d\x7b% endraw %\x7dy".data) := by
  constructor
  · decide
  · decide

end LiquidDocs

namespace LiquidDocs

/-- `st'` is a forward position of the scanner state `st` (a suffix of the
remaining `(offset, char)` pairs). -/
def IsStSuffix (st' st : St) : Prop := ∃ n, st' = st.drop n

theorem ss_refl (st : St) : IsStSuffix st st := ⟨0, rfl⟩

theorem ss_trans {st₁ st₂ st₃ : St} (h1 : IsStSuffix st₁ st₂) (h2 : IsStSuffix st₂ st₃) :
    IsStSuffix st₁ st₃ := by
  obtain ⟨n, rfl⟩ := h1
  obtain ⟨m, rfl⟩ := h2
  exact ⟨m + n, by rw [List.drop_drop, Nat.add_comm]⟩

theorem ss_tail (p : Nat × Char) (st : St) : IsStSuffix st (p :: st) := ⟨1, rfl⟩

theorem cw_suffix (st : St) : IsStSuffix (consume_whitespace st) st := by
  induction st with
  | nil => exact ss_refl _
  | cons p st ih =>
    obtain ⟨i, c⟩ := p
    rw [consume_whitespace]
    by_cases h : rustIsWhitespace c
    · rw [if_pos h]
      exact ss_trans ih (ss_tail _ _)
    · rw [if_neg h]
      exact ss_refl _

theorem cwun_suffix (st : St) : IsStSuffix (consume_whitespace_until_newline st) st := by
  induction st with
  | nil => exact ss_refl _
  | cons p st ih =>
    obtain ⟨i, c⟩ := p
    rw [consume_whitespace_until_newline]
    by_cases h : (rustIsWhitespace c && !(c = '\n')) = true
    · rw [if_pos h]
      exact ss_trans ih (ss_tail _ _)
    · rw [if_neg h]
      exact ss_refl _

theorem cc_suffix (n : Nat) (st : St) : IsStSuffix (consume_chars n st) st := ⟨n, rfl⟩

theorem sd_suffix (st : St) : IsStSuffix (skip_dash st) st := by
  rw [skip_dash.eq_def]
  split
  · exact ss_tail _ _
  · exact ss_refl _

theorem cue_suffix (content : Str) (ns : List Str) (st : St) :
    IsStSuffix (consume_until_either content ns st).2 st := by
  induction st with
  | nil => exact ss_refl _
  | cons p st ih =>
    obtain ⟨i, c⟩ := p
    rw [consume_until_either]
    by_cases h : (ns.any fun n => n.isPrefixOf (restFromByte content i)) = true
    · rw [if_pos h]
      exact ss_refl _
    · rw [if_neg h]
      exact ss_trans ih (ss_tail _ _)

theorem cu_go_suffix (content target : Str) (t0 : Char) (st : St) (o : Option Nat) (st' : St)
    (h : consume_until_go content target t0 st = .val (o, st')) : IsStSuffix st' st := by
  induction st generalizing o st' with
  | nil =>
    rw [consume_until_go] at h
    simp only [PRes.val.injEq, Prod.mk.injEq] at h
    rw [← h.2]
    exact ss_refl _
  | cons p st ih =>
    obtain ⟨i, c⟩ := p
    rw [consume_until_go] at h
    by_cases hc : c = t0
    · rw [if_pos hc] at h
      by_cases hle : i + byteLen target ≤ byteLen content
      · rw [if_pos hle] at h
        rcases hsl : sliceO content i (i + byteLen target) with _ | sl
        · simp only [hsl] at h
          exact absurd h (by simp)
        · simp only [hsl] at h
          by_cases heq : sl = target
          · rw [if_pos heq] at h
            simp only [PRes.val.injEq, Prod.mk.injEq] at h
            rw [← h.2]
            exact ss_refl _
          · rw [if_neg heq] at h
            exact ss_trans (ih o st' h) (ss_tail _ _)
      · rw [if_neg hle] at h
        exact ss_trans (ih o st' h) (ss_tail _ _)
    · rw [if_neg hc] at h
      exact ss_trans (ih o st' h) (ss_tail _ _)

theorem cu_suffix (content target : Str) (st : St) (o : Option Nat) (st' : St)
    (h : consume_until content target st = .val (o, st')) : IsStSuffix st' st := by
  rw [consume_until.eq_def] at h
  split at h
  · simp only [PRes.val.injEq, Prod.mk.injEq] at h
    rw [← h.2]
    exact ss_refl _
  · exact cu_go_suffix _ _ _ _ _ _ h

/-- The state is a `charIndices` suffix of `content`. -/
def StNorm (content : Str) (st : St) : Prop :=
  ∃ u v, content = u ++ v ∧ st = charIndicesFrom (byteLen u) v

theorem norm_charIndices (content : Str) : StNorm content (charIndices content) :=
  ⟨[], content, by simp, by rw [charIndices, byteLen_nil]⟩

theorem norm_drop (content : Str) (st : St) (n : Nat) (h : StNorm content st) :
    StNorm content (st.drop n) := by
  obtain ⟨u, v, hc, rfl⟩ := h
  refine ⟨u ++ v.take n, v.drop n, by rw [hc, List.append_assoc, List.take_append_drop], ?_⟩
  rw [show (charIndicesFrom (byteLen u) v).drop n = consume_chars n (charIndicesFrom (byteLen u) v) from rfl]
  rw [consume_chars_norm, byteLen_append]

theorem norm_of_suffix (content : Str) (st st' : St) (h : StNorm content st)
    (hs : IsStSuffix st' st) : StNorm content st' := by
  obtain ⟨n, rfl⟩ := hs
  exact norm_drop content st n h

end LiquidDocs

namespace LiquidDocs

theorem pts_suffix (content : Str) (ls sp : Nat) (ch : Char) (st : St)
    (o : Option ParamType) (st' : St)
    (h : param_type_step content ls sp ch st = .val (.inr (o, st'))) : IsStSuffix st' st := by
  rw [param_type_step.eq_def] at h
  by_cases hc : ch = '\x7b'
  · rw [if_pos hc] at h
    rcases st with _ | ⟨p, st1⟩
    · simp at h
    · rcases hcu : consume_until content ("\x7d".data) st1 with ⟨oc, stc⟩ | _ | _
      · rcases oc with _ | ep
        · simp only [hcu] at h
          simp at h
        · simp only [hcu] at h
          split at h
          · simp at h
          · simp only [PRes.val.injEq, Sum.inr.injEq, Prod.mk.injEq] at h
            rw [← h.2]
            exact ss_trans (ss_trans (cc_suffix 1 stc)
              (cu_suffix content _ st1 _ stc hcu)) (ss_tail _ _)
      · simp [hcu] at h
      · simp [hcu] at h
  · rw [if_neg hc] at h
    simp only [PRes.val.injEq, Sum.inr.injEq, Prod.mk.injEq] at h
    rw [← h.2]
    exact ss_refl _

theorem pns_suffix (content : Str) (ls : Nat) (opt : Bool) (st : St)
    (ep : Nat) (st' : St)
    (h : param_name_step content ls opt st = .val (.inr (ep, st'))) : IsStSuffix st' st := by
  rw [param_name_step] at h
  by_cases ho : opt = true
  · rw [if_pos ho] at h
    rcases hcu : consume_until content ("]".data) st with ⟨oc, stc⟩ | _ | _
    · rcases oc with _ | p
      · simp only [hcu] at h
        simp at h
      · simp only [hcu] at h
        simp only [PRes.val.injEq, Sum.inr.injEq, Prod.mk.injEq] at h
        rw [← h.2]
        exact cu_suffix content _ st _ stc hcu
    · simp [hcu] at h
    · simp [hcu] at h
  · rw [if_neg ho] at h
    simp only [PRes.val.injEq, Sum.inr.injEq, Prod.mk.injEq] at h
    rw [← h.2]
    exact cue_suffix content _ st

theorem pds_suffix (content : Str) (st : St) (o : Option Str) (st' : St)
    (h : param_desc_step content st = .val (o, st')) : IsStSuffix st' st := by
  rcases st with _ | ⟨⟨i, chD⟩, st1⟩
  · simp only [param_desc_step.eq_def] at h
    simp only [PRes.val.injEq, Prod.mk.injEq] at h
    rw [← h.2]
    exact ss_refl _
  · simp only [param_desc_step.eq_def] at h
    by_cases hd : chD = '\n'
    · rw [if_pos hd] at h
      simp only [PRes.val.injEq, Prod.mk.injEq] at h
      rw [← h.2]
      exact ss_refl _
    · rw [if_neg hd] at h
      rcases hcu : consume_until content ("\n".data)
          (consume_whitespace_until_newline ((i, chD) :: st1)) with ⟨oc, stc⟩ | _ | _
      · simp only [hcu] at h
        have hsfx : IsStSuffix stc ((i, chD) :: st1) :=
          ss_trans (cu_suffix content _ _ _ stc hcu) (cwun_suffix _)
        split at h
        · simp only [PRes.val.injEq, Prod.mk.injEq] at h
          rw [← h.2]
          exact hsfx
        · simp only [PRes.val.injEq, Prod.mk.injEq] at h
          rw [← h.2]
          exact hsfx
      · simp [hcu] at h
      · simp [hcu] at h

theorem pb_suffix (content : Str) (ls : Nat) (st0 : St) (p : Option Param) (st' : St)
    (h : param_branch content ls st0 = .val (.ok p st')) : IsStSuffix st' st0 := by
  simp only [param_branch.eq_def] at h
  have hsfx0 : IsStSuffix (consume_whitespace_until_newline (consume_chars 5 st0)) st0 :=
    ss_trans (cwun_suffix _) (cc_suffix 5 st0)
  rcases hstT : consume_whitespace_until_newline (consume_chars 5 st0) with _ | ⟨⟨sp2, ch2⟩, tl⟩
  · simp only [hstT] at h
    simp at h
  · simp only [hstT] at h
    rcases hts : param_type_step content ls sp2 ch2 ((sp2, ch2) :: tl) with a | _ | _
    rotate_left
    · simp [hts] at h
    · simp [hts] at h
    rcases a with e | ⟨ptype, stT⟩
    · simp only [hts] at h
      simp at h
    · simp only [hts] at h
      have hsfxT : IsStSuffix (consume_whitespace_until_newline stT) st0 := by
        apply ss_trans (cwun_suffix stT)
        apply ss_trans (pts_suffix content ls sp2 ch2 ((sp2, ch2) :: tl) ptype stT hts)
        rw [← hstT]
        exact hsfx0
      rcases hstT2 : consume_whitespace_until_newline stT with _ | ⟨⟨pos, ch3⟩, stT3⟩
      · simp only [hstT2] at h
        simp at h
      · simp only [hstT2] at h
        rcases hns : param_name_step content ls (ch3 = '[')
            (consume_whitespace_until_newline
              (if ch3 = '[' then consume_chars 1 ((pos, ch3) :: stT3)
               else (pos, ch3) :: stT3)) with a | _ | _
        rotate_left
        · simp [hns] at h
        · simp [hns] at h
        rcases a with e | ⟨end_pos, stN⟩
        · simp only [hns] at h
          simp at h
        · simp only [hns] at h
          have hsfxN : IsStSuffix stN st0 := by
            apply ss_trans (pns_suffix content ls _ _ end_pos stN hns)
            apply ss_trans (cwun_suffix _)
            have hbase : IsStSuffix ((pos, ch3) :: stT3) st0 := by
              rw [← hstT2]
              exact hsfxT
            by_cases hopt : ch3 = '['
            · rw [if_pos hopt]
              exact ss_trans (cc_suffix 1 _) hbase
            · rw [if_neg hopt]
              exact hbase
          by_cases hopt : ch3 = '['
          · simp only [if_pos hopt] at h
            split at h
            · simp at h
            · split at h
              · simp at h
              · rcases hds : param_desc_step content (consume_chars 1 stN) with ⟨od, stD⟩ | _ | _
                rotate_left
                · simp [hds] at h
                · simp [hds] at h
                simp only [hds] at h
                simp only [PRes.val.injEq, PBr.ok.injEq] at h
                rw [← h.2]
                exact ss_trans (pds_suffix content _ od stD hds)
                  (ss_trans (cc_suffix 1 _) hsfxN)
          · simp only [if_neg hopt] at h
            split at h
            · simp at h
            · split at h
              · simp at h
              · rcases hds : param_desc_step content stN with ⟨od, stD⟩ | _ | _
                rotate_left
                · simp [hds] at h
                · simp [hds] at h
                simp only [hds] at h
                simp only [PRes.val.injEq, PBr.ok.injEq] at h
                rw [← h.2]
                exact ss_trans (pds_suffix content _ od stD hds) hsfxN

end LiquidDocs

namespace LiquidDocs

/-- Text shape of every description/example a successful parse records:
nonempty, trimmed, and containing no annotation-marker occurrence. -/
def GoodText (t : Str) : Prop :=
  t ≠ [] ∧ trimStr t = t ∧ ∀ m ∈ markers, ¬ m <:+: t

/-- Invariant of the doc block carried through the parse loop. -/
def Good (db : DocBlock) : Prop :=
  (db.description = [] ∨ GoodText db.description) ∧ ∀ e ∈ db.«example», GoodText e

theorem good_default : Good DocBlock.default :=
  ⟨Or.inl rfl, by intro e he; simp [DocBlock.default] at he⟩

theorem marker_free_of_infix (t t' : Str) (h : t' <:+: t)
    (hm : ∀ m ∈ markers, ¬ m <:+: t) : ∀ m ∈ markers, ¬ m <:+: t' :=
  fun m hmm hinf => hm m hmm (hinf.trans h)

theorem good_of_trim (t : Str) (hmf : ∀ m ∈ markers, ¬ m <:+: t) :
    trimStr t = [] ∨ GoodText (trimStr t) := by
  by_cases hn : trimStr t = []
  · exact Or.inl hn
  · exact Or.inr ⟨hn, trimStr_idem t, marker_free_of_infix _ _ (trimStr_isInfix t) hmf⟩

theorem cue_slice_marker_free (w v'' : Str)
    (hnm : ∀ j, j < w.length →
      markers.any (fun n => n.isPrefixOf ((w ++ v'').drop j)) = false) :
    ∀ m ∈ markers, ¬ m <:+: w := by
  intro m hm hinf
  obtain ⟨j, hjle, hpre⟩ := prefix_drop_of_infix m w hinf
  obtain ⟨m', hm'⟩ := markers_shape m hm
  have hjlt : j < w.length := by
    rw [hm', List.length_cons] at hjle
    omega
  have hpre2 : m <+: ((w ++ v'').drop j) := by
    rw [List.drop_append_of_le_length (by omega)]
    exact hpre.trans (List.prefix_append _ _)
  have h2 := hnm j hjlt
  rw [List.any_eq_false] at h2
  exact absurd (List.isPrefixOf_iff_prefix.mpr hpre2) (by simpa using h2 m hm)

theorem marker_free_cons (ch : Char) (w : Str) (hch : ch ≠ '@')
    (hw : ∀ m ∈ markers, ¬ m <:+: w) : ∀ m ∈ markers, ¬ m <:+: (ch :: w) := by
  intro m hm hinf
  rcases List.infix_cons_iff.mp hinf with hp | hi
  · exact marker_not_prefix_of_head ch w hch m hm hp
  · exact hw m hm hi

theorem splitOnNl_ne_nil (s : Str) : splitOnNl s ≠ [] := by
  cases s with
  | nil => simp [splitOnNl]
  | cons c cs =>
    rw [splitOnNl]
    by_cases hc : c = '\n'
    · rw [if_pos hc]
      simp
    · rw [if_neg hc]
      rcases h : splitOnNl cs with _ | ⟨l, ls⟩
      · simp
      · simp

theorem splitOnNl_head_prefix (s : Str) : ∀ l0 ls, splitOnNl s = l0 :: ls → l0 <+: s := by
  induction s with
  | nil =>
    intro l0 ls h
    rw [splitOnNl] at h
    simp only [List.cons.injEq] at h
    rw [← h.1]
  | cons c cs ih =>
    intro l0 ls h
    rw [splitOnNl] at h
    by_cases hc : c = '\n'
    · rw [if_pos hc] at h
      simp only [List.cons.injEq] at h
      rw [← h.1]
      exact List.nil_prefix
    · rw [if_neg hc] at h
      rcases hsp : splitOnNl cs with _ | ⟨l, ls'⟩
      · exact absurd hsp (splitOnNl_ne_nil cs)
      · rw [hsp] at h
        simp only [List.cons.injEq] at h
        rw [← h.1]
        exact List.cons_prefix_cons.mpr ⟨rfl, ih l ls' hsp⟩

theorem splitOnNl_isInfix (s : Str) : ∀ l ∈ splitOnNl s, l <:+: s := by
  induction s with
  | nil =>
    intro l hl
    rw [splitOnNl] at hl
    simp only [List.mem_singleton] at hl
    rw [hl]
  | cons c cs ih =>
    intro l hl
    rw [splitOnNl] at hl
    by_cases hc : c = '\n'
    · rw [if_pos hc] at hl
      rcases List.mem_cons.mp hl with h | h
      · rw [h]
        exact ⟨[], c :: cs, by simp⟩
      · exact (ih l h).trans ⟨[c], [], by simp⟩
    · rw [if_neg hc] at hl
      rcases hsp : splitOnNl cs with _ | ⟨l0, ls⟩
      · exact absurd hsp (splitOnNl_ne_nil cs)
      · rw [hsp] at hl
        rcases List.mem_cons.mp hl with h | h
        · rw [h]
          exact (List.cons_prefix_cons.mpr ⟨rfl, splitOnNl_head_prefix cs l0 ls hsp⟩).isInfix
        · exact (ih l (by rw [hsp]; simp [h])).trans ⟨[c], [], by simp⟩

theorem splitOnNl_no_nl (s : Str) : ∀ l ∈ splitOnNl s, '\n' ∉ l := by
  induction s with
  | nil =>
    intro l hl
    rw [splitOnNl] at hl
    simp only [List.mem_singleton] at hl
    rw [hl]
    simp
  | cons c cs ih =>
    intro l hl
    rw [splitOnNl] at hl
    by_cases hc : c = '\n'
    · rw [if_pos hc] at hl
      rcases List.mem_cons.mp hl with h | h
      · rw [h]
        simp
      · exact ih l h
    · rw [if_neg hc] at hl
      rcases hsp : splitOnNl cs with _ | ⟨l0, ls⟩
      · exact absurd hsp (splitOnNl_ne_nil cs)
      · rw [hsp] at hl
        rcases List.mem_cons.mp hl with h | h
        · rw [h]
          intro hmem
          rcases List.mem_cons.mp hmem with h2 | h2
          · exact hc h2.symm
          · exact ih l0 (by rw [hsp]; simp) h2
        · exact ih l (by rw [hsp]; simp [h])

theorem splitOnNl_first (c : Char) (s : Str) (hc : c ≠ '\n') :
    ∃ l ls, splitOnNl (c :: s) = (c :: l) :: ls := by
  rw [splitOnNl, if_neg hc]
  rcases hsp : splitOnNl s with _ | ⟨l, ls⟩
  · exact absurd hsp (splitOnNl_ne_nil s)
  · exact ⟨l, ls, rfl⟩

theorem splitOnNl_last (s : Str) (c : Char) (hlast : s.getLast? = some c) (hc : c ≠ '\n') :
    ∃ l, (splitOnNl s).getLast? = some l ∧ l.getLast? = some c := by
  induction s with
  | nil => simp at hlast
  | cons a t ih =>
    cases t with
    | nil =>
      rw [List.getLast?_singleton, Option.some.injEq] at hlast
      have ha : a ≠ '\n' := by
        rw [hlast]
        exact hc
      rw [splitOnNl, if_neg ha, show splitOnNl [] = [[]] from rfl]
      exact ⟨[a], by simp, by simp [hlast]⟩
    | cons b t' =>
      have hlast2 : (b :: t').getLast? = some c := by
        rw [← List.getLast?_cons_cons]
        exact hlast
      obtain ⟨l, hl1, hl2⟩ := ih hlast2
      rw [splitOnNl]
      by_cases ha : a = '\n'
      · rw [if_pos ha]
        refine ⟨l, ?_, hl2⟩
        rw [show (([] : Str) :: splitOnNl (b :: t')) = [[]] ++ splitOnNl (b :: t') from rfl,
          List.getLast?_append, hl1]
        rfl
      · rw [if_neg ha]
        rcases hsp : splitOnNl (b :: t') with _ | ⟨l0, ls⟩
        · exact absurd hsp (splitOnNl_ne_nil _)
        · rw [hsp] at hl1
          rcases ls with _ | ⟨x, xs⟩
          · simp only [List.getLast?_singleton, Option.some.injEq] at hl1
            refine ⟨a :: l0, by simp, ?_⟩
            rw [← hl1] at hl2
            rw [show (a :: l0) = [a] ++ l0 from rfl, List.getLast?_append, hl2]
            rfl
          · refine ⟨l, ?_, hl2⟩
            have hxl : (x :: xs : List Str).getLast? = some l := by
              rcases hg : (x :: xs : List Str).getLast? with _ | lw
              · rw [List.getLast?_eq_none_iff] at hg
                simp at hg
              · rw [show (l0 :: x :: xs : List Str) = [l0] ++ (x :: xs) from rfl,
                  List.getLast?_append, hg] at hl1
                simpa using hl1
            simpa using hxl

end LiquidDocs

namespace LiquidDocs

theorem dtc_isPrefix (l : Str) : dropTrailingCr l <+: l := by
  rw [dropTrailingCr.eq_def]
  split
  · rename_i r hrev
    have : l = r.reverse ++ ['\r'] := by
      rw [show r.reverse ++ ['\r'] = ('\r' :: r).reverse from by simp, ← hrev, List.reverse_reverse]
    rw [this]
    exact List.prefix_append _ _
  · exact List.prefix_refl _

theorem dtc_head (c : Char) (l : Str) (hc : c ≠ '\r') :
    ∃ l', dropTrailingCr (c :: l) = c :: l' := by
  rw [dropTrailingCr.eq_def]
  split
  · rename_i r hrev
    have hl : c :: l = r.reverse ++ ['\r'] := by
      rw [show r.reverse ++ ['\r'] = ('\r' :: r).reverse from by simp, ← hrev, List.reverse_reverse]
    rcases hr : r.reverse with _ | ⟨c2, l2⟩
    · rw [hr] at hl
      simp only [List.nil_append, List.cons.injEq] at hl
      exact absurd hl.1 hc
    · rw [hr] at hl
      simp only [List.cons_append, List.cons.injEq] at hl
      refine ⟨l2, ?_⟩
      rw [hl.1]
  · exact ⟨l, rfl⟩

theorem dtc_last (l : Str) (c : Char) (h : l.getLast? = some c) (hc : c ≠ '\r') :
    dropTrailingCr l = l := by
  rw [dropTrailingCr.eq_def]
  split
  · rename_i r hrev
    rw [← List.head?_reverse, hrev] at h
    simp only [List.head?_cons, Option.some.injEq] at h
    exact absurd h.symm hc
  · rfl

theorem dtc_no_nl (l : Str) (h : '\n' ∉ l) : '\n' ∉ dropTrailingCr l :=
  fun hm => h ((dtc_isPrefix l).subset hm)

theorem dedent_skip_head (c : Char) (l : Str) (n : Nat) (hc : rustIsWhitespace c = false) :
    (((c :: l).take n).takeWhile rustIsWhitespace).length = 0 := by
  cases n with
  | zero => rfl
  | succ n =>
    rw [List.take_succ_cons, List.takeWhile_cons_of_neg (by simp [hc])]
    rfl

theorem drop_getLast (l : Str) (k : Nat) (h : k < l.length) :
    (l.drop k).getLast? = l.getLast? := by
  conv_rhs => rw [← List.take_append_drop k l]
  rw [List.getLast?_append]
  rcases hg : (l.drop k).getLast? with _ | d
  · rw [List.getLast?_eq_none_iff] at hg
    rw [List.drop_eq_nil_iff] at hg
    omega
  · rfl

theorem dedent_skip_lt (line : Str) (n : Nat) (c : Char)
    (hlast : line.getLast? = some c) (hcw : rustIsWhitespace c = false) :
    ((line.take n).takeWhile rustIsWhitespace).length < line.length := by
  have hpre : (line.take n).takeWhile rustIsWhitespace <+: line :=
    (List.takeWhile_prefix _).trans (List.take_prefix n line)
  rcases Nat.lt_or_ge ((line.take n).takeWhile rustIsWhitespace).length line.length with h | h
  · exact h
  · exfalso
    have hlen : ((line.take n).takeWhile rustIsWhitespace).length = line.length :=
      Nat.le_antisymm hpre.length_le h
    have heq : (line.take n).takeWhile rustIsWhitespace = line :=
      List.IsPrefix.eq_of_length hpre hlen
    have hcl : c ∈ line := List.mem_of_mem_getLast? hlast
    rw [← heq] at hcl
    have := List.mem_takeWhile_imp hcl
    rw [hcw] at this
    exact absurd this (by simp)

theorem intercalate_cons_cons_str (sep a b : Str) (l : List Str) :
    List.intercalate sep (a :: b :: l) = a ++ sep ++ List.intercalate sep (b :: l) := by
  simp [List.intercalate, List.intersperse]

theorem intercalate_head (sep : Str) (l0 : Str) (rest : List Str) (h : l0 ≠ []) :
    (List.intercalate sep (l0 :: rest)).head? = l0.head? := by
  cases rest with
  | nil =>
    rw [show List.intercalate sep [l0] = l0 from by simp [List.intercalate]]
  | cons b t =>
    rw [intercalate_cons_cons_str, List.append_assoc, List.head?_append]
    rcases hh : l0.head? with _ | c
    · rw [List.head?_eq_none_iff] at hh
      exact absurd hh h
    · rfl

theorem intercalate_last (sep : Str) :
    ∀ (ls : List Str) (lw : Str), ls.getLast? = some lw → lw ≠ [] →
      (List.intercalate sep ls).getLast? = lw.getLast? := by
  intro ls
  induction ls with
  | nil =>
    intro lw h _
    simp at h
  | cons a t ih =>
    intro lw h hlw
    cases t with
    | nil =>
      simp only [List.getLast?_singleton, Option.some.injEq] at h
      rw [show List.intercalate sep [a] = a from by simp [List.intercalate], h]
    | cons b t' =>
      have h2 : (b :: t').getLast? = some lw := by
        rw [← List.getLast?_cons_cons]
        exact h
      rw [intercalate_cons_cons_str, List.getLast?_append, List.getLast?_append,
        ih lw h2 hlw]
      rcases hg : lw.getLast? with _ | d
      · rw [List.getLast?_eq_none_iff] at hg
        exact absurd hg hlw
      · rfl

theorem not_infix_sandwich (pat : Str) (hp : pat ≠ []) (hnl : '\n' ∉ pat) :
    ∀ (l rest : Str), ¬ pat <:+: l → ¬ pat <:+: rest → ¬ pat <:+: (l ++ '\n' :: rest) := by
  intro l
  induction l with
  | nil =>
    intro rest h1 h2 hinf
    rw [List.nil_append] at hinf
    rcases List.infix_cons_iff.mp hinf with hpre | hi
    · match pat, hp with
      | p0 :: pt, _ =>
        have : p0 = '\n' := (List.cons_prefix_cons.mp hpre).1
        exact hnl (by rw [this]; simp)
    · exact h2 hi
  | cons a l' ih =>
    intro rest h1 h2 hinf
    rw [List.cons_append] at hinf
    rcases List.infix_cons_iff.mp hinf with hpre | hi
    · by_cases hle : pat.length ≤ (a :: l').length
      · have hpl : pat <+: (a :: l') := by
          rw [List.prefix_iff_eq_take]
          rw [List.prefix_iff_eq_take] at hpre
          conv_lhs => rw [hpre]
          rw [← List.cons_append, List.take_append_of_le_length hle]
        exact h1 hpl.isInfix
      · push_neg at hle
        apply hnl
        have hidx : (a :: (l' ++ '\n' :: rest))[(a :: l').length]? = some '\n' := by
          rw [← List.cons_append, List.getElem?_append_right (le_refl _), Nat.sub_self]
          simp
        have hplen : (a :: l').length < pat.length := hle
        obtain ⟨t, ht⟩ := hpre
        have hidx2 : (pat ++ t)[(a :: l').length]? = some '\n' := by
          rw [ht]
          exact hidx
        rw [List.getElem?_append_left hplen] at hidx2
        exact List.getElem?_mem hidx2
    · exact ih rest (fun hx => h1 (List.infix_cons hx)) h2 hi

theorem not_infix_intercalate (pat : Str) (hp : pat ≠ []) (hnl : '\n' ∉ pat) :
    ∀ (ls : List Str), (∀ l ∈ ls, ¬ pat <:+: l) →
      ¬ pat <:+: List.intercalate ("\n".data) ls := by
  intro ls
  induction ls with
  | nil =>
    intro _ hinf
    rw [show List.intercalate ("\n".data) [] = [] from by simp [List.intercalate]] at hinf
    exact hp (List.infix_nil.mp hinf)
  | cons a t ih =>
    intro hall hinf
    cases t with
    | nil =>
      rw [show List.intercalate ("\n".data) [a] = a from by simp [List.intercalate]] at hinf
      exact hall a (by simp) hinf
    | cons b t' =>
      rw [intercalate_cons_cons_str, List.append_assoc] at hinf
      rw [show ("\n".data ++ List.intercalate ("\n".data) (b :: t')) =
        '\n' :: List.intercalate ("\n".data) (b :: t') from rfl] at hinf
      exact not_infix_sandwich pat hp hnl a _ (hall a (by simp))
        (ih (fun l hl => hall l (by simp [hl]))) hinf

end LiquidDocs

namespace LiquidDocs

theorem markers_no_nl : ∀ m ∈ markers, '\n' ∉ m := by decide

theorem rustLines_nil : rustLines [] = [] := rfl

/-- The dedent pipeline of the `@example` branch (Rust lines 301-318),
applied to marker-free text, yields the empty list or good text: the
trim/lines/drop-prefix/join composition preserves nonemptiness of the first
and last characters and cannot create an annotation-marker occurrence. -/
theorem dedent_goodtext (w : Str) (n : Nat)
    (hmf : ∀ m ∈ markers, ¬ m <:+: w) :
    (List.intercalate ("\n".data) ((rustLines (trimStr w)).map (fun line =>
      line.drop (((line.take n).takeWhile rustIsWhitespace).length))) = []) ∨
    GoodText (List.intercalate ("\n".data) ((rustLines (trimStr w)).map (fun line =>
      line.drop (((line.take n).takeWhile rustIsWhitespace).length)))) := by
  by_cases ht : trimStr w = []
  · left
    rw [ht, rustLines_nil]
    rfl
  · right
    have hmt : ∀ m ∈ markers, ¬ m <:+: trimStr w :=
      marker_free_of_infix w _ (trimStr_isInfix w) hmf
    obtain ⟨c0, t₂, ht2⟩ : ∃ c0 t₂, trimStr w = c0 :: t₂ := by
      rcases hx : trimStr w with _ | ⟨c, t⟩
      · exact absurd hx ht
      · exact ⟨c, t, rfl⟩
    have hc0w : rustIsWhitespace c0 = false := trimStr_head w c0 (by rw [ht2]; rfl)
    obtain ⟨cL, hcL⟩ : ∃ cL, (trimStr w).getLast? = some cL := by
      rcases hx : (trimStr w).getLast? with _ | c
      · rw [List.getLast?_eq_none_iff] at hx
        exact absurd hx ht
      · exact ⟨c, rfl⟩
    have hcLw : rustIsWhitespace cL = false := trimStr_last w cL hcL
    have hc0nl : c0 ≠ '\n' := by
      intro h
      rw [h] at hc0w
      exact absurd hc0w (by decide)
    have hc0cr : c0 ≠ '\r' := by
      intro h
      rw [h] at hc0w
      exact absurd hc0w (by decide)
    have hcLnl : cL ≠ '\n' := by
      intro h
      rw [h] at hcLw
      exact absurd hcLw (by decide)
    have hcLcr : cL ≠ '\r' := by
      intro h
      rw [h] at hcLw
      exact absurd hcLw (by decide)
    obtain ⟨lf, lsf, hsp1⟩ := splitOnNl_first c0 t₂ hc0nl
    have hsp1' : splitOnNl (trimStr w) = (c0 :: lf) :: lsf := by
      rw [ht2]
      exact hsp1
    obtain ⟨ll, hll1, hll2⟩ := splitOnNl_last (trimStr w) cL hcL hcLnl
    have hll_ne : ll ≠ [] := by
      intro h
      rw [h] at hll2
      simp at hll2
    have hrl : rustLines (trimStr w) = (splitOnNl (trimStr w)).map dropTrailingCr := by
      simp only [rustLines]
      rw [if_neg (show ¬ (splitOnNl (trimStr w)).getLast? = some [] from by
        rw [hll1]
        simp [hll_ne])]
    set L := (rustLines (trimStr w)).map (fun line =>
      line.drop (((line.take n).takeWhile rustIsWhitespace).length)) with hL
    obtain ⟨lf', hlf'⟩ := dtc_head c0 lf hc0cr
    have hmapped : L = (c0 :: lf') :: (lsf.map dropTrailingCr).map (fun line =>
        line.drop (((line.take n).takeWhile rustIsWhitespace).length)) := by
      rw [hL, hrl, hsp1', List.map_cons, hlf', List.map_cons]
      simp only [dedent_skip_head c0 lf' n hc0w, List.drop_zero]
    have hhead : (List.intercalate ("\n".data) L).head? = some c0 := by
      rw [hmapped, intercalate_head _ _ _ (List.cons_ne_nil c0 lf')]
      rfl
    have hglast : L.getLast? =
        some (ll.drop (((ll.take n).takeWhile rustIsWhitespace).length)) := by
      rw [hL, hrl, List.map_map, List.getLast?_map, hll1]
      simp only [Option.map_some', Function.comp]
      rw [dtc_last ll cL hll2 hcLcr]
    have hkl : ((ll.take n).takeWhile rustIsWhitespace).length < ll.length :=
      dedent_skip_lt ll n cL hll2 hcLw
    have hdl : (ll.drop (((ll.take n).takeWhile rustIsWhitespace).length)).getLast? =
        some cL := by
      rw [drop_getLast ll _ hkl]
      exact hll2
    have hdl_ne : ll.drop (((ll.take n).takeWhile rustIsWhitespace).length) ≠ [] := by
      intro h
      rw [h] at hdl
      simp at hdl
    have hlastE : (List.intercalate ("\n".data) L).getLast? = some cL := by
      rw [intercalate_last _ L _ hglast hdl_ne]
      exact hdl
    have hne : List.intercalate ("\n".data) L ≠ [] := by
      intro h
      rw [h] at hhead
      simp at hhead
    have htrim : trimStr (List.intercalate ("\n".data) L) =
        List.intercalate ("\n".data) L :=
      trimStr_eq_self _
        (fun c hcc => by
          rw [hhead] at hcc
          injection hcc with h2
          rw [← h2]
          exact hc0w)
        (fun c hcc => by
          rw [hlastE] at hcc
          injection hcc with h2
          rw [← h2]
          exact hcLw)
    have hmfex : ∀ m ∈ markers, ¬ m <:+: List.intercalate ("\n".data) L := by
      intro m hm
      obtain ⟨m', hm'⟩ := markers_shape m hm
      refine not_infix_intercalate m (by rw [hm']; exact List.cons_ne_nil _ _)
        (markers_no_nl m hm) L ?_
      intro l hl
      rw [hL, hrl, List.map_map] at hl
      obtain ⟨p, hp, hpe⟩ := List.mem_map.mp hl
      intro hinf
      have h1 : l <:+: w := by
        have ha : l <:+ dropTrailingCr p := by
          rw [← hpe]
          exact List.drop_suffix _ _
        exact ((ha.isInfix).trans (dtc_isPrefix p).isInfix).trans
          ((splitOnNl_isInfix _ p hp).trans (trimStr_isInfix w))
      exact hmf m hm (hinf.trans h1)
    exact ⟨hne, htrim, hmfex⟩

/-- The full `ex` expression of the `@example` branch is empty or good. -/
theorem ex_goodtext (w : Str) (hmfw : ∀ m ∈ markers, ¬ m <:+: w) :
    (if 0 < (w.takeWhile rustIsWhitespace).length then
        List.intercalate ("\n".data) ((rustLines (trimStr w)).map (fun line =>
          line.drop (((line.take ((w.takeWhile rustIsWhitespace).length - 1)).takeWhile
            rustIsWhitespace).length)))
      else trimStr w) = [] ∨
    GoodText (if 0 < (w.takeWhile rustIsWhitespace).length then
        List.intercalate ("\n".data) ((rustLines (trimStr w)).map (fun line =>
          line.drop (((line.take ((w.takeWhile rustIsWhitespace).length - 1)).takeWhile
            rustIsWhitespace).length)))
      else trimStr w) := by
  by_cases h : 0 < (w.takeWhile rustIsWhitespace).length
  · rw [if_pos h]
    exact dedent_goodtext w _ hmfw
  · rw [if_neg h]
    exact good_of_trim w hmfw

end LiquidDocs

namespace LiquidDocs

/-- The `@description` branch preserves the parse-loop invariant and state
normalization. -/
theorem desc_branch_good (content : Str) (st0 : St) (db : DocBlock)
    (hn : StNorm content st0) (hg : Good db) :
    Good (desc_branch content st0 db).1 ∧ StNorm content (desc_branch content st0 db).2 := by
  have hnst : StNorm content (consume_whitespace (consume_chars 11 st0)) :=
    norm_of_suffix content st0 _ hn
      (ss_trans (cw_suffix (consume_chars 11 st0)) (cc_suffix 11 st0))
  obtain ⟨u, v, hc, hst⟩ := hnst
  obtain ⟨w, v'', hsplit, hnm, hres⟩ := cue_inv content markers u v hc
  have hcc : content = u ++ w ++ v'' := by rw [hc, hsplit, List.append_assoc]
  have hmfw : ∀ m ∈ markers, ¬ m <:+: w := by
    apply cue_slice_marker_free w v''
    intro j hj
    have h2 := hnm j hj
    rw [hsplit] at h2
    exact h2
  have hslice : sliceT content (byteLen u) (byteLen u + byteLen w) = w := by
    rw [hcc]
    exact sliceT_decomp u w v''
  have hend : (consume_until_either content markers
      (charIndicesFrom (byteLen u) v)).1.getD (byteLen content) = byteLen u + byteLen w := by
    rcases hres with ⟨hv, hr⟩ | ⟨hv, hhit, hr⟩
    · rw [hr]
      show byteLen content = byteLen u + byteLen w
      rw [hcc, hv, byteLen_append, byteLen_append, byteLen_nil]
      omega
    · rw [hr]
      show byteLen (u ++ w) = byteLen u + byteLen w
      exact byteLen_append u w
  have hst2 : StNorm content (consume_until_either content markers
      (charIndicesFrom (byteLen u) v)).2 := by
    rcases hres with ⟨hv, hr⟩ | ⟨hv, hhit, hr⟩
    · rw [hr]
      exact ⟨content, [], by simp, rfl⟩
    · rw [hr]
      exact ⟨u ++ w, v'', by rw [hc, hsplit, List.append_assoc], rfl⟩
  simp only [desc_branch]
  rw [hst]
  cases v with
  | nil =>
    obtain ⟨hw, hv''⟩ := List.append_eq_nil.mp hsplit.symm
    subst hw
    have hbu : byteLen content = byteLen u := by
      rw [hc, byteLen_append, byteLen_nil]
      omega
    simp only [charIndicesFrom] at hend hst2 ⊢
    rw [hend]
    rw [if_neg (by rw [byteLen_nil, hbu]; omega)]
    exact ⟨hg, hst2⟩
  | cons ch v₂ =>
    simp only [charIndicesFrom] at hend hst2 ⊢
    rw [hend, hslice]
    by_cases hwnil : w = []
    · subst hwnil
      rw [if_neg (by rw [byteLen_nil]; omega)]
      exact ⟨hg, hst2⟩
    · have hwpos : 0 < byteLen w := by
        match w, hwnil with
        | c :: w', _ =>
          rw [byteLen_cons]
          have := uwidth_pos c
          omega
      rw [if_pos (by omega)]
      constructor
      · split
        · rename_i stripped heq
          have hstr : ∀ m ∈ markers, ¬ m <:+: stripped := by
            intro m hm hinf
            apply hmfw m hm
            exact hinf.trans (((List.suffix_cons '-' stripped).isInfix).trans
              (heq ▸ trimStr_isInfix w))
          refine ⟨?_, fun e he => hg.2 e he⟩
          rcases good_of_trim stripped hstr with h | h
          · exact Or.inl h
          · exact Or.inr h
        · rename_i t heq
          refine ⟨?_, fun e he => hg.2 e he⟩
          rcases good_of_trim w hmfw with h | h
          · exact Or.inl h
          · exact Or.inr h
      · split
        · exact hst2
        · exact hst2

end LiquidDocs

namespace LiquidDocs

/-- The `@example` branch preserves the parse-loop invariant and state
normalization. -/
theorem example_branch_good (content : Str) (st0 : St) (db : DocBlock)
    (hn : StNorm content st0) (hg : Good db) :
    Good (example_branch content st0 db).1 ∧
      StNorm content (example_branch content st0 db).2 := by
  have hnst : StNorm content (consume_whitespace_until_newline (consume_chars 7 st0)) :=
    norm_of_suffix content st0 _ hn
      (ss_trans (cwun_suffix (consume_chars 7 st0)) (cc_suffix 7 st0))
  obtain ⟨u, v, hc, hst⟩ := hnst
  obtain ⟨w, v'', hsplit, hnm, hres⟩ := cue_inv content markers u v hc
  have hcc : content = u ++ w ++ v'' := by rw [hc, hsplit, List.append_assoc]
  have hmfw : ∀ m ∈ markers, ¬ m <:+: w := by
    apply cue_slice_marker_free w v''
    intro j hj
    have h2 := hnm j hj
    rw [hsplit] at h2
    exact h2
  have hslice : sliceT content (byteLen u) (byteLen u + byteLen w) = w := by
    rw [hcc]
    exact sliceT_decomp u w v''
  have hend : (consume_until_either content markers
      (charIndicesFrom (byteLen u) v)).1.getD (byteLen content) = byteLen u + byteLen w := by
    rcases hres with ⟨hv, hr⟩ | ⟨hv, hhit, hr⟩
    · rw [hr]
      show byteLen content = byteLen u + byteLen w
      rw [hcc, hv, byteLen_append, byteLen_append, byteLen_nil]
      omega
    · rw [hr]
      show byteLen (u ++ w) = byteLen u + byteLen w
      exact byteLen_append u w
  have hst2 : StNorm content (consume_until_either content markers
      (charIndicesFrom (byteLen u) v)).2 := by
    rcases hres with ⟨hv, hr⟩ | ⟨hv, hhit, hr⟩
    · rw [hr]
      exact ⟨content, [], by simp, rfl⟩
    · rw [hr]
      exact ⟨u ++ w, v'', by rw [hc, hsplit, List.append_assoc], rfl⟩
  simp only [example_branch]
  rw [hst]
  cases v with
  | nil =>
    obtain ⟨hw, hv''⟩ := List.append_eq_nil.mp hsplit.symm
    subst hw
    have hbu : byteLen content = byteLen u := by
      rw [hc, byteLen_append, byteLen_nil]
      omega
    simp only [charIndicesFrom] at hend hst2 ⊢
    rw [hend, hbu, hslice]
    simp only [List.takeWhile_nil, List.length_nil]
    rw [if_neg (show ¬ (0:Nat) < 0 from by omega)]
    rw [show trimStr [] = ([] : Str) from rfl]
    rw [if_pos (rfl : ([] : Str) = [])]
    exact ⟨hg, hst2⟩
  | cons ch v₂ =>
    simp only [charIndicesFrom] at hend hst2 ⊢
    rw [hend, hslice]
    have hexg := ex_goodtext w hmfw
    constructor
    · by_cases hex : (if 0 < (w.takeWhile rustIsWhitespace).length then
          List.intercalate ("\n".data) ((rustLines (trimStr w)).map (fun line =>
            line.drop (((line.take ((w.takeWhile rustIsWhitespace).length - 1)).takeWhile
              rustIsWhitespace).length)))
        else trimStr w) = []
      · rw [if_pos hex]
        exact hg
      · rw [if_neg hex]
        refine ⟨hg.1, fun e he => ?_⟩
        rcases List.mem_append.mp he with h | h
        · exact hg.2 e h
        · rw [List.mem_singleton] at h
          rcases hexg with h2 | h2
          · exact absurd h2 hex
          · rw [h]
            exact h2
    · show StNorm content (consume_until_either content markers
        ((byteLen u, ch) :: charIndicesFrom (byteLen u + uwidth ch) v₂)).2
      exact hst2

end LiquidDocs

namespace LiquidDocs

/-- The whole `@`-dispatch of one loop iteration preserves the invariant
and state normalization whenever it succeeds. -/
theorem at_branch_good (content : Str) (line_start : Nat) (st : St) (db : DocBlock)
    (hn : StNorm content st) (hg : Good db) (db2 : DocBlock) (st2 : St)
    (h : at_branch content line_start st db = .val (.ok db2 st2)) :
    Good db2 ∧ StNorm content st2 := by
  simp only [at_branch] at h
  rcases hp1 : peek_matches content descriptionStr st with ⟨b1⟩ | _ | _
  rotate_left
  · simp [hp1] at h
  · simp [hp1] at h
  simp only [hp1] at h
  have hr1 : Good (if b1 ∧ db.description = [] then desc_branch content st db
      else (db, st)).1 ∧ StNorm content (if b1 ∧ db.description = [] then
      desc_branch content st db else (db, st)).2 := by
    by_cases hbd : b1 ∧ db.description = []
    · rw [if_pos hbd]
      exact desc_branch_good content st db hn hg
    · rw [if_neg hbd]
      exact ⟨hg, hn⟩
  generalize hgen : (if b1 ∧ db.description = [] then desc_branch content st db
      else (db, st)) = r1 at hr1 h
  obtain ⟨hgA, hnA⟩ := hr1
  rcases hp2 : peek_matches content paramStr r1.2 with ⟨b2⟩ | _ | _
  rotate_left
  · simp [hp2] at h
  · simp [hp2] at h
  simp only [hp2] at h
  cases b2 with
  | false =>
    rw [if_neg (show ¬ ((false : Bool) = true) from by simp)] at h
    rcases hp3 : peek_matches content exampleStr r1.2 with ⟨b3⟩ | _ | _
    rotate_left
    · simp [hp3] at h
    · simp [hp3] at h
    simp only [hp3] at h
    cases b3 with
    | false =>
      rw [if_neg (show ¬ ((false : Bool) = true) from by simp)] at h
      simp only [PRes.val.injEq, ABr.ok.injEq] at h
      obtain ⟨h1, h2⟩ := h
      exact ⟨h1 ▸ hgA, h2 ▸ hnA⟩
    | true =>
      rw [if_pos (show (true : Bool) = true from rfl)] at h
      simp only [PRes.val.injEq, ABr.ok.injEq] at h
      obtain ⟨h1, h2⟩ := h
      have hex := example_branch_good content r1.2 r1.1 hnA hgA
      exact ⟨h1 ▸ hex.1, h2 ▸ hex.2⟩
  | true =>
    rw [if_pos (show (true : Bool) = true from rfl)] at h
    rcases hpb : param_branch content line_start r1.2 with ⟨pb⟩ | _ | _
    rotate_left
    · simp [hpb] at h
    · simp [hpb] at h
    simp only [hpb] at h
    rcases pb with ⟨p, st'⟩ | ⟨e⟩
    · have hnB : StNorm content st' :=
        norm_of_suffix content r1.2 st' hnA (pb_suffix content line_start r1.2 p st' hpb)
      have hgB : Good { r1.1 with param := r1.1.param ++ p.toList } := hgA
      rcases hp3 : peek_matches content exampleStr st' with ⟨b3⟩ | _ | _
      rotate_left
      · simp [hp3] at h
      · simp [hp3] at h
      simp only [hp3] at h
      cases b3 with
      | false =>
        rw [if_neg (show ¬ ((false : Bool) = true) from by simp)] at h
        simp only [PRes.val.injEq, ABr.ok.injEq] at h
        obtain ⟨h1, h2⟩ := h
        exact ⟨h1 ▸ hgB, h2 ▸ hnB⟩
      | true =>
        rw [if_pos (show (true : Bool) = true from rfl)] at h
        simp only [PRes.val.injEq, ABr.ok.injEq] at h
        obtain ⟨h1, h2⟩ := h
        have hex := example_branch_good content st'
          { r1.1 with param := r1.1.param ++ p.toList } hnB hgB
        exact ⟨h1 ▸ hex.1, h2 ▸ hex.2⟩
    · simp at h

end LiquidDocs

namespace LiquidDocs

/-- Shape of the leading-text capture of one loop iteration: the slice from
the current character to the next marker hit starts with that character,
its tail is marker-free, and the state after the scan is normalized. -/
theorem capture_shape_cons (content : Str) (line_start : Nat) (ch : Char) (st : St)
    (hn : StNorm content ((line_start, ch) :: st)) :
    ∃ w, sliceT content line_start
        ((consume_until_either content markers st).1.getD (byteLen content)) = ch :: w ∧
      (∀ m ∈ markers, ¬ m <:+: w) ∧
      StNorm content (consume_until_either content markers st).2 := by
  obtain ⟨u, v, hc, hst⟩ := hn
  cases v with
  | nil => exact absurd hst (by simp [charIndicesFrom])
  | cons c v₂ =>
    rw [show charIndicesFrom (byteLen u) (c :: v₂) =
      (byteLen u, c) :: charIndicesFrom (byteLen u + uwidth c) v₂ from rfl] at hst
    injection hst with h1 h2
    injection h1 with hls hch2
    subst hls
    subst hch2
    have hbu1 : byteLen u + uwidth ch = byteLen (u ++ [ch]) := by
      rw [byteLen_append, byteLen_singleton]
    rw [hbu1] at h2
    have hc' : content = (u ++ [ch]) ++ v₂ := by rw [hc]; simp
    obtain ⟨w, v'', hsplit, hnm, hres⟩ := cue_inv content markers (u ++ [ch]) v₂ hc'
    have hcc : content = u ++ (ch :: w) ++ v'' := by
      rw [hc', hsplit]
      simp
    have hmfw : ∀ m ∈ markers, ¬ m <:+: w := by
      apply cue_slice_marker_free w v''
      intro j hj
      have hx := hnm j hj
      rw [hsplit] at hx
      exact hx
    have hend : (consume_until_either content markers
        (charIndicesFrom (byteLen (u ++ [ch])) v₂)).1.getD (byteLen content) =
        byteLen u + byteLen (ch :: w) := by
      rcases hres with ⟨hv, hr⟩ | ⟨hv, hhit, hr⟩
      · rw [hr]
        show byteLen content = byteLen u + byteLen (ch :: w)
        rw [hcc, hv, byteLen_append, byteLen_append, byteLen_nil]
        omega
      · rw [hr]
        show byteLen ((u ++ [ch]) ++ w) = byteLen u + byteLen (ch :: w)
        rw [byteLen_append, byteLen_append, byteLen_singleton, byteLen_cons]
        omega
    have hslice : sliceT content (byteLen u) (byteLen u + byteLen (ch :: w)) = ch :: w := by
      rw [hcc]
      exact sliceT_decomp u (ch :: w) v''
    refine ⟨w, ?_, hmfw, ?_⟩
    · rw [h2, hend]
      exact hslice
    · rw [h2]
      rcases hres with ⟨hv, hr⟩ | ⟨hv, hhit, hr⟩
      · rw [hr]
        exact ⟨content, [], by simp, rfl⟩
      · rw [hr]
        exact ⟨(u ++ [ch]) ++ w, v'', by rw [hc', hsplit]; simp, rfl⟩

/-- The scan loop of `parse_doc_content` preserves the invariant: from a
normalized state and a good block, a successful run returns a good block. -/
theorem pl_good (content : Str) : ∀ (fuel : Nat) (st : St) (db : DocBlock),
    StNorm content st → Good db → ∀ db',
      parse_loop content fuel st db = .val (.ok db') → Good db' := by
  intro fuel
  induction fuel with
  | zero =>
    intro st db _ _ db' h
    simp [parse_loop] at h
  | succ fuel ih =>
    intro st db hn hg db' h
    cases st with
    | nil =>
      simp only [parse_loop] at h
      simp only [PRes.val.injEq, POut.ok.injEq] at h
      exact h ▸ hg
    | cons p st =>
      obtain ⟨line_start, ch⟩ := p
      simp only [parse_loop] at h
      have hr1 : Good (if db.description = [] ∧ ch ≠ '@' then
            ({ db with description := trimStr (sliceT content line_start
              ((consume_until_either content markers st).1.getD (byteLen content))) },
             (consume_until_either content markers st).2)
          else (db, st)).1 ∧
          StNorm content (if db.description = [] ∧ ch ≠ '@' then
            ({ db with description := trimStr (sliceT content line_start
              ((consume_until_either content markers st).1.getD (byteLen content))) },
             (consume_until_either content markers st).2)
          else (db, st)).2 := by
        by_cases hbd : db.description = [] ∧ ch ≠ '@'
        · rw [if_pos hbd]
          obtain ⟨w, hslice, hmfw, hnorm⟩ := capture_shape_cons content line_start ch st hn
          refine ⟨⟨?_, fun e he => hg.2 e he⟩, hnorm⟩
          rw [hslice]
          exact good_of_trim (ch :: w) (marker_free_cons ch w hbd.2 hmfw)
        · rw [if_neg hbd]
          exact ⟨hg, norm_of_suffix content _ st hn (ss_tail (line_start, ch) st)⟩
      generalize hgen : (if db.description = [] ∧ ch ≠ '@' then
            ({ db with description := trimStr (sliceT content line_start
              ((consume_until_either content markers st).1.getD (byteLen content))) },
             (consume_until_either content markers st).2)
          else (db, st)) = r1 at hr1 h
      obtain ⟨hgA, hnA⟩ := hr1
      by_cases hch : ch = '@'
      · rw [if_pos hch] at h
        rcases hab : at_branch content line_start r1.2 r1.1 with ⟨ab⟩ | _ | _
        rotate_left
        · simp [hab] at h
        · simp [hab] at h
        simp only [hab] at h
        rcases ab with ⟨db2, st2⟩ | ⟨e⟩
        · have h2 := at_branch_good content line_start r1.2 r1.1 hnA hgA db2 st2 hab
          exact ih st2 db2 h2.2 h2.1 db' h
        · simp at h
      · rw [if_neg hch] at h
        exact ih r1.2 r1.1 hnA hgA db' h

/-- Every block a successful `parse_doc_content` returns is good: its
description is empty or trimmed marker-free text, and every recorded
example is trimmed marker-free text. -/
theorem parse_good (content : Str) (db : DocBlock)
    (h : parse_doc_content content = .val (.ok db)) : Good db := by
  simp only [parse_doc_content] at h
  split at h
  · rename_i db0 heq
    by_cases hd : db0 = DocBlock.default
    · rw [if_pos hd] at h
      simp at h
    · rw [if_neg hd] at h
      simp only [PRes.val.injEq, POut.ok.injEq] at h
      have hnorm : StNorm content (consume_whitespace (charIndices content)) :=
        norm_of_suffix content (charIndices content) _ (norm_charIndices content)
          (cw_suffix _)
      exact h ▸ pl_good content (content.length + 1) _ DocBlock.default hnorm
        good_default db0 heq
  · rename_i r hne
    exact absurd h (hne db)

end LiquidDocs

namespace LiquidDocs

/-- Feeding good text (nonempty, trimmed, marker-free) whose first character
is not `@` back into `parse_doc_content` returns it unchanged as the
description of an otherwise-empty block. -/
theorem reparse_of_goodtext (t : Str) (hgt : GoodText t) (hch : t.head? ≠ some '@') :
    parse_doc_content t = .val (.ok { DocBlock.default with description := t }) := by
  obtain ⟨c0, t₂, ht⟩ : ∃ c0 t₂, t = c0 :: t₂ := by
    rcases hx : t with _ | ⟨c, s⟩
    · exact absurd hx hgt.1
    · exact ⟨c, s, rfl⟩
  have hc0 : c0 ≠ '@' := by
    intro hx
    apply hch
    rw [ht, hx]
    rfl
  have hc0w : rustIsWhitespace c0 = false := by
    apply trimStr_head t c0
    rw [hgt.2.1, ht]
    rfl
  have hm : ∀ j, (markers.any fun n => n.isPrefixOf (t₂.drop j)) = false := by
    intro j
    rw [List.any_eq_false]
    intro m hmm hpre
    rw [List.isPrefixOf_iff_prefix] at hpre
    apply hgt.2.2 m hmm
    rw [ht]
    exact hpre.isInfix.trans
      ((List.drop_suffix j t₂).trans (List.suffix_cons c0 t₂)).isInfix
  have hcue : consume_until_either t markers (charIndicesFrom (0 + uwidth c0) t₂) =
      (none, []) := by
    have h0 : (0 : Nat) + uwidth c0 = byteLen [c0] := by
      rw [byteLen_singleton, Nat.zero_add]
    rw [h0]
    exact cue_none t markers [c0] t₂ (by rw [ht]; rfl) hm
  have hslice : sliceT t 0 (byteLen t) = t := by
    have h1 := sliceT_decomp [] t []
    simpa [byteLen_nil] using h1
  have hne : { DocBlock.default with description := t } ≠ DocBlock.default := by
    intro hx
    exact hgt.1 (congrArg DocBlock.description hx)
  have hcw : consume_whitespace ((0, c0) :: charIndicesFrom (0 + uwidth c0) t₂) =
      (0, c0) :: charIndicesFrom (0 + uwidth c0) t₂ := by
    simp only [consume_whitespace]
    rw [if_neg (show ¬ rustIsWhitespace c0 = true from by rw [hc0w]; simp)]
  have hci : charIndices t = (0, c0) :: charIndicesFrom (0 + uwidth c0) t₂ := by
    rw [ht]
    rfl
  have hfuel : t.length + 1 = t₂.length + 1 + 1 := by
    rw [ht]
    rfl
  have hpl2 : parse_loop t (t.length + 1) (consume_whitespace (charIndices t))
      DocBlock.default = .val (.ok { DocBlock.default with description := t }) := by
    rw [hci, hcw, hfuel]
    simp only [parse_loop]
    rw [if_pos (show DocBlock.default.description = [] ∧ c0 ≠ '@' from ⟨rfl, hc0⟩)]
    rw [hcue]
    rw [if_neg hc0]
    show parse_loop t (t₂.length + 1) []
        { DocBlock.default with description := trimStr (sliceT t 0 (byteLen t)) } =
      .val (.ok { DocBlock.default with description := t })
    rw [hslice, hgt.2.1]
    simp only [parse_loop]
  simp only [parse_doc_content]
  rw [hpl2]
  show PRes.val (if { DocBlock.default with description := t } = DocBlock.default then
      POut.err ParsingError.NoDocContentFound
    else POut.ok { DocBlock.default with description := t }) =
    PRes.val (POut.ok { DocBlock.default with description := t })
  rw [if_neg hne]

end LiquidDocs

namespace LiquidDocs

/-- **C9** (corrected): re-parsing idempotence holds for the text a
successful parse records, but only when that text does not itself begin with
`@`: for every body whose parse succeeds with result `r`, feeding `r`'s
description (when non-empty and not starting with `@`) back into
`parse_doc_content` yields `Ok` with exactly that text as the description
and empty param and example lists, and likewise for every recorded example
text not starting with `@`.  The unrestricted claim is false: recorded
description/example text can start with `@` (e.g. the description `"@x"`
from `"@description @x"`), and re-parsing such text strips the leading
character, yielding different text back. -/
theorem reparse_idempotence (body : Str) (r : DocBlock)
    (h : parse_doc_content body = .val (.ok r)) :
    (r.description ≠ [] → r.description.head? ≠ some '@' →
      parse_doc_content r.description =
        .val (.ok { DocBlock.default with description := r.description })) ∧
    (∀ e ∈ r.«example», e.head? ≠ some '@' →
      parse_doc_content e = .val (.ok { DocBlock.default with description := e })) := by
  have hgood := parse_good body r h
  constructor
  · intro hne hch
    rcases hgood.1 with hd | hd
    · exact absurd hd hne
    · exact reparse_of_goodtext r.description hd hch
  · intro e he hch
    exact reparse_of_goodtext e (hgood.2 e he) hch

theorem reparse_idempotence_witness :
    parse_doc_content ("hi\n@example x".data) =
      .val (.ok ⟨"hi".data, [], ["x".data]⟩) ∧
    parse_doc_content ("hi".data) =
      .val (.ok { DocBlock.default with description := "hi".data }) ∧
    parse_doc_content ("x".data) =
      .val (.ok { DocBlock.default with description := "x".data }) := by
  have h0 : parse_doc_content ("hi\n@example x".data) =
      .val (.ok ⟨"hi".data, [], ["x".data]⟩) := by decide
  refine ⟨h0, ?_, ?_⟩
  · exact (reparse_idempotence ("hi\n@example x".data) ⟨"hi".data, [], ["x".data]⟩ h0).1
      (by decide) (by decide)
  · exact (reparse_idempotence ("hi\n@example x".data) ⟨"hi".data, [], ["x".data]⟩ h0).2
      ("x".data) (by decide) (by decide)

/-- Counterexample to C9 as stated: parsing `"@description @x"` succeeds
with description `"@x"`, and re-parsing `"@x"` yields description `"x"`,
not `"@x"` — the `@` dispatch consumes the leading character of the
recorded text, so extraction does double-process already-extracted text
that begins with an unrecognized annotation. -/
theorem reparse_idempotence_cex :
    parse_doc_content ("@description @x".data) =
      .val (.ok ⟨"@x".data, [], []⟩) ∧
    parse_doc_content ("@x".data) = .val (.ok ⟨"x".data, [], []⟩) ∧
    ("x".data : Str) ≠ "@x".data := by
  refine ⟨by decide, by decide, by decide⟩

end LiquidDocs

namespace LiquidDocs

theorem no_tagopen_append (pre body : Str) (hpre : '\x7b' ∉ pre)
    (hbody : ¬ tagOpenStr <:+: body) : ¬ tagOpenStr <:+: (pre ++ body) := by
  intro hinf
  obtain ⟨j, _, hp⟩ := prefix_drop_of_infix _ _ hinf
  exact no_tagopen_concat pre body hpre hbody j hp

theorem tag_close_step_all (content u R : Str)
    (hc : content = u ++ (' ' :: ('%' :: ('\x7d' :: R)))) :
    skip_to_tag_close content (charIndicesFrom (byteLen u) (' ' :: ('%' :: ('\x7d' :: R)))) =
      (some (byteLen u + 3), charIndicesFrom (byteLen u + 3) R) := by
  cases R with
  | nil =>
    have hbl : byteLen content = byteLen u + 3 := by
      rw [hc, byteLen_append]
      rw [show byteLen (' ' :: ('%' :: ('\x7d' :: ([] : Str)))) = 3 from rfl]
    rw [skip_to_tag_close]
    rw [show charIndicesFrom (byteLen u + 3) ([] : Str) = [] from rfl]
    rw [charIndicesFrom, consume_whitespace, if_pos (by decide)]
    rw [charIndicesFrom, consume_whitespace, if_neg (by decide)]
    rw [show skip_dash ((byteLen u + uwidth ' ', '%') ::
        charIndicesFrom (byteLen u + uwidth ' ' + uwidth '%') ('\x7d' :: ([] : Str))) =
      (byteLen u + uwidth ' ', '%') ::
        charIndicesFrom (byteLen u + uwidth ' ' + uwidth '%') ('\x7d' :: ([] : Str)) from rfl]
    rw [charIndicesFrom, show charIndicesFrom
      (byteLen u + uwidth ' ' + uwidth '%' + uwidth '\x7d') ([] : Str) = [] from rfl]
    rw [hbl]
    rfl
  | cons r0 R' =>
    have h := tag_close_step content (byteLen u) [] (r0 :: R') (Or.inl rfl) (by simp)
    rw [List.nil_append] at h
    rw [show byteLen ([] : Str) = 0 from rfl] at h
    rw [show byteLen u + 0 + 3 = byteLen u + 3 from by omega] at h
    exact h

end LiquidDocs

namespace LiquidDocs

/-- One unsuccessful probe of `skip_to_tag`: the scan reaches the next `{%`
(after tag-opener-free text `w`), the keyword there does not match `tag`
case-insensitively, and the search continues just past `{% `. -/
theorem skip_to_tag_miss (content tag : Str) (re : Bool) (u w : Str) (k0 : Char)
    (rest : Str) (fuel : Nat)
    (hA : ∀ c ∈ content, c.toNat < 128)
    (hAn : byteLen tag = tag.length)
    (hc : content = u ++ (w ++ ("\x7b% ".data ++ (k0 :: rest))))
    (hw : ¬ tagOpenStr <:+: w)
    (hk0w : rustIsWhitespace k0 = false) (hk0d : k0 ≠ '-')
    (hmiss : eqIgnoreAsciiCase ((k0 :: rest).take tag.length) tag = false) :
    skip_to_tag content tag re (fuel + 1)
      (charIndicesFrom (byteLen u) (w ++ ("\x7b% ".data ++ (k0 :: rest)))) =
      skip_to_tag content tag re fuel
        (charIndicesFrom (byteLen u + byteLen w + 3) (k0 :: rest)) := by
  have hv0 : ("\x7b% ".data ++ (k0 :: rest))[0]? ≠ some '%' := by
    rw [show ("\x7b% ".data ++ (k0 :: rest))[0]? = some '\x7b' from rfl]
    simp
  have hpre : tagOpenStr <+: ("\x7b% ".data ++ (k0 :: rest)) :=
    ⟨' ' :: (k0 :: rest), rfl⟩
  have hcu : consume_until content tagOpenStr
      (charIndicesFrom (byteLen u) (w ++ ("\x7b% ".data ++ (k0 :: rest)))) =
      .val (some (byteLen u + byteLen w),
        charIndicesFrom (byteLen u + byteLen w) ("\x7b% ".data ++ (k0 :: rest))) :=
    cu_found content tagOpenStr u w ("\x7b% ".data ++ (k0 :: rest)) hA hc (by decide)
      (no_tagopen_before w _ hw hv0) hpre
  have hdws : consume_whitespace (skip_dash
      (charIndicesFrom (byteLen u + byteLen w + 1 + 1) (' ' :: (k0 :: rest)))) =
      charIndicesFrom (byteLen u + byteLen w + 1 + 1 + 1) (k0 :: rest) := by
    have h := dash_ws_step (byteLen u + byteLen w + 1 + 1) [] (k0 :: rest) (Or.inl rfl)
      (by
        intro c hcc
        rw [show (k0 :: rest).head? = some k0 from rfl] at hcc
        simp only [Option.some.injEq] at hcc
        rw [← hcc]
        exact ⟨hk0w, hk0d⟩)
    rw [List.nil_append] at h
    rw [show byteLen ([] : Str) = 0 from rfl] at h
    rw [show byteLen u + byteLen w + 1 + 1 + 0 + 1 =
      byteLen u + byteLen w + 1 + 1 + 1 from by omega] at h
    exact h
  have hU : content = (u ++ (w ++ "\x7b% ".data)) ++ (k0 :: rest) := by
    rw [hc]
    simp
  have hUpos : byteLen u + byteLen w + 1 + 1 + 1 = byteLen (u ++ (w ++ "\x7b% ".data)) := by
    rw [byteLen_append, byteLen_append]
    rw [show byteLen ("\x7b% ".data) = 3 from rfl]
    omega
  have hpk : peek_matches content tag
      (charIndicesFrom (byteLen u + byteLen w + 1 + 1 + 1) (k0 :: rest)) = .val false := by
    rw [hUpos]
    exact peekm_false content _ _ tag hA hAn hU (by simp) hmiss
  rw [skip_to_tag]
  simp only [hcu]
  rw [show ("\x7b% ".data ++ (k0 :: rest)) =
    '\x7b' :: ('%' :: (' ' :: (k0 :: rest))) from rfl]
  rw [charIndicesFrom, charIndicesFrom, show uwidth '\x7b' = 1 from rfl,
    show uwidth '%' = 1 from rfl]
  simp only [Nat.sub_self]
  rw [show consume_chars (0 + 2)
      ((byteLen u + byteLen w, '\x7b') :: ((byteLen u + byteLen w + 1, '%') ::
        charIndicesFrom (byteLen u + byteLen w + 1 + 1) (' ' :: (k0 :: rest)))) =
    charIndicesFrom (byteLen u + byteLen w + 1 + 1) (' ' :: (k0 :: rest)) from rfl]
  rw [hdws, hpk]

/-- The successful probe of `skip_to_tag` with `return_end`: the scan
reaches `{% tag %}` (after tag-opener-free text `w`), the keyword matches,
and the position just after the closing `%}` is returned. -/
theorem skip_to_tag_hit (content tag : Str) (u w post : Str) (fuel : Nat)
    (hA : ∀ c ∈ content, c.toNat < 128)
    (hAn : byteLen tag = tag.length)
    (hc : content = u ++ (w ++ ("\x7b% ".data ++ (tag ++ (" %\x7d".data ++ post)))))
    (hw : ¬ tagOpenStr <:+: w)
    (htag : tag ≠ [])
    (hth : ∀ c, tag.head? = some c → (rustIsWhitespace c = false ∧ c ≠ '-'))
    (hself : eqIgnoreAsciiCase tag tag = true) :
    skip_to_tag content tag true (fuel + 1)
      (charIndicesFrom (byteLen u)
        (w ++ ("\x7b% ".data ++ (tag ++ (" %\x7d".data ++ post))))) =
      .val (some (byteLen u + byteLen w + 3 + byteLen tag + 3),
        charIndicesFrom (byteLen u + byteLen w + 3 + byteLen tag + 3) post) := by
  have hv0 : ("\x7b% ".data ++ (tag ++ (" %\x7d".data ++ post)))[0]? ≠ some '%' := by
    rw [show ("\x7b% ".data ++ (tag ++ (" %\x7d".data ++ post)))[0]? = some '\x7b' from rfl]
    simp
  have hpre : tagOpenStr <+: ("\x7b% ".data ++ (tag ++ (" %\x7d".data ++ post))) :=
    ⟨' ' :: (tag ++ (" %\x7d".data ++ post)), rfl⟩
  have hcu : consume_until content tagOpenStr
      (charIndicesFrom (byteLen u) (w ++ ("\x7b% ".data ++ (tag ++ (" %\x7d".data ++ post))))) =
      .val (some (byteLen u + byteLen w),
        charIndicesFrom (byteLen u + byteLen w)
          ("\x7b% ".data ++ (tag ++ (" %\x7d".data ++ post)))) :=
    cu_found content tagOpenStr u w ("\x7b% ".data ++ (tag ++ (" %\x7d".data ++ post))) hA hc
      (by decide) (no_tagopen_before w _ hw hv0) hpre
  have hdws : consume_whitespace (skip_dash
      (charIndicesFrom (byteLen u + byteLen w + 1 + 1)
        (' ' :: (tag ++ (" %\x7d".data ++ post))))) =
      charIndicesFrom (byteLen u + byteLen w + 1 + 1 + 1) (tag ++ (" %\x7d".data ++ post)) := by
    have h := dash_ws_step (byteLen u + byteLen w + 1 + 1) [] (tag ++ (" %\x7d".data ++ post))
      (Or.inl rfl)
      (by
        intro c hcc
        match tag, htag with
        | t0 :: tag', _ =>
          rw [show ((t0 :: tag') ++ (" %\x7d".data ++ post)).head? = some t0 from rfl] at hcc
          simp only [Option.some.injEq] at hcc
          rw [← hcc]
          exact hth t0 rfl)
    rw [List.nil_append] at h
    rw [show byteLen ([] : Str) = 0 from rfl] at h
    rw [show byteLen u + byteLen w + 1 + 1 + 0 + 1 =
      byteLen u + byteLen w + 1 + 1 + 1 from by omega] at h
    exact h
  have hU : content = (u ++ (w ++ "\x7b% ".data)) ++ (tag ++ (" %\x7d".data ++ post)) := by
    rw [hc]
    simp
  have hUpos : byteLen u + byteLen w + 1 + 1 + 1 = byteLen (u ++ (w ++ "\x7b% ".data)) := by
    rw [byteLen_append, byteLen_append]
    rw [show byteLen ("\x7b% ".data) = 3 from rfl]
    omega
  have hpk : peek_matches content tag
      (charIndicesFrom (byteLen u + byteLen w + 1 + 1 + 1)
        (tag ++ (" %\x7d".data ++ post))) = .val true := by
    rw [hUpos]
    apply peekm_true content _ _ tag hA hAn hU
      (fun hx => htag (List.append_eq_nil.mp hx).1)
      (by simp)
    · rw [List.take_left]
      exact hself
    · intro c hcc
      rw [List.getElem?_append_right (le_refl tag.length), Nat.sub_self] at hcc
      rw [show (" %\x7d".data ++ post)[0]? = some ' ' from rfl] at hcc
      simp only [Option.some.injEq] at hcc
      rw [← hcc]
      decide
  have htake : (tag ++ (" %\x7d".data ++ post)).take (byteLen tag) = tag := by
    rw [hAn]
    exact List.take_left _ _
  have hdrop : (tag ++ (" %\x7d".data ++ post)).drop (byteLen tag) = " %\x7d".data ++ post := by
    rw [hAn]
    exact List.drop_left _ _
  have hcc4 : consume_chars (byteLen tag)
      (charIndicesFrom (byteLen u + byteLen w + 1 + 1 + 1) (tag ++ (" %\x7d".data ++ post))) =
      charIndicesFrom (byteLen u + byteLen w + 1 + 1 + 1 + byteLen tag)
        (' ' :: ('%' :: ('\x7d' :: post))) := by
    rw [consume_chars_norm, htake, hdrop]
    rfl
  have hc5 : content = (u ++ (w ++ ("\x7b% ".data ++ tag))) ++
      (' ' :: ('%' :: ('\x7d' :: post))) := by
    rw [hc]
    simp
  have hUpos5 : byteLen u + byteLen w + 1 + 1 + 1 + byteLen tag =
      byteLen (u ++ (w ++ ("\x7b% ".data ++ tag))) := by
    rw [byteLen_append, byteLen_append, byteLen_append]
    rw [show byteLen ("\x7b% ".data) = 3 from rfl]
    omega
  have htcs : skip_to_tag_close content
      (charIndicesFrom (byteLen u + byteLen w + 1 + 1 + 1 + byteLen tag)
        (' ' :: ('%' :: ('\x7d' :: post)))) =
      (some (byteLen u + byteLen w + 3 + byteLen tag + 3),
        charIndicesFrom (byteLen u + byteLen w + 3 + byteLen tag + 3) post) := by
    have h := tag_close_step_all content (u ++ (w ++ ("\x7b% ".data ++ tag))) post hc5
    rw [← hUpos5] at h
    rw [show byteLen u + byteLen w + 1 + 1 + 1 + byteLen tag + 3 =
      byteLen u + byteLen w + 3 + byteLen tag + 3 from by omega] at h
    exact h
  rw [skip_to_tag]
  simp only [hcu]
  rw [show ("\x7b% ".data ++ (tag ++ (" %\x7d".data ++ post))) =
    '\x7b' :: ('%' :: (' ' :: (tag ++ (" %\x7d".data ++ post)))) from rfl]
  rw [charIndicesFrom, charIndicesFrom, show uwidth '\x7b' = 1 from rfl,
    show uwidth '%' = 1 from rfl]
  simp only [Nat.sub_self]
  rw [show consume_chars (0 + 2)
      ((byteLen u + byteLen w, '\x7b') :: ((byteLen u + byteLen w + 1, '%') ::
        charIndicesFrom (byteLen u + byteLen w + 1 + 1)
          (' ' :: (tag ++ (" %\x7d".data ++ post))))) =
    charIndicesFrom (byteLen u + byteLen w + 1 + 1)
      (' ' :: (tag ++ (" %\x7d".data ++ post))) from rfl]
  rw [hdws, hpk]
  simp only [if_true, hcc4, htcs]

end LiquidDocs

namespace LiquidDocs

/-- The `extract_doc_blocks` iteration that begins at `{% raw %}` skips the
whole raw region — including a complete `{% doc %}...{% enddoc %}` block
nested inside it — extracting nothing and resuming right after
`{% endraw %}`. -/
theorem extract_step_raw (content body post : Str)
    (hA : ∀ c ∈ content, c.toNat < 128)
    (hc : content = "\x7b% raw %\x7d\x7b% doc %\x7d".data ++
      (body ++ ("\x7b% enddoc %\x7d\x7b% endraw %\x7d".data ++ post)))
    (hbody : ¬ tagOpenStr <:+: body) :
    extract_step content '\x7b'
      (charIndicesFrom 1 ('%' :: (' ' :: ("raw %\x7d\x7b% doc %\x7d".data ++
        (body ++ ("\x7b% enddoc %\x7d\x7b% endraw %\x7d".data ++ post)))))) =
      .cont (charIndicesFrom (42 + byteLen body) post) none := by
  set V := "raw %\x7d\x7b% doc %\x7d".data ++
    (body ++ ("\x7b% enddoc %\x7d\x7b% endraw %\x7d".data ++ post)) with hV
  have hU0 : content = "\x7b% ".data ++ V := by
    rw [hc, hV]
    rfl
  have hdws2 : consume_whitespace (skip_dash (charIndicesFrom 2 (' ' :: V))) =
      charIndicesFrom 3 V := by
    have h := dash_ws_step 2 [] V (Or.inl rfl)
      (by
        intro c hcc
        rw [hV] at hcc
        rw [show (("raw %\x7d\x7b% doc %\x7d".data ++
          (body ++ ("\x7b% enddoc %\x7d\x7b% endraw %\x7d".data ++ post))).head?) =
          some 'r' from rfl] at hcc
        simp only [Option.some.injEq] at hcc
        rw [← hcc]
        exact ⟨by decide, by decide⟩)
    rw [List.nil_append] at h
    rw [show (2 : Nat) + byteLen ([] : Str) + 1 = 3 from rfl] at h
    exact h
  have hVne : V ≠ [] := by
    rw [hV]
    simp
  have hpkh : peek_matches content hashStr (charIndicesFrom 3 V) = .val false := by
    rw [show (3 : Nat) = byteLen ("\x7b% ".data) from rfl]
    apply peekm_false content _ _ hashStr hA (by decide) hU0 hVne
    rw [hV]
    rw [show (("raw %\x7d\x7b% doc %\x7d".data ++
      (body ++ ("\x7b% enddoc %\x7d\x7b% endraw %\x7d".data ++ post))).take hashStr.length) =
      ['r'] from rfl]
    decide
  have hpkr : peek_matches content rawStr (charIndicesFrom 3 V) = .val true := by
    rw [show (3 : Nat) = byteLen ("\x7b% ".data) from rfl]
    apply peekm_true content _ _ rawStr hA (by decide) hU0 hVne
    · rw [show rawStr.length = 3 from rfl, hV]
      simp
    · rw [hV]
      rw [show (("raw %\x7d\x7b% doc %\x7d".data ++
        (body ++ ("\x7b% enddoc %\x7d\x7b% endraw %\x7d".data ++ post))).take rawStr.length) =
        "raw".data from rfl]
      decide
    · intro c hcc
      rw [hV, show rawStr.length = 3 from rfl] at hcc
      rw [List.getElem?_append_left (by simp)] at hcc
      rw [show ("raw %\x7d\x7b% doc %\x7d".data)[3]? = some ' ' from by decide] at hcc
      simp only [Option.some.injEq] at hcc
      rw [← hcc]
      decide
  have hflen : (charIndicesFrom 3 V).length + 1 =
      (body.length + post.length + 37) + 1 + 1 + 1 := by
    rw [charIndicesFrom_length, hV, List.length_append, List.length_append,
      List.length_append]
    rw [show ("raw %\x7d\x7b% doc %\x7d".data).length = 15 from rfl,
      show ("\x7b% enddoc %\x7d\x7b% endraw %\x7d".data).length = 24 from rfl]
    omega
  have hskip : skip_to_tag content endrawStr true ((charIndicesFrom 3 V).length + 1)
      (charIndicesFrom 3 V) =
      .val (some (42 + byteLen body), charIndicesFrom (42 + byteLen body) post) := by
    rw [hflen]
    have h1 := skip_to_tag_miss content endrawStr true ("\x7b% ".data) ("raw %\x7d".data)
      'd' ("oc %\x7d".data ++ (body ++ ("\x7b% enddoc %\x7d\x7b% endraw %\x7d".data ++ post)))
      ((body.length + post.length + 37) + 1 + 1) hA (by decide)
      (by rw [hc]; rfl) (by decide) (by decide) (by decide)
      (by
        rw [show (('d' :: ("oc %\x7d".data ++
          (body ++ ("\x7b% enddoc %\x7d\x7b% endraw %\x7d".data ++ post)))).take
          endrawStr.length) = "doc %\x7d".data from rfl]
        decide)
    rw [show byteLen ("\x7b% ".data) = 3 from rfl,
      show byteLen ("raw %\x7d".data) = 6 from rfl] at h1
    rw [show (3 : Nat) + 6 + 3 = 12 from rfl] at h1
    rw [show V = "raw %\x7d".data ++ ("\x7b% ".data ++ ('d' :: ("oc %\x7d".data ++
      (body ++ ("\x7b% enddoc %\x7d\x7b% endraw %\x7d".data ++ post))))) from by
      rw [hV]; rfl]
    rw [h1]
    have h2 := skip_to_tag_miss content endrawStr true ("\x7b% raw %\x7d\x7b% ".data)
      ("doc %\x7d".data ++ body) 'e' ("nddoc %\x7d\x7b% endraw %\x7d".data ++ post)
      ((body.length + post.length + 37) + 1) hA (by decide)
      (by rw [hc]; rfl)
      (no_tagopen_append ("doc %\x7d".data) body (by decide) hbody)
      (by decide) (by decide)
      (by
        rw [show (('e' :: ("nddoc %\x7d\x7b% endraw %\x7d".data ++ post)).take
          endrawStr.length) = "enddoc".data from rfl]
        decide)
    rw [show byteLen ("\x7b% raw %\x7d\x7b% ".data) = 12 from rfl] at h2
    rw [byteLen_append, show byteLen ("doc %\x7d".data) = 6 from rfl] at h2
    rw [show (12 : Nat) + (6 + byteLen body) + 3 = 21 + byteLen body from by omega] at h2
    rw [show ('d' :: ("oc %\x7d".data ++
      (body ++ ("\x7b% enddoc %\x7d\x7b% endraw %\x7d".data ++ post)))) =
      ("doc %\x7d".data ++ body) ++ ("\x7b% ".data ++
        ('e' :: ("nddoc %\x7d\x7b% endraw %\x7d".data ++ post))) from rfl]
    rw [h2]
    have h3 := skip_to_tag_hit content endrawStr
      ("\x7b% raw %\x7d\x7b% doc %\x7d".data ++ (body ++ "\x7b% ".data))
      ("enddoc %\x7d".data) post ((body.length + post.length + 37)) hA (by decide)
      (by
        rw [hc]
        rw [show ("\x7b% enddoc %\x7d\x7b% endraw %\x7d".data ++ post) =
          "\x7b% ".data ++ ("enddoc %\x7d".data ++ ("\x7b% ".data ++
            (endrawStr ++ (" %\x7d".data ++ post)))) from rfl]
        simp [List.append_assoc])
      (by decide) (by decide)
      (by
        intro c hcc
        rw [show endrawStr.head? = some 'e' from rfl] at hcc
        simp only [Option.some.injEq] at hcc
        rw [← hcc]
        exact ⟨by decide, by decide⟩)
      (by decide)
    rw [byteLen_append, byteLen_append,
      show byteLen ("\x7b% raw %\x7d\x7b% doc %\x7d".data) = 18 from rfl,
      show byteLen ("\x7b% ".data) = 3 from rfl,
      show byteLen ("enddoc %\x7d".data) = 9 from rfl,
      show byteLen endrawStr = 6 from rfl] at h3
    rw [show (18 : Nat) + (byteLen body + 3) = 21 + byteLen body from by omega] at h3
    rw [show (21 : Nat) + byteLen body + 9 + 3 + 6 + 3 = 42 + byteLen body from by
      omega] at h3
    rw [show ('e' :: ("nddoc %\x7d\x7b% endraw %\x7d".data ++ post)) =
      "enddoc %\x7d".data ++ ("\x7b% ".data ++ (endrawStr ++ (" %\x7d".data ++ post)))
      from rfl]
    rw [h3]
  rw [charIndicesFrom, show (1 : Nat) + uwidth '%' = 2 from by
    rw [show uwidth '%' = 1 from rfl]]
  rw [extract_step.eq_def]
  simp only [hdws2, hpkh, hpkr, hskip]

end LiquidDocs

namespace LiquidDocs

/-- A `{% doc %}...{% enddoc %}` block nested inside `{% raw %}...{% endraw %}`
is never extracted: the whole scan returns `None`. -/
theorem extract_raw_nested (body post : Str)
    (hAb : ∀ c ∈ body, c.toNat < 128) (hAp : ∀ c ∈ post, c.toNat < 128)
    (hbody : ¬ tagOpenStr <:+: body) (hpost : ¬ tagOpenStr <:+: post) :
    extract_doc_blocks ("\x7b% raw %\x7d\x7b% doc %\x7d".data ++
      (body ++ ("\x7b% enddoc %\x7d\x7b% endraw %\x7d".data ++ post))) = .val none := by
  set content := "\x7b% raw %\x7d\x7b% doc %\x7d".data ++
    (body ++ ("\x7b% enddoc %\x7d\x7b% endraw %\x7d".data ++ post)) with hcon
  have hlit1 : ∀ c ∈ ("\x7b% raw %\x7d\x7b% doc %\x7d".data : Str), c.toNat < 128 := by
    decide
  have hlit2 : ∀ c ∈ ("\x7b% enddoc %\x7d\x7b% endraw %\x7d".data : Str), c.toNat < 128 := by
    decide
  have hA : ∀ c ∈ content, c.toNat < 128 := by
    intro c hcc
    rw [hcon] at hcc
    rcases List.mem_append.mp hcc with h | h
    · exact hlit1 c h
    · rcases List.mem_append.mp h with h | h
      · exact hAb c h
      · rcases List.mem_append.mp h with h | h
        · exact hlit2 c h
        · exact hAp c h
  have hpossible : 1 ≤ countMatches content enddocStr := by
    have h1 : enddocStr <:+: "\x7b% enddoc %\x7d\x7b% endraw %\x7d".data := by decide
    have h2 : "\x7b% enddoc %\x7d\x7b% endraw %\x7d".data <:+: content :=
      ⟨"\x7b% raw %\x7d\x7b% doc %\x7d".data ++ body, post, by rw [hcon]; simp⟩
    exact countMatches_pos _ _ (by decide) (h1.trans h2)
  have hcic : charIndices content = (0, '\x7b') ::
      charIndicesFrom 1 ('%' :: (' ' :: ("raw %\x7d\x7b% doc %\x7d".data ++
        (body ++ ("\x7b% enddoc %\x7d\x7b% endraw %\x7d".data ++ post))))) := by
    rw [charIndices]
    rw [show content = '\x7b' :: ('%' :: (' ' :: ("raw %\x7d\x7b% doc %\x7d".data ++
      (body ++ ("\x7b% enddoc %\x7d\x7b% endraw %\x7d".data ++ post))))) from by
      rw [hcon]; rfl]
    rw [charIndicesFrom, Nat.zero_add, show uwidth '\x7b' = 1 from rfl]
  have hstep := extract_step_raw content body post hA hcon hbody
  have hnt : ∀ j, ¬ tagOpenStr <+: (post.drop j) :=
    fun j h => hpost (infix_of_prefix_drop _ _ _ h)
  have hlen : post.length < content.length := by
    rw [hcon, List.length_append, List.length_append, List.length_append]
    rw [show ("\x7b% raw %\x7d\x7b% doc %\x7d".data).length = 18 from rfl,
      show ("\x7b% enddoc %\x7d\x7b% endraw %\x7d".data).length = 24 from rfl]
    omega
  rw [extract_doc_blocks]
  rw [if_neg (by omega)]
  rw [hcic]
  rw [extract_loopB]
  simp only [hstep]
  simp only [Option.toList_none, List.append_nil, Option.isSome_none, Bool.false_eq_true,
    if_false, Nat.add_zero]
  rw [if_neg (show ¬ (0 : Nat) = countMatches content enddocStr from by omega)]
  rw [extract_loopB_noop content (countMatches content enddocStr) 0 [] (by omega)
    post content.length (42 + byteLen body) hlen hnt]
  simp

end LiquidDocs

namespace LiquidDocs

/-- The `extract_doc_blocks` iteration that begins at `{% comment %}` skips
the whole comment region — including a complete `{% doc %}...{% enddoc %}`
block nested inside it — extracting nothing and resuming right after
`{% endcomment %}`. -/
theorem extract_step_comment (content body post : Str)
    (hA : ∀ c ∈ content, c.toNat < 128)
    (hc : content = "\x7b% comment %\x7d\x7b% doc %\x7d".data ++
      (body ++ ("\x7b% enddoc %\x7d\x7b% endcomment %\x7d".data ++ post)))
    (hbody : ¬ tagOpenStr <:+: body) :
    extract_step content '\x7b'
      (charIndicesFrom 1 ('%' :: (' ' :: ("comment %\x7d\x7b% doc %\x7d".data ++
        (body ++ ("\x7b% enddoc %\x7d\x7b% endcomment %\x7d".data ++ post)))))) =
      .cont (charIndicesFrom (50 + byteLen body) post) none := by
  set V := "comment %\x7d\x7b% doc %\x7d".data ++
    (body ++ ("\x7b% enddoc %\x7d\x7b% endcomment %\x7d".data ++ post)) with hV
  have hU0 : content = "\x7b% ".data ++ V := by
    rw [hc, hV]
    rfl
  have hdws2 : consume_whitespace (skip_dash (charIndicesFrom 2 (' ' :: V))) =
      charIndicesFrom 3 V := by
    have h := dash_ws_step 2 [] V (Or.inl rfl)
      (by
        intro c hcc
        rw [hV] at hcc
        rw [show (("comment %\x7d\x7b% doc %\x7d".data ++
          (body ++ ("\x7b% enddoc %\x7d\x7b% endcomment %\x7d".data ++ post))).head?) =
          some 'c' from rfl] at hcc
        simp only [Option.some.injEq] at hcc
        rw [← hcc]
        exact ⟨by decide, by decide⟩)
    rw [List.nil_append] at h
    rw [show (2 : Nat) + byteLen ([] : Str) + 1 = 3 from rfl] at h
    exact h
  have hVne : V ≠ [] := by
    rw [hV]
    simp
  have hpkh : peek_matches content hashStr (charIndicesFrom 3 V) = .val false := by
    rw [show (3 : Nat) = byteLen ("\x7b% ".data) from rfl]
    apply peekm_false content _ _ hashStr hA (by decide) hU0 hVne
    rw [hV]
    rw [show (("comment %\x7d\x7b% doc %\x7d".data ++
      (body ++ ("\x7b% enddoc %\x7d\x7b% endcomment %\x7d".data ++ post))).take
      hashStr.length) = ['c'] from rfl]
    decide
  have hpkr : peek_matches content rawStr (charIndicesFrom 3 V) = .val false := by
    rw [show (3 : Nat) = byteLen ("\x7b% ".data) from rfl]
    apply peekm_false content _ _ rawStr hA (by decide) hU0 hVne
    rw [hV]
    rw [show (("comment %\x7d\x7b% doc %\x7d".data ++
      (body ++ ("\x7b% enddoc %\x7d\x7b% endcomment %\x7d".data ++ post))).take
      rawStr.length) = "com".data from rfl]
    decide
  have hpkc : peek_matches content commentStr (charIndicesFrom 3 V) = .val true := by
    rw [show (3 : Nat) = byteLen ("\x7b% ".data) from rfl]
    apply peekm_true content _ _ commentStr hA (by decide) hU0 hVne
    · rw [show commentStr.length = 7 from rfl, hV]
      simp
    · rw [hV]
      rw [show (("comment %\x7d\x7b% doc %\x7d".data ++
        (body ++ ("\x7b% enddoc %\x7d\x7b% endcomment %\x7d".data ++ post))).take
        commentStr.length) = "comment".data from rfl]
      decide
    · intro c hcc
      rw [hV, show commentStr.length = 7 from rfl] at hcc
      rw [List.getElem?_append_left (by simp)] at hcc
      rw [show ("comment %\x7d\x7b% doc %\x7d".data)[7]? = some ' ' from by decide] at hcc
      simp only [Option.some.injEq] at hcc
      rw [← hcc]
      decide
  have hflen : (charIndicesFrom 3 V).length + 1 =
      (body.length + post.length + 45) + 1 + 1 + 1 := by
    rw [charIndicesFrom_length, hV, List.length_append, List.length_append,
      List.length_append]
    rw [show ("comment %\x7d\x7b% doc %\x7d".data).length = 19 from rfl,
      show ("\x7b% enddoc %\x7d\x7b% endcomment %\x7d".data).length = 28 from rfl]
    omega
  have hskip : skip_to_tag content endcommentStr true ((charIndicesFrom 3 V).length + 1)
      (charIndicesFrom 3 V) =
      .val (some (50 + byteLen body), charIndicesFrom (50 + byteLen body) post) := by
    rw [hflen]
    have h1 := skip_to_tag_miss content endcommentStr true ("\x7b% ".data)
      ("comment %\x7d".data) 'd'
      ("oc %\x7d".data ++ (body ++ ("\x7b% enddoc %\x7d\x7b% endcomment %\x7d".data ++ post)))
      ((body.length + post.length + 45) + 1 + 1) hA (by decide)
      (by rw [hc]; rfl) (by decide) (by decide) (by decide)
      (by
        rw [show endcommentStr.length = 9 + 1 from rfl, List.take_succ_cons]
        rw [show endcommentStr = 'e' :: "ndcomment".data from rfl]
        exact eqIgnore_head_ne 'd' 'e' _ _ (by decide))
    rw [show byteLen ("\x7b% ".data) = 3 from rfl,
      show byteLen ("comment %\x7d".data) = 10 from rfl] at h1
    rw [show (3 : Nat) + 10 + 3 = 16 from rfl] at h1
    rw [show V = "comment %\x7d".data ++ ("\x7b% ".data ++ ('d' :: ("oc %\x7d".data ++
      (body ++ ("\x7b% enddoc %\x7d\x7b% endcomment %\x7d".data ++ post))))) from by
      rw [hV]; rfl]
    rw [h1]
    have h2 := skip_to_tag_miss content endcommentStr true ("\x7b% comment %\x7d\x7b% ".data)
      ("doc %\x7d".data ++ body) 'e' ("nddoc %\x7d\x7b% endcomment %\x7d".data ++ post)
      ((body.length + post.length + 45) + 1) hA (by decide)
      (by rw [hc]; rfl)
      (no_tagopen_append ("doc %\x7d".data) body (by decide) hbody)
      (by decide) (by decide)
      (by
        rw [show (('e' :: ("nddoc %\x7d\x7b% endcomment %\x7d".data ++ post)).take
          endcommentStr.length) = "enddoc %\x7d\x7b".data from rfl]
        decide)
    rw [show byteLen ("\x7b% comment %\x7d\x7b% ".data) = 16 from rfl] at h2
    rw [byteLen_append, show byteLen ("doc %\x7d".data) = 6 from rfl] at h2
    rw [show (16 : Nat) + (6 + byteLen body) + 3 = 25 + byteLen body from by omega] at h2
    rw [show ('d' :: ("oc %\x7d".data ++
      (body ++ ("\x7b% enddoc %\x7d\x7b% endcomment %\x7d".data ++ post)))) =
      ("doc %\x7d".data ++ body) ++ ("\x7b% ".data ++
        ('e' :: ("nddoc %\x7d\x7b% endcomment %\x7d".data ++ post))) from rfl]
    rw [h2]
    have h3 := skip_to_tag_hit content endcommentStr
      ("\x7b% comment %\x7d\x7b% doc %\x7d".data ++ (body ++ "\x7b% ".data))
      ("enddoc %\x7d".data) post ((body.length + post.length + 45)) hA (by decide)
      (by
        rw [hc]
        rw [show ("\x7b% enddoc %\x7d\x7b% endcomment %\x7d".data ++ post) =
          "\x7b% ".data ++ ("enddoc %\x7d".data ++ ("\x7b% ".data ++
            (endcommentStr ++ (" %\x7d".data ++ post)))) from rfl]
        simp [List.append_assoc])
      (by decide) (by decide)
      (by
        intro c hcc
        rw [show endcommentStr.head? = some 'e' from rfl] at hcc
        simp only [Option.some.injEq] at hcc
        rw [← hcc]
        exact ⟨by decide, by decide⟩)
      (by decide)
    rw [byteLen_append, byteLen_append,
      show byteLen ("\x7b% comment %\x7d\x7b% doc %\x7d".data) = 22 from rfl,
      show byteLen ("\x7b% ".data) = 3 from rfl,
      show byteLen ("enddoc %\x7d".data) = 9 from rfl,
      show byteLen endcommentStr = 10 from rfl] at h3
    rw [show (22 : Nat) + (byteLen body + 3) = 25 + byteLen body from by omega] at h3
    rw [show (25 : Nat) + byteLen body + 9 + 3 + 10 + 3 = 50 + byteLen body from by
      omega] at h3
    rw [show ('e' :: ("nddoc %\x7d\x7b% endcomment %\x7d".data ++ post)) =
      "enddoc %\x7d".data ++ ("\x7b% ".data ++ (endcommentStr ++ (" %\x7d".data ++ post)))
      from rfl]
    rw [h3]
  rw [charIndicesFrom, show (1 : Nat) + uwidth '%' = 2 from by
    rw [show uwidth '%' = 1 from rfl]]
  rw [extract_step.eq_def]
  simp only [hdws2, hpkh, hpkr, hpkc, hskip]

end LiquidDocs

namespace LiquidDocs

/-- A `{% doc %}...{% enddoc %}` block nested inside
`{% comment %}...{% endcomment %}` is never extracted: the whole scan
returns `None`. -/
theorem extract_comment_nested (body post : Str)
    (hAb : ∀ c ∈ body, c.toNat < 128) (hAp : ∀ c ∈ post, c.toNat < 128)
    (hbody : ¬ tagOpenStr <:+: body) (hpost : ¬ tagOpenStr <:+: post) :
    extract_doc_blocks ("\x7b% comment %\x7d\x7b% doc %\x7d".data ++
      (body ++ ("\x7b% enddoc %\x7d\x7b% endcomment %\x7d".data ++ post))) = .val none := by
  set content := "\x7b% comment %\x7d\x7b% doc %\x7d".data ++
    (body ++ ("\x7b% enddoc %\x7d\x7b% endcomment %\x7d".data ++ post)) with hcon
  have hlit1 : ∀ c ∈ ("\x7b% comment %\x7d\x7b% doc %\x7d".data : Str), c.toNat < 128 := by
    decide
  have hlit2 : ∀ c ∈ ("\x7b% enddoc %\x7d\x7b% endcomment %\x7d".data : Str),
      c.toNat < 128 := by
    decide
  have hA : ∀ c ∈ content, c.toNat < 128 := by
    intro c hcc
    rw [hcon] at hcc
    rcases List.mem_append.mp hcc with h | h
    · exact hlit1 c h
    · rcases List.mem_append.mp h with h | h
      · exact hAb c h
      · rcases List.mem_append.mp h with h | h
        · exact hlit2 c h
        · exact hAp c h
  have hpossible : 1 ≤ countMatches content enddocStr := by
    have h1 : enddocStr <:+: "\x7b% enddoc %\x7d\x7b% endcomment %\x7d".data := by decide
    have h2 : "\x7b% enddoc %\x7d\x7b% endcomment %\x7d".data <:+: content :=
      ⟨"\x7b% comment %\x7d\x7b% doc %\x7d".data ++ body, post, by rw [hcon]; simp⟩
    exact countMatches_pos _ _ (by decide) (h1.trans h2)
  have hcic : charIndices content = (0, '\x7b') ::
      charIndicesFrom 1 ('%' :: (' ' :: ("comment %\x7d\x7b% doc %\x7d".data ++
        (body ++ ("\x7b% enddoc %\x7d\x7b% endcomment %\x7d".data ++ post))))) := by
    rw [charIndices]
    rw [show content = '\x7b' :: ('%' :: (' ' :: ("comment %\x7d\x7b% doc %\x7d".data ++
      (body ++ ("\x7b% enddoc %\x7d\x7b% endcomment %\x7d".data ++ post))))) from by
      rw [hcon]; rfl]
    rw [charIndicesFrom, Nat.zero_add, show uwidth '\x7b' = 1 from rfl]
  have hstep := extract_step_comment content body post hA hcon hbody
  have hnt : ∀ j, ¬ tagOpenStr <+: (post.drop j) :=
    fun j h => hpost (infix_of_prefix_drop _ _ _ h)
  have hlen : post.length < content.length := by
    rw [hcon, List.length_append, List.length_append, List.length_append]
    rw [show ("\x7b% comment %\x7d\x7b% doc %\x7d".data).length = 22 from rfl,
      show ("\x7b% enddoc %\x7d\x7b% endcomment %\x7d".data).length = 28 from rfl]
    omega
  rw [extract_doc_blocks]
  rw [if_neg (by omega)]
  rw [hcic]
  rw [extract_loopB]
  simp only [hstep]
  simp only [Option.toList_none, List.append_nil, Option.isSome_none, Bool.false_eq_true,
    if_false, Nat.add_zero]
  rw [if_neg (show ¬ (0 : Nat) = countMatches content enddocStr from by omega)]
  rw [extract_loopB_noop content (countMatches content enddocStr) 0 [] (by omega)
    post content.length (50 + byteLen body) hlen hnt]
  simp

end LiquidDocs

namespace LiquidDocs

/-- **C2**: a doc block nested inside a `{% raw %}...{% endraw %}` or
`{% comment %}...{% endcomment %}` region is never extracted: for every
ASCII doc-block body and trailing text free of the `{%` tag opener, wrapping
`{% doc %}body{% enddoc %}` in either region makes `extract_doc_blocks`
return `None`; in particular
`extract_doc_blocks "{% raw %}{% doc %}x{% enddoc %}{% endraw %}y" = None`;
and whenever the scan finds zero blocks the function returns `None`, never
an empty list. -/
theorem extract_nested_and_empty_none :
    (∀ body post : Str, (∀ c ∈ body, c.toNat < 128) → (∀ c ∈ post, c.toNat < 128) →
      ¬ tagOpenStr <:+: body → ¬ tagOpenStr <:+: post →
      extract_doc_blocks ("\x7b% raw %\x7d\x7b% doc %\x7d".data ++
        (body ++ ("\x7b% enddoc %\x7d\x7b% endraw %\x7d".data ++ post))) = .val none) ∧
    (∀ body post : Str, (∀ c ∈ body, c.toNat < 128) → (∀ c ∈ post, c.toNat < 128) →
      ¬ tagOpenStr <:+: body → ¬ tagOpenStr <:+: post →
      extract_doc_blocks ("\x7b% comment %\x7d\x7b% doc %\x7d".data ++
        (body ++ ("\x7b% enddoc %\x7d\x7b% endcomment %\x7d".data ++ post))) = .val none) ∧
    extract_doc_blocks
        ("\x7b% raw %\x7d\x7b% doc %\x7dx\x7b% enddoc %\x7d\x7b% endraw %\x7dy".data) =
      .val none ∧
    (∀ content bs, extract_doc_blocks content = .val (some bs) → bs ≠ []) := by
  refine ⟨extract_raw_nested, extract_comment_nested, by decide, ?_⟩
  intro content bs h
  simp only [extract_doc_blocks] at h
  split at h
  · exact absurd h (by simp)
  · split at h
    · rename_i blocks heq
      injection h with h
      split at h
      · exact absurd h (by simp)
      · rename_i hbne
        injection h with h
        rw [← h]
        exact hbne
    · exact absurd h (by simp)
    · exact absurd h (by simp)
    · exact absurd h (by simp)

/-- Witness for **C2**: both nesting families applied at the concrete body
`x` and trailing text `y`, and the no-empty-list clause applied at an input
where the scan does extract a block. -/
theorem extract_nested_and_empty_none_witness :
    extract_doc_blocks ("\x7b% raw %\x7d\x7b% doc %\x7d".data ++
      ("x".data ++ ("\x7b% enddoc %\x7d\x7b% endraw %\x7d".data ++ "y".data))) =
      .val none ∧
    extract_doc_blocks ("\x7b% comment %\x7d\x7b% doc %\x7d".data ++
      ("x".data ++ ("\x7b% enddoc %\x7d\x7b% endcomment %\x7d".data ++ "y".data))) =
      .val none ∧
    (["x".data] : List Str) ≠ [] :=
  ⟨extract_nested_and_empty_none.1 ("x".data) ("y".data) (by decide) (by decide)
      (by decide) (by decide),
    extract_nested_and_empty_none.2.1 ("x".data) ("y".data) (by decide) (by decide)
      (by decide) (by decide),
    extract_nested_and_empty_none.2.2.2 ("\x7b% doc %\x7dx\x7b% enddoc %\x7d".data) _
      (by decide)⟩

end LiquidDocs

namespace LiquidDocs

theorem sliceT_isInfix (content : Str) (a b : Nat) : sliceT content a b <:+: content := by
  have h1 : ((charIndices content).dropWhile (fun p => decide (p.1 < a))).takeWhile
      (fun p => decide (p.1 < b)) <:+: charIndices content :=
    ((List.takeWhile_prefix _).isInfix).trans ((List.dropWhile_suffix _).isInfix)
  have h2 := List.IsInfix.map Prod.snd h1
  rw [show (charIndices content).map Prod.snd = content from by
    rw [charIndices]; exact charIndicesFrom_map_snd 0 content] at h2
  exact h2

/-- `ArrayOf` provenance at the `{type}` step: an `ArrayOf u` result arises
only from a declared type name (the trimmed `{...}` slice, an infix of the
body) that ends in `[]` and resolves, with the `[]` stripped, to `u`. -/
theorem pts_arrayOf (content : Str) (ls sp : Nat) (ch : Char) (st : St)
    (tOpt : Option ParamType) (st' : St)
    (h : param_type_step content ls sp ch st = .val (.inr (tOpt, st'))) :
    ∀ u, tOpt = some (.arrayOf u) →
      ∃ tn : Str, tn <:+: content ∧ ("[]".data).isSuffixOf tn = true ∧
        resolve_type_name (tn.dropLast.dropLast) = .inr u := by
  intro u hu
  simp only [param_type_step.eq_def] at h
  split at h
  · split at h
    · exact absurd h (by simp)
    · split at h
      · exact absurd h (by simp)
      · exact absurd h (by simp)
      · exact absurd h (by simp)
      · split at h
        · exact absurd h (by simp)
        · rename_i et hres
          injection h with h
          injection h with h
          injection h with h1 h2
          rw [hu] at h1
          split at h1
          · rename_i hsuf
            injection h1 with h1
            injection h1 with h1
            rw [h1] at hres
            rw [if_pos hsuf] at hres
            refine ⟨_, ?_, hsuf, hres⟩
            exact (trimStr_isInfix _).trans (sliceT_isInfix content _ _)
          · rename_i hsuf
            injection h1 with h1
            rcases resolve_type_name_inr _ _ hres with h' | h' | h' | h' | ⟨n, h'⟩ <;>
              rw [h'] at h1 <;> simp at h1
  · injection h with h
    injection h with h
    simp only [Prod.mk.injEq] at h
    obtain ⟨h1, -⟩ := h
    rw [hu] at h1
    exact absurd h1 (by simp)

/-- `ArrayOf` provenance lifted to the whole `@param` branch. -/
theorem pb_arrayOf (content : Str) (ls : Nat) (st : St) (p : Param) (st' : St)
    (h : param_branch content ls st = .val (.ok (some p) st')) :
    ∀ u, p.type_ = some (.arrayOf u) →
      ∃ tn : Str, tn <:+: content ∧ ("[]".data).isSuffixOf tn = true ∧
        resolve_type_name (tn.dropLast.dropLast) = .inr u := by
  intro u hu
  simp only [param_branch.eq_def] at h
  repeat' split at h
  all_goals simp at h
  all_goals obtain ⟨h1, h2⟩ := h
  all_goals rw [← h1] at hu
  all_goals simp at hu
  all_goals exact pts_arrayOf _ _ _ _ _ _ _ (by assumption) u hu

/-- **C7** (amended): every `ArrayOf` produced by a successful parse wraps
one of the four built-in base kinds or a `Shopify` platform object, never
another `ArrayOf`; and a trailing `[]` on the declared type name is the only
way a parameter's type becomes `ArrayOf`: every `ArrayOf u` parameter type
arises from a declared type name occurring in the body that ends in `[]` and
resolves, with the `[]` stripped, exactly to `u`. -/
theorem array_of_wraps_base_or_shopify (content : Str) (r : DocBlock) (p : Param)
    (u : ParamType) (h : parse_doc_content content = .val (.ok r)) (hp : p ∈ r.param)
    (hu : p.type_ = some (.arrayOf u)) :
    (u = .string ∨ u = .number ∨ u = .boolean ∨ u = .object ∨ ∃ n, u = .shopify n) ∧
    ∃ tn : Str, tn <:+: content ∧ ("[]".data).isSuffixOf tn = true ∧
      resolve_type_name (tn.dropLast.dropLast) = .inr u := by
  rcases parse_param_provenance content r p h hp with ⟨ls, stx, q, stx', hq, hpq⟩
  constructor
  · exact pb_param_shape _ _ _ _ _ hq u (by rw [← hpq]; exact hu)
  · exact pb_arrayOf _ _ _ _ _ hq u (by rw [← hpq]; exact hu)

/-- Witness for **C7**: the amended invariant applied to a concrete parse
with an `ArrayOf String` parameter, whose declared type name `string[]`
occurs in the body, ends in `[]`, and resolves to `String`. -/
theorem array_of_wraps_base_or_shopify_witness :
    ((ParamType.string = .string ∨ ParamType.string = .number ∨
      ParamType.string = .boolean ∨ ParamType.string = .object ∨
      ∃ n, ParamType.string = .shopify n) ∧
     ∃ tn : Str, tn <:+: ("@param \x7bstring[]\x7d x".data) ∧
       ("[]".data).isSuffixOf tn = true ∧
       resolve_type_name (tn.dropLast.dropLast) = .inr .string) :=
  array_of_wraps_base_or_shopify ("@param \x7bstring[]\x7d x".data)
    ⟨[], [⟨"x".data, none, some (.arrayOf .string), false⟩], []⟩
    ⟨"x".data, none, some (.arrayOf .string), false⟩ .string
    (by decide) (by decide) (by decide)

end LiquidDocs
